import Mathlib

/-!
Verification of the VIIRS footprint / antimeridian pipeline.

The repository's visible source is the command surface
(`src/stactools/viirs/commands.py`); the geometry and raster core
(antimeridian resolver, simplifier, densifier/reprojector, subdataset
extractor) is external to the visible file, so those components are
modelled here from the specification's contracts, in exact rational
arithmetic.  The command surface itself is embedded directly from the
Python source.
-/

namespace Viirs

/-- A geodetic or projected vertex: `(longitude, latitude)` (or `(x, y)`),
in exact rational coordinates. -/
abbrev Point := ℚ × ℚ

/-- Cross product term used by the shoelace formula. -/
def cross (a b : Point) : ℚ := a.1 * b.2 - b.1 * a.2

/-- Sum of shoelace cross terms over adjacent vertices of a list.  On a
closed ring (first vertex repeated at the end) this is twice the signed
area. -/
def crossSum : List Point → ℚ
  | [] => 0
  | [_] => 0
  | a :: b :: t => cross a b + crossSum (b :: t)

/-- Signed area of a closed ring (shoelace formula). -/
def signedArea (l : List Point) : ℚ := crossSum l / 2

/-- Adjacent-pair longitude check: the two vertices' longitudes differ by
at most 180 degrees in absolute value. -/
def lonOk (a b : Point) : Bool :=
  decide (b.1 - a.1 ≤ 180) && decide (a.1 - b.1 ≤ 180)

/-- `adjSat p l` holds when every pair of consecutive elements of `l`
satisfies `p`. -/
def adjSat (p : Point → Point → Bool) : List Point → Bool
  | [] => true
  | [_] => true
  | a :: b :: t => p a b && adjSat p (b :: t)

/-- Modelled from the spec: the Antimeridian Resolver's crossing
detection, "determined by scanning consecutive-vertex longitude deltas; a
delta with absolute value > 180° signals a crossing edge". -/
def isCrossing (r : List Point) : Bool := ! adjSat lonOk r

/-- Shift a longitude by the multiple of 360 that brings it within 180
degrees of `prev` (into `[prev - 180, prev + 180)`). -/
def unwrapLon (prev lon : ℚ) : ℚ :=
  lon - 360 * ((⌊(lon - prev + 180) / 360⌋ : ℤ) : ℚ)

/-- Unwrap a vertex chain: each vertex's longitude is shifted by a
multiple of 360 so that it lies within 180 degrees of its (already
unwrapped) predecessor. -/
def unwrapFrom : ℚ → List Point → List Point
  | _, [] => []
  | prev, p :: ps =>
    (unwrapLon prev p.1, p.2) :: unwrapFrom (unwrapLon prev p.1) ps

/-- Modelled from the spec: the Antimeridian Resolver's NORMALIZE action
on a crossing ring ("all vertex longitudes are shifted by ±360° as needed
so the entire ring lies on a single consistent side ... the side matching
the first vertex"), realised as chained unwrapping from the first vertex so
that every spurious crossing delta is removed. -/
def normalizeRing : List Point → List Point
  | [] => []
  | p :: ps => p :: unwrapFrom p.1 ps

/-- Close a ring by repeating its first vertex at the end. -/
def closeRing : List Point → List Point
  | [] => []
  | a :: t => (a :: t) ++ [a]

/-- Latitude at which the edge from `a` eastward-to-westward across the
meridian (longitude delta below -180, so `b` is unwrapped to `b.1 + 360`)
meets longitude 180. -/
def yDn (a b : Point) : ℚ := a.2 + (180 - a.1) * (b.2 - a.2) / (b.1 + 360 - a.1)

/-- Latitude at which the edge from `a` westward-to-eastward across the
meridian (longitude delta above 180, so `b` is unwrapped to `b.1 - 360`)
meets longitude -180. -/
def yUp (a b : Point) : ℚ := a.2 + (-180 - a.1) * (b.2 - a.2) / (b.1 - 360 - a.1)

/-- Modelled from the spec: the segment-cutting loop of the Antimeridian
Resolver's SPLIT action.  Walking the ring edge by edge, each crossing
edge (longitude delta beyond ±180) is cut at the meridian: the current
segment is closed with an interpolated point at longitude ±180 and a new
segment is opened at the opposite sign of the meridian, "treating each
crossing edge independently".  Returns the still-open segment and the
closed segments collected so far. -/
def splitLoop : Point → List Point → List Point → List (List Point) →
    List Point × List (List Point)
  | _, acc, [], segs => (acc, segs)
  | a, acc, b :: rest, segs =>
    if b.1 - a.1 < -180 then
      splitLoop b [((-180 : ℚ), yDn a b), b] rest (segs ++ [acc ++ [((180 : ℚ), yDn a b)]])
    else if 180 < b.1 - a.1 then
      splitLoop b [((180 : ℚ), yUp a b), b] rest (segs ++ [acc ++ [((-180 : ℚ), yUp a b)]])
    else
      splitLoop b (acc ++ [b]) rest segs

/-- Modelled from the spec: the Antimeridian Resolver's SPLIT action.
"The polygon is cut at longitude ±180°, producing two (or more, for
multiply-crossing shapes) simple polygons, each confined to one side of
the meridian."  The final open segment is the continuation (around the
closed ring) of the first collected segment, so the two are merged; every
resulting segment is closed into a ring. -/
def splitRing (r : List Point) : List (List Point) :=
  match r with
  | [] => []
  | p :: ps =>
    match splitLoop p [p] ps [] with
    | (acc, []) => [closeRing acc]
    | (acc, s0 :: rest) => closeRing (acc ++ s0.tail) :: rest.map closeRing

/-- The antimeridian strategy enumeration (mirrors
`stactools.core.utils.antimeridian.Strategy`). -/
inductive Strategy
  | NORMALIZE
  | SPLIT
deriving DecidableEq

/-- Modelled from the spec: the Antimeridian Resolver,
`resolve(polygon, strategy)`.  NOT_CROSSING: the input polygon unchanged,
wrapped as a single-polygon geometry.  CROSSING: normalized or split per
the caller-selected strategy. -/
def resolve (strategy : Strategy) (r : List Point) : List (List Point) :=
  if isCrossing r then
    match strategy with
    | .NORMALIZE => [normalizeRing r]
    | .SPLIT => splitRing r
  else [r]

/-- Claim C2: for every geodetic polygon in which no pair of consecutive
vertices has a longitude delta of absolute value greater than 180 degrees
(NOT_CROSSING), `resolve` returns that polygon unchanged, wrapped as a
single-polygon geometry, under either strategy. -/
theorem resolve_not_crossing_unchanged (r : List Point) (s : Strategy)
    (h : isCrossing r = false) : resolve s r = [r] := by
  simp [resolve, h]

/-- Witness for C2: a concrete non-crossing quadrilateral is returned
unchanged by `resolve` under both strategies. -/
theorem resolve_not_crossing_unchanged_witness :
    isCrossing [((170 : ℚ), (10 : ℚ)), (175, 10), (175, 12), (170, 12), (170, 10)] = false ∧
      resolve .SPLIT [((170 : ℚ), (10 : ℚ)), (175, 10), (175, 12), (170, 12), (170, 10)] =
        [[((170 : ℚ), (10 : ℚ)), (175, 10), (175, 12), (170, 12), (170, 10)]] ∧
      resolve .NORMALIZE [((170 : ℚ), (10 : ℚ)), (175, 10), (175, 12), (170, 12), (170, 10)] =
        [[((170 : ℚ), (10 : ℚ)), (175, 10), (175, 12), (170, 12), (170, 10)]] :=
  ⟨by norm_num [isCrossing, adjSat, lonOk],
   resolve_not_crossing_unchanged _ .SPLIT (by norm_num [isCrossing, adjSat, lonOk]),
   resolve_not_crossing_unchanged _ .NORMALIZE (by norm_num [isCrossing, adjSat, lonOk])⟩

/-! ### Properties of unwrapping and of the adjacency predicate -/

theorem unwrapLon_sub_lb (prev lon : ℚ) : -180 ≤ unwrapLon prev lon - prev := by
  have h1 : ((⌊(lon - prev + 180) / 360⌋ : ℤ) : ℚ) ≤ (lon - prev + 180) / 360 :=
    Int.floor_le _
  have hq : (lon - prev + 180) / 360 * 360 = lon - prev + 180 := by
    field_simp
  unfold unwrapLon
  nlinarith [h1, hq]

theorem unwrapLon_sub_ub (prev lon : ℚ) : unwrapLon prev lon - prev < 180 := by
  have h2 : (lon - prev + 180) / 360 < (⌊(lon - prev + 180) / 360⌋ : ℤ) + 1 :=
    Int.lt_floor_add_one _
  have hq : (lon - prev + 180) / 360 * 360 = lon - prev + 180 := by
    field_simp
  unfold unwrapLon
  nlinarith [h2, hq]

theorem unwrapLon_id (prev lon : ℚ) (h1 : -180 ≤ lon - prev) (h2 : lon - prev < 180) :
    unwrapLon prev lon = lon := by
  have hz : ⌊(lon - prev + 180) / 360⌋ = 0 := by
    rw [Int.floor_eq_zero_iff]
    constructor
    · apply div_nonneg _ (by norm_num : (0:ℚ) ≤ 360)
      linarith
    · rw [div_lt_one (by norm_num : (0:ℚ) < 360)]
      linarith
  unfold unwrapLon
  rw [hz]
  push_cast
  ring

theorem unwrapLon_up (prev lon : ℚ) (h1 : -540 ≤ lon - prev) (h2 : lon - prev < -180) :
    unwrapLon prev lon = lon + 360 := by
  have hz : ⌊(lon - prev + 180) / 360⌋ = -1 := by
    rw [Int.floor_eq_iff]
    constructor
    · push_cast
      rw [le_div_iff (by norm_num : (0:ℚ) < 360)]
      linarith
    · push_cast
      rw [div_lt_iff (by norm_num : (0:ℚ) < 360)]
      linarith
  unfold unwrapLon
  rw [hz]
  push_cast
  ring

theorem unwrapLon_dn (prev lon : ℚ) (h1 : 180 ≤ lon - prev) (h2 : lon - prev < 540) :
    unwrapLon prev lon = lon - 360 := by
  have hz : ⌊(lon - prev + 180) / 360⌋ = 1 := by
    rw [Int.floor_eq_iff]
    constructor
    · push_cast
      rw [le_div_iff (by norm_num : (0:ℚ) < 360)]
      linarith
    · push_cast
      rw [div_lt_iff (by norm_num : (0:ℚ) < 360)]
      linarith
  unfold unwrapLon
  rw [hz]
  push_cast
  ring

theorem unwrapLon_shift (prev lon : ℚ) :
    unwrapLon (prev + 360) lon = unwrapLon prev lon + 360 := by
  have harg : (lon - (prev + 360) + 180) / 360 = (lon - prev + 180) / 360 - 1 := by
    ring
  unfold unwrapLon
  rw [harg, Int.floor_sub_one]
  push_cast
  ring

theorem lonOk_of_bounds (a b : Point) (h1 : b.1 - a.1 ≤ 180) (h2 : a.1 - b.1 ≤ 180) :
    lonOk a b = true := by
  simp [lonOk, h1, h2]

theorem adjSat_lonOk_of_bounded (lo hi : ℚ) (hw : hi - lo ≤ 180) :
    ∀ l : List Point, (∀ q ∈ l, lo ≤ q.1 ∧ q.1 ≤ hi) → adjSat lonOk l = true := by
  intro l
  induction l with
  | nil => intro _; rfl
  | cons a t ih =>
    intro hb
    match t with
    | [] => rfl
    | b :: t' =>
      have ha := hb a (by simp)
      have hbb := hb b (by simp)
      have hrec : adjSat lonOk (b :: t') = true := by
        apply ih
        intro q hq
        exact hb q (by simp [hq])
      simp only [adjSat, Bool.and_eq_true]
      exact ⟨lonOk_of_bounds a b (by linarith [ha.1, ha.2, hbb.1, hbb.2])
        (by linarith [ha.1, ha.2, hbb.1, hbb.2]), hrec⟩

theorem adjSat_tail (p : Point → Point → Bool) (x : Point) (t : List Point)
    (h : adjSat p (x :: t) = true) : adjSat p t = true := by
  match t with
  | [] => rfl
  | b :: t' =>
    simp only [adjSat, Bool.and_eq_true] at h
    exact h.2

theorem adjSat_extract (p : Point → Point → Bool) :
    ∀ (l1 : List Point) (a b : Point) (l2 : List Point),
      adjSat p (l1 ++ a :: b :: l2) = true → p a b = true := by
  intro l1
  induction l1 with
  | nil =>
    intro a b l2 h
    simp only [List.nil_append, adjSat, Bool.and_eq_true] at h
    exact h.1
  | cons x t ih =>
    intro a b l2 h
    exact ih a b l2 (adjSat_tail p x (t ++ a :: b :: l2) h)

/-- The chained unwrap produces a ring with no consecutive longitude delta
exceeding 180 degrees in absolute value. -/
theorem unwrapFrom_adjSat : ∀ (xs : List Point) (a : Point),
    adjSat lonOk (a :: unwrapFrom a.1 xs) = true := by
  intro xs
  induction xs with
  | nil => intro a; rfl
  | cons x t ih =>
    intro a
    simp only [unwrapFrom, adjSat, Bool.and_eq_true]
    constructor
    · exact lonOk_of_bounds _ _
        (by simpa using le_of_lt (unwrapLon_sub_ub a.1 x.1))
        (by have := unwrapLon_sub_lb a.1 x.1; simp; linarith)
    · exact ih (unwrapLon a.1 x.1, x.2)

theorem normalizeRing_adjSat (r : List Point) :
    adjSat lonOk (normalizeRing r) = true := by
  match r with
  | [] => rfl
  | p :: ps => exact unwrapFrom_adjSat ps p

theorem normalizeRing_not_crossing (r : List Point) :
    isCrossing (normalizeRing r) = false := by
  simp [isCrossing, normalizeRing_adjSat]

/-! ### List utilities -/

/-- Last element of a vertex list, with a default for the empty list. -/
def lastD : List Point → Point → Point
  | [], d => d
  | x :: t, _ => lastD t x

theorem lastD_congr (l : List Point) (d1 d2 : Point) (h : l ≠ []) :
    lastD l d1 = lastD l d2 := by
  match l with
  | [] => exact absurd rfl h
  | x :: t => rfl

theorem lastD_fst_congr (l : List Point) (d1 d2 : Point) (h : d1.1 = d2.1) :
    (lastD l d1).1 = (lastD l d2).1 := by
  match l with
  | [] => exact h
  | x :: t => rfl

theorem lastD_append_right (l1 l2 : List Point) (d : Point) (h : l2 ≠ []) :
    lastD (l1 ++ l2) d = lastD l2 d := by
  induction l1 generalizing d with
  | nil => rfl
  | cons x t ih =>
    show lastD (t ++ l2) x = lastD l2 d
    rw [ih x]
    exact lastD_congr l2 x d h

theorem lastD_concat (l : List Point) (x d : Point) :
    lastD (l ++ [x]) d = x := by
  rw [lastD_append_right l [x] d (by simp)]
  rfl

theorem lastD_map (f : Point → Point) :
    ∀ (l : List Point) (d1 d2 : Point), l ≠ [] →
      lastD (l.map f) d1 = f (lastD l d2) := by
  intro l
  induction l with
  | nil => intro d1 d2 h; exact absurd rfl h
  | cons x t ih =>
    intro d1 d2 _
    match t with
    | [] => rfl
    | y :: t' =>
      show lastD ((y :: t').map f) (f x) = f (lastD (y :: t') x)
      exact ih (f x) x (by simp)

theorem exists_dropLast_lastD (l : List Point) (d : Point) (h : l ≠ []) :
    ∃ l', l = l' ++ [lastD l d] := by
  induction l generalizing d with
  | nil => exact absurd rfl h
  | cons x t ih =>
    match t with
    | [] => exact ⟨[], rfl⟩
    | y :: t' =>
      obtain ⟨l', hl'⟩ := ih (d := x) (by simp)
      refine ⟨x :: l', ?_⟩
      show x :: (y :: t') = x :: (l' ++ [lastD (y :: t') x])
      rw [← hl']

theorem lastD_mem : ∀ (l : List Point) (d : Point), lastD l d = d ∨ lastD l d ∈ l := by
  intro l
  induction l with
  | nil => intro d; left; rfl
  | cons x t ih =>
    intro d
    rcases ih x with h | h
    · right
      show lastD t x ∈ x :: t
      rw [h]
      simp
    · right
      show lastD t x ∈ x :: t
      simp [h]

/-! ### Shoelace sum decomposition -/

theorem cross_self (a : Point) : cross a a = 0 := by
  simp [cross]

/-- Shift a vertex eastward by `c` degrees of longitude. -/
def shiftLon (c : ℚ) (q : Point) : Point := (q.1 + c, q.2)

theorem cross_shiftLon (c : ℚ) (a b : Point) :
    cross (shiftLon c a) (shiftLon c b) = cross a b + c * (b.2 - a.2) := by
  simp only [cross, shiftLon]
  ring

theorem crossSum_cons (x : Point) (l : List Point) :
    crossSum (x :: l) = cross x (l.headD x) + crossSum l := by
  match l with
  | [] => simp [crossSum, cross_self]
  | y :: t => rfl

theorem crossSum_concat (l : List Point) (x : Point) :
    crossSum (l ++ [x]) = crossSum l + cross (lastD l x) x := by
  induction l with
  | nil => simp [crossSum, lastD, cross_self]
  | cons a t ih =>
    match t with
    | [] =>
      show crossSum [a, x] = crossSum [a] + cross (lastD [a] x) x
      show cross a x + 0 = 0 + cross a x
      ring
    | b :: t' =>
      show cross a b + crossSum ((b :: t') ++ [x]) =
        crossSum (a :: b :: t') + cross (lastD (b :: t') a) x
      rw [ih]
      rw [lastD_congr (b :: t') a x (by simp)]
      show cross a b + (crossSum (b :: t') + cross (lastD (b :: t') x) x) =
        cross a b + crossSum (b :: t') + cross (lastD (b :: t') x) x
      ring

theorem crossSum_append (l1 l2 : List Point) (d : Point) (h1 : l1 ≠ []) (h2 : l2 ≠ []) :
    crossSum (l1 ++ l2) =
      crossSum l1 + cross (lastD l1 d) (l2.headD d) + crossSum l2 := by
  induction l1 with
  | nil => exact absurd rfl h1
  | cons a t ih =>
    match t with
    | [] =>
      match l2 with
      | x :: t2 =>
        show crossSum (a :: x :: t2) = crossSum [a] + cross (lastD [a] d) x + crossSum (x :: t2)
        show cross a x + crossSum (x :: t2) = 0 + cross a x + crossSum (x :: t2)
        ring
    | b :: t' =>
      have hrec := ih (by simp)
      show cross a b + crossSum ((b :: t') ++ l2) =
        crossSum (a :: b :: t') + cross (lastD (b :: t') a) (l2.headD d) + crossSum l2
      rw [hrec]
      rw [lastD_congr (b :: t') a d (by simp)]
      show cross a b + (crossSum (b :: t') + cross (lastD (b :: t') d) (l2.headD d) + crossSum l2) =
        cross a b + crossSum (b :: t') + cross (lastD (b :: t') d) (l2.headD d) + crossSum l2
      ring

theorem crossSum_map_shiftLon (c : ℚ) :
    ∀ (l : List Point) (d : Point),
      crossSum (l.map (shiftLon c)) =
        crossSum l + c * ((lastD l d).2 - (l.headD d).2) := by
  intro l
  induction l with
  | nil => intro d; simp [crossSum, lastD]
  | cons a t ih =>
    intro d
    match t with
    | [] =>
      show crossSum [shiftLon c a] = crossSum [a] + c * ((lastD [a] d).2 - a.2)
      show (0 : ℚ) = 0 + c * (a.2 - a.2)
      ring
    | b :: t' =>
      show cross (shiftLon c a) (shiftLon c b) + crossSum ((b :: t').map (shiftLon c)) =
        crossSum (a :: b :: t') + c * ((lastD (b :: t') a).2 - a.2)
      rw [cross_shiftLon, ih a]
      show cross a b + c * (b.2 - a.2) +
          (crossSum (b :: t') + c * ((lastD (b :: t') a).2 - b.2)) =
        cross a b + crossSum (b :: t') + c * ((lastD (b :: t') a).2 - a.2)
      ring

/-! ### Evaluation lemmas for unwrapping over one-sided blocks -/

theorem unwrapFrom_id_of_bounded (lo : ℚ) :
    ∀ (xs : List Point) (prev : ℚ),
      (∀ q ∈ xs, lo < q.1 ∧ q.1 < lo + 180) →
      lo < prev → prev < lo + 180 →
      unwrapFrom prev xs = xs := by
  intro xs
  induction xs with
  | nil => intro prev _ _ _; rfl
  | cons x t ih =>
    intro prev hb hp1 hp2
    have hx := hb x (by simp)
    have hid : unwrapLon prev x.1 = x.1 :=
      unwrapLon_id prev x.1 (by linarith [hx.1, hx.2]) (by linarith [hx.1, hx.2])
    simp only [unwrapFrom, hid]
    rw [ih x.1 (fun q hq => hb q (by simp [hq])) hx.1 hx.2]

theorem unwrapFrom_shift : ∀ (xs : List Point) (prev : ℚ),
    unwrapFrom (prev + 360) xs = (unwrapFrom prev xs).map (shiftLon 360) := by
  intro xs
  induction xs with
  | nil => intro prev; rfl
  | cons x t ih =>
    intro prev
    show (unwrapLon (prev + 360) x.1, x.2) :: unwrapFrom (unwrapLon (prev + 360) x.1) t =
      shiftLon 360 (unwrapLon prev x.1, x.2) :: (unwrapFrom (unwrapLon prev x.1) t).map (shiftLon 360)
    rw [unwrapLon_shift prev x.1]
    rw [ih (unwrapLon prev x.1)]
    rfl

theorem unwrapFrom_append : ∀ (xs ys : List Point) (prev : ℚ),
    unwrapFrom prev (xs ++ ys) =
      unwrapFrom prev xs ++
        unwrapFrom (lastD (unwrapFrom prev xs) ((prev, 0) : Point)).1 ys := by
  intro xs
  induction xs with
  | nil => intro ys prev; rfl
  | cons x t ih =>
    intro ys prev
    show (unwrapLon prev x.1, x.2) :: unwrapFrom (unwrapLon prev x.1) (t ++ ys) = _
    rw [ih ys (unwrapLon prev x.1)]
    rw [lastD_fst_congr (unwrapFrom (unwrapLon prev x.1) t)
      ((unwrapLon prev x.1, 0) : Point) ((unwrapLon prev x.1, x.2) : Point) rfl]
    rfl

/-- On a single-crossing ring presented as a positive block, then a
negative block, then closure back to the first vertex, normalization
shifts exactly the negative block east by 360 degrees. -/
theorem normalizeRing_pos_block (p0 n0 : Point) (P' N' : List Point)
    (hP : ∀ q ∈ p0 :: P', 0 < q.1 ∧ q.1 < 180)
    (hN : ∀ q ∈ n0 :: N', -180 < q.1 ∧ q.1 < 0)
    (hc1 : n0.1 - (lastD P' p0).1 < -180)
    (hc2 : 180 < p0.1 - (lastD N' n0).1) :
    normalizeRing ((p0 :: P') ++ (n0 :: N') ++ [p0]) =
      (p0 :: P') ++ ((n0 :: N').map (shiftLon 360)) ++ [p0] := by
  have hp0 := hP p0 (by simp)
  have hn0 := hN n0 (by simp)
  have haP : 0 < (lastD P' p0).1 ∧ (lastD P' p0).1 < 180 := by
    rcases lastD_mem P' p0 with h | h
    · rw [h]; exact hp0
    · exact hP _ (by simp [h])
  have haN : -180 < (lastD N' n0).1 ∧ (lastD N' n0).1 < 0 := by
    rcases lastD_mem N' n0 with h | h
    · rw [h]; exact hn0
    · exact hN _ (by simp [h])
  have hPid : unwrapFrom p0.1 P' = P' :=
    unwrapFrom_id_of_bounded 0 P' p0.1
      (fun q hq => by have := hP q (by simp [hq]); simpa using this)
      hp0.1 (by simpa using hp0.2)
  have hNid : unwrapFrom n0.1 N' = N' :=
    unwrapFrom_id_of_bounded (-180) N' n0.1
      (fun q hq => by
        have := hN q (by simp [hq])
        constructor
        · exact this.1
        · linarith [this.2])
      hn0.1 (by linarith [hn0.2])
  have hn0up : unwrapLon (lastD P' p0).1 n0.1 = n0.1 + 360 :=
    unwrapLon_up _ _ (by linarith [haP.2, hn0.1]) (by linarith [hc1])
  have hp0dn : unwrapLon (lastD N' n0).1 p0.1 = p0.1 - 360 :=
    unwrapLon_dn _ _ (by linarith [hc2]) (by linarith [hp0.2, haN.1])
  have hsplit : (p0 :: P') ++ (n0 :: N') ++ [p0] =
      p0 :: (P' ++ (n0 :: (N' ++ [p0]))) := by simp
  rw [hsplit]
  show p0 :: unwrapFrom p0.1 (P' ++ (n0 :: (N' ++ [p0]))) = _
  rw [unwrapFrom_append P' (n0 :: (N' ++ [p0])) p0.1, hPid]
  rw [lastD_fst_congr P' ((p0.1, 0) : Point) p0 rfl]
  show p0 :: (P' ++ ((unwrapLon (lastD P' p0).1 n0.1, n0.2) ::
      unwrapFrom (unwrapLon (lastD P' p0).1 n0.1) (N' ++ [p0]))) = _
  rw [hn0up]
  rw [unwrapFrom_shift (N' ++ [p0]) n0.1]
  rw [unwrapFrom_append N' [p0] n0.1, hNid]
  rw [lastD_fst_congr N' ((n0.1, 0) : Point) n0 rfl]
  show p0 :: (P' ++ ((n0.1 + 360, n0.2) ::
      (N' ++ [(unwrapLon (lastD N' n0).1 p0.1, p0.2)]).map (shiftLon 360))) = _
  rw [hp0dn]
  rw [List.map_append]
  have hback : ([((p0.1 - 360, p0.2) : Point)]).map (shiftLon 360) = [p0] := by
    show [shiftLon 360 ((p0.1 - 360, p0.2) : Point)] = [p0]
    unfold shiftLon
    rw [show p0.1 - 360 + 360 = p0.1 by ring]
  rw [hback]
  show p0 :: (P' ++ ((n0.1 + 360, n0.2) :: (N'.map (shiftLon 360) ++ [p0]))) =
    (p0 :: P') ++ (shiftLon 360 n0 :: N'.map (shiftLon 360)) ++ [p0]
  simp [shiftLon, List.append_assoc]

theorem unwrapLon_shift_dn (prev lon : ℚ) :
    unwrapLon (prev - 360) lon = unwrapLon prev lon - 360 := by
  have harg : (lon - (prev - 360) + 180) / 360 = (lon - prev + 180) / 360 + 1 := by
    ring
  unfold unwrapLon
  rw [harg, Int.floor_add_one]
  push_cast
  ring

theorem unwrapFrom_shift_dn : ∀ (xs : List Point) (prev : ℚ),
    unwrapFrom (prev - 360) xs = (unwrapFrom prev xs).map (shiftLon (-360)) := by
  intro xs
  induction xs with
  | nil => intro prev; rfl
  | cons x t ih =>
    intro prev
    show (unwrapLon (prev - 360) x.1, x.2) :: unwrapFrom (unwrapLon (prev - 360) x.1) t =
      shiftLon (-360) (unwrapLon prev x.1, x.2) ::
        (unwrapFrom (unwrapLon prev x.1) t).map (shiftLon (-360))
    rw [unwrapLon_shift_dn prev x.1]
    rw [show unwrapLon prev x.1 - 360 = unwrapLon prev x.1 + -360 by ring]
    rw [show (unwrapLon prev x.1 + -360 : ℚ) = unwrapLon prev x.1 - 360 by ring]
    rw [ih (unwrapLon prev x.1)]
    show _ = (unwrapLon prev x.1 + -360, x.2) :: (unwrapFrom (unwrapLon prev x.1) t).map (shiftLon (-360))
    rw [show unwrapLon prev x.1 - 360 = unwrapLon prev x.1 + -360 by ring]

/-- On a single-crossing ring presented as a negative block, then a
positive block, then closure back to the first vertex, normalization
shifts exactly the positive block west by 360 degrees. -/
theorem normalizeRing_neg_block (n0 p0 : Point) (N' P' : List Point)
    (hN : ∀ q ∈ n0 :: N', -180 < q.1 ∧ q.1 < 0)
    (hP : ∀ q ∈ p0 :: P', 0 < q.1 ∧ q.1 < 180)
    (hc1 : 180 < p0.1 - (lastD N' n0).1)
    (hc2 : n0.1 - (lastD P' p0).1 < -180) :
    normalizeRing ((n0 :: N') ++ (p0 :: P') ++ [n0]) =
      (n0 :: N') ++ ((p0 :: P').map (shiftLon (-360))) ++ [n0] := by
  have hp0 := hP p0 (by simp)
  have hn0 := hN n0 (by simp)
  have haP : 0 < (lastD P' p0).1 ∧ (lastD P' p0).1 < 180 := by
    rcases lastD_mem P' p0 with h | h
    · rw [h]; exact hp0
    · exact hP _ (by simp [h])
  have haN : -180 < (lastD N' n0).1 ∧ (lastD N' n0).1 < 0 := by
    rcases lastD_mem N' n0 with h | h
    · rw [h]; exact hn0
    · exact hN _ (by simp [h])
  have hPid : unwrapFrom p0.1 P' = P' :=
    unwrapFrom_id_of_bounded 0 P' p0.1
      (fun q hq => by have := hP q (by simp [hq]); simpa using this)
      hp0.1 (by simpa using hp0.2)
  have hNid : unwrapFrom n0.1 N' = N' :=
    unwrapFrom_id_of_bounded (-180) N' n0.1
      (fun q hq => by
        have := hN q (by simp [hq])
        constructor
        · exact this.1
        · linarith [this.2])
      hn0.1 (by linarith [hn0.2])
  have hp0dn : unwrapLon (lastD N' n0).1 p0.1 = p0.1 - 360 :=
    unwrapLon_dn _ _ (by linarith [hc1]) (by linarith [hp0.2, haN.1])
  have hn0up : unwrapLon (lastD P' p0).1 n0.1 = n0.1 + 360 :=
    unwrapLon_up _ _ (by linarith [haP.2, hn0.1]) (by linarith [hc2])
  have hsplit : (n0 :: N') ++ (p0 :: P') ++ [n0] =
      n0 :: (N' ++ (p0 :: (P' ++ [n0]))) := by simp
  rw [hsplit]
  show n0 :: unwrapFrom n0.1 (N' ++ (p0 :: (P' ++ [n0]))) = _
  rw [unwrapFrom_append N' (p0 :: (P' ++ [n0])) n0.1, hNid]
  rw [lastD_fst_congr N' ((n0.1, 0) : Point) n0 rfl]
  show n0 :: (N' ++ ((unwrapLon (lastD N' n0).1 p0.1, p0.2) ::
      unwrapFrom (unwrapLon (lastD N' n0).1 p0.1) (P' ++ [n0]))) = _
  rw [hp0dn]
  rw [unwrapFrom_shift_dn (P' ++ [n0]) p0.1]
  rw [unwrapFrom_append P' [n0] p0.1, hPid]
  rw [lastD_fst_congr P' ((p0.1, 0) : Point) p0 rfl]
  show n0 :: (N' ++ ((p0.1 - 360, p0.2) ::
      (P' ++ [(unwrapLon (lastD P' p0).1 n0.1, n0.2)]).map (shiftLon (-360)))) = _
  rw [hn0up]
  rw [List.map_append]
  have hback : ([((n0.1 + 360, n0.2) : Point)]).map (shiftLon (-360)) = [n0] := by
    show [shiftLon (-360) ((n0.1 + 360, n0.2) : Point)] = [n0]
    unfold shiftLon
    rw [show n0.1 + 360 + -360 = n0.1 by ring]
  rw [hback]
  show n0 :: (N' ++ ((p0.1 - 360, p0.2) :: (P'.map (shiftLon (-360)) ++ [n0]))) =
    (n0 :: N') ++ (shiftLon (-360) p0 :: P'.map (shiftLon (-360))) ++ [n0]
  have hhead : shiftLon (-360) p0 = ((p0.1 - 360, p0.2) : Point) := by
    unfold shiftLon
    rw [show p0.1 + -360 = p0.1 - 360 by ring]
  rw [hhead]
  simp [List.append_assoc]

/-! ### Evaluation lemmas for the split loop -/

theorem splitLoop_nil (a : Point) (acc : List Point) (segs : List (List Point)) :
    splitLoop a acc [] segs = (acc, segs) := rfl

theorem splitLoop_cons_within (a b : Point) (acc rest : List Point)
    (segs : List (List Point)) (h1 : -180 ≤ b.1 - a.1) (h2 : b.1 - a.1 ≤ 180) :
    splitLoop a acc (b :: rest) segs = splitLoop b (acc ++ [b]) rest segs := by
  simp only [splitLoop]
  rw [if_neg (by linarith), if_neg (by linarith)]

theorem splitLoop_cons_dn (a b : Point) (acc rest : List Point)
    (segs : List (List Point)) (h : b.1 - a.1 < -180) :
    splitLoop a acc (b :: rest) segs =
      splitLoop b [((-180 : ℚ), yDn a b), b] rest
        (segs ++ [acc ++ [((180 : ℚ), yDn a b)]]) := by
  simp only [splitLoop]
  rw [if_pos h]

theorem splitLoop_cons_up (a b : Point) (acc rest : List Point)
    (segs : List (List Point)) (h : 180 < b.1 - a.1) :
    splitLoop a acc (b :: rest) segs =
      splitLoop b [((180 : ℚ), yUp a b), b] rest
        (segs ++ [acc ++ [((-180 : ℚ), yUp a b)]]) := by
  simp only [splitLoop]
  rw [if_neg (by linarith), if_pos h]

theorem splitLoop_within (xs : List Point) : ∀ (ys : List Point) (a : Point)
    (acc : List Point) (segs : List (List Point)),
    adjSat lonOk (a :: xs) = true →
    splitLoop a acc (xs ++ ys) segs =
      splitLoop (lastD xs a) (acc ++ xs) ys segs := by
  induction xs with
  | nil => intro ys a acc segs _; simp [lastD]
  | cons x t ih =>
    intro ys a acc segs h
    simp only [adjSat, Bool.and_eq_true, lonOk, decide_eq_true_eq] at h
    obtain ⟨⟨hx1, hx2⟩, hrest⟩ := h
    rw [List.cons_append,
      splitLoop_cons_within a x acc (t ++ ys) segs (by linarith) hx1]
    rw [ih ys x (acc ++ [x]) segs hrest]
    show splitLoop (lastD t x) ((acc ++ [x]) ++ t) ys segs =
      splitLoop (lastD t x) (acc ++ (x :: t)) ys segs
    congr 1
    simp

/-- Evaluation of the SPLIT action on a single-crossing ring presented as
a positive block, then a negative block, then closure: exactly two rings,
cut at the meridian. -/
theorem splitRing_pos_block (p0 n0 : Point) (P' N' : List Point)
    (hP : ∀ q ∈ p0 :: P', 0 < q.1 ∧ q.1 < 180)
    (hN : ∀ q ∈ n0 :: N', -180 < q.1 ∧ q.1 < 0)
    (hc1 : n0.1 - (lastD P' p0).1 < -180)
    (hc2 : 180 < p0.1 - (lastD N' n0).1) :
    splitRing ((p0 :: P') ++ (n0 :: N') ++ [p0]) =
      [closeRing (((180 : ℚ), yUp (lastD N' n0) p0) :: p0 ::
          (P' ++ [((180 : ℚ), yDn (lastD P' p0) n0)])),
       closeRing (((-180 : ℚ), yDn (lastD P' p0) n0) :: n0 ::
          (N' ++ [((-180 : ℚ), yUp (lastD N' n0) p0)]))] := by
  have adjP : adjSat lonOk (p0 :: P') = true :=
    adjSat_lonOk_of_bounded 0 180 (by norm_num) _
      (fun q hq => ⟨le_of_lt (hP q hq).1, le_of_lt (hP q hq).2⟩)
  have adjN : adjSat lonOk (n0 :: N') = true :=
    adjSat_lonOk_of_bounded (-180) 0 (by norm_num) _
      (fun q hq => ⟨le_of_lt (hN q hq).1, le_of_lt (hN q hq).2⟩)
  have hsplit : (p0 :: P') ++ (n0 :: N') ++ [p0] =
      p0 :: (P' ++ (n0 :: (N' ++ [p0]))) := by simp
  rw [hsplit]
  have hloop : splitLoop p0 [p0] (P' ++ (n0 :: (N' ++ [p0]))) [] =
      ([((180 : ℚ), yUp (lastD N' n0) p0), p0],
       [p0 :: (P' ++ [((180 : ℚ), yDn (lastD P' p0) n0)]),
        ((-180 : ℚ), yDn (lastD P' p0) n0) :: n0 ::
          (N' ++ [((-180 : ℚ), yUp (lastD N' n0) p0)])]) := by
    rw [splitLoop_within P' (n0 :: (N' ++ [p0])) p0 [p0] [] adjP]
    rw [splitLoop_cons_dn (lastD P' p0) n0 ([p0] ++ P') (N' ++ [p0]) [] hc1]
    rw [splitLoop_within N' [p0] n0
      [((-180 : ℚ), yDn (lastD P' p0) n0), n0] _ adjN]
    rw [splitLoop_cons_up (lastD N' n0) p0 _ [] _ hc2]
    rw [splitLoop_nil]
    simp
  show splitRing (p0 :: (P' ++ (n0 :: (N' ++ [p0])))) = _
  simp only [splitRing, hloop]
  rfl

/-- Evaluation of the SPLIT action on a single-crossing ring presented as
a negative block, then a positive block, then closure: exactly two rings,
cut at the meridian. -/
theorem splitRing_neg_block (n0 p0 : Point) (N' P' : List Point)
    (hN : ∀ q ∈ n0 :: N', -180 < q.1 ∧ q.1 < 0)
    (hP : ∀ q ∈ p0 :: P', 0 < q.1 ∧ q.1 < 180)
    (hc1 : 180 < p0.1 - (lastD N' n0).1)
    (hc2 : n0.1 - (lastD P' p0).1 < -180) :
    splitRing ((n0 :: N') ++ (p0 :: P') ++ [n0]) =
      [closeRing (((-180 : ℚ), yDn (lastD P' p0) n0) :: n0 ::
          (N' ++ [((-180 : ℚ), yUp (lastD N' n0) p0)])),
       closeRing (((180 : ℚ), yUp (lastD N' n0) p0) :: p0 ::
          (P' ++ [((180 : ℚ), yDn (lastD P' p0) n0)]))] := by
  have adjP : adjSat lonOk (p0 :: P') = true :=
    adjSat_lonOk_of_bounded 0 180 (by norm_num) _
      (fun q hq => ⟨le_of_lt (hP q hq).1, le_of_lt (hP q hq).2⟩)
  have adjN : adjSat lonOk (n0 :: N') = true :=
    adjSat_lonOk_of_bounded (-180) 0 (by norm_num) _
      (fun q hq => ⟨le_of_lt (hN q hq).1, le_of_lt (hN q hq).2⟩)
  have hsplit : (n0 :: N') ++ (p0 :: P') ++ [n0] =
      n0 :: (N' ++ (p0 :: (P' ++ [n0]))) := by simp
  rw [hsplit]
  have hloop : splitLoop n0 [n0] (N' ++ (p0 :: (P' ++ [n0]))) [] =
      ([((-180 : ℚ), yDn (lastD P' p0) n0), n0],
       [n0 :: (N' ++ [((-180 : ℚ), yUp (lastD N' n0) p0)]),
        ((180 : ℚ), yUp (lastD N' n0) p0) :: p0 ::
          (P' ++ [((180 : ℚ), yDn (lastD P' p0) n0)])]) := by
    rw [splitLoop_within N' (p0 :: (P' ++ [n0])) n0 [n0] [] adjN]
    rw [splitLoop_cons_up (lastD N' n0) p0 ([n0] ++ N') (P' ++ [n0]) [] hc1]
    rw [splitLoop_within P' [n0] p0
      [((180 : ℚ), yUp (lastD N' n0) p0), p0] _ adjP]
    rw [splitLoop_cons_dn (lastD P' p0) n0 _ [] _ hc2]
    rw [splitLoop_nil]
    simp
  show splitRing (n0 :: (N' ++ (p0 :: (P' ++ [n0])))) = _
  simp only [splitRing, hloop]
  rfl


/-- The two rings produced by splitting a positive-block/negative-block
single-crossing ring carry exactly the shoelace sum of the normalized
(unwrapped) ring. -/
theorem crossSum_split_pos (p0 n0 : Point) (P' N' : List Point)
    (hP : ∀ q ∈ p0 :: P', 0 < q.1 ∧ q.1 < 180)
    (hN : ∀ q ∈ n0 :: N', -180 < q.1 ∧ q.1 < 0) :
    crossSum (closeRing (((180 : ℚ), yUp (lastD N' n0) p0) :: p0 ::
        (P' ++ [((180 : ℚ), yDn (lastD P' p0) n0)]))) +
      crossSum (closeRing (((-180 : ℚ), yDn (lastD P' p0) n0) :: n0 ::
        (N' ++ [((-180 : ℚ), yUp (lastD N' n0) p0)]))) =
      crossSum ((p0 :: P') ++ ((n0 :: N').map (shiftLon 360)) ++ [p0]) := by
  have hp0 := hP p0 (by simp)
  have hn0 := hN n0 (by simp)
  have haP : 0 < (lastD P' p0).1 ∧ (lastD P' p0).1 < 180 := by
    rcases lastD_mem P' p0 with h | h
    · rw [h]; exact hp0
    · exact hP _ (by simp [h])
  have haN : -180 < (lastD N' n0).1 ∧ (lastD N' n0).1 < 0 := by
    rcases lastD_mem N' n0 with h | h
    · rw [h]; exact hn0
    · exact hN _ (by simp [h])
  have hd1 : n0.1 + 360 - (lastD P' p0).1 ≠ 0 := by
    have : 0 < n0.1 + 360 - (lastD P' p0).1 := by linarith [hn0.1, haP.2]
    exact ne_of_gt this
  have hd2 : p0.1 - 360 - (lastD N' n0).1 ≠ 0 := by
    have : p0.1 - 360 - (lastD N' n0).1 < 0 := by linarith [hp0.2, haN.1]
    exact ne_of_lt this
  have hL1 : crossSum (closeRing (((180 : ℚ), yUp (lastD N' n0) p0) :: p0 ::
      (P' ++ [((180 : ℚ), yDn (lastD P' p0) n0)]))) =
      cross ((180 : ℚ), yUp (lastD N' n0) p0) p0 + crossSum (p0 :: P') +
        cross (lastD P' p0) ((180 : ℚ), yDn (lastD P' p0) n0) +
        cross ((180 : ℚ), yDn (lastD P' p0) n0) ((180 : ℚ), yUp (lastD N' n0) p0) := by
    show crossSum ((((180 : ℚ), yUp (lastD N' n0) p0) :: p0 ::
      (P' ++ [((180 : ℚ), yDn (lastD P' p0) n0)])) ++
        [((180 : ℚ), yUp (lastD N' n0) p0)]) = _
    rw [crossSum_concat]
    rw [show lastD ((((180 : ℚ), yUp (lastD N' n0) p0) : Point) :: p0 ::
        (P' ++ [((180 : ℚ), yDn (lastD P' p0) n0)]))
        (((180 : ℚ), yUp (lastD N' n0) p0) : Point) =
        (((180 : ℚ), yDn (lastD P' p0) n0) : Point) from by
      show lastD (P' ++ [((180 : ℚ), yDn (lastD P' p0) n0)]) p0 = _
      exact lastD_concat P' _ p0]
    show cross ((180 : ℚ), yUp (lastD N' n0) p0) p0 +
        crossSum ((p0 :: P') ++ [((180 : ℚ), yDn (lastD P' p0) n0)]) +
        cross ((180 : ℚ), yDn (lastD P' p0) n0) ((180 : ℚ), yUp (lastD N' n0) p0) = _
    rw [crossSum_concat (p0 :: P')]
    show cross ((180 : ℚ), yUp (lastD N' n0) p0) p0 +
        (crossSum (p0 :: P') +
          cross (lastD P' p0) ((180 : ℚ), yDn (lastD P' p0) n0)) +
        cross ((180 : ℚ), yDn (lastD P' p0) n0) ((180 : ℚ), yUp (lastD N' n0) p0) = _
    ring
  have hL2 : crossSum (closeRing (((-180 : ℚ), yDn (lastD P' p0) n0) :: n0 ::
      (N' ++ [((-180 : ℚ), yUp (lastD N' n0) p0)]))) =
      cross ((-180 : ℚ), yDn (lastD P' p0) n0) n0 + crossSum (n0 :: N') +
        cross (lastD N' n0) ((-180 : ℚ), yUp (lastD N' n0) p0) +
        cross ((-180 : ℚ), yUp (lastD N' n0) p0) ((-180 : ℚ), yDn (lastD P' p0) n0) := by
    show crossSum ((((-180 : ℚ), yDn (lastD P' p0) n0) :: n0 ::
      (N' ++ [((-180 : ℚ), yUp (lastD N' n0) p0)])) ++
        [((-180 : ℚ), yDn (lastD P' p0) n0)]) = _
    rw [crossSum_concat]
    rw [show lastD ((((-180 : ℚ), yDn (lastD P' p0) n0) : Point) :: n0 ::
        (N' ++ [((-180 : ℚ), yUp (lastD N' n0) p0)]))
        (((-180 : ℚ), yDn (lastD P' p0) n0) : Point) =
        (((-180 : ℚ), yUp (lastD N' n0) p0) : Point) from by
      show lastD (N' ++ [((-180 : ℚ), yUp (lastD N' n0) p0)]) n0 = _
      exact lastD_concat N' _ n0]
    show cross ((-180 : ℚ), yDn (lastD P' p0) n0) n0 +
        crossSum ((n0 :: N') ++ [((-180 : ℚ), yUp (lastD N' n0) p0)]) +
        cross ((-180 : ℚ), yUp (lastD N' n0) p0) ((-180 : ℚ), yDn (lastD P' p0) n0) = _
    rw [crossSum_concat (n0 :: N')]
    show cross ((-180 : ℚ), yDn (lastD P' p0) n0) n0 +
        (crossSum (n0 :: N') +
          cross (lastD N' n0) ((-180 : ℚ), yUp (lastD N' n0) p0)) +
        cross ((-180 : ℚ), yUp (lastD N' n0) p0) ((-180 : ℚ), yDn (lastD P' p0) n0) = _
    ring
  have hR : crossSum ((p0 :: P') ++ ((n0 :: N').map (shiftLon 360)) ++ [p0]) =
      crossSum (p0 :: P') + cross (lastD P' p0) (shiftLon 360 n0) +
        crossSum (n0 :: N') + 360 * ((lastD N' n0).2 - n0.2) +
        cross (shiftLon 360 (lastD N' n0)) p0 := by
    rw [crossSum_concat ((p0 :: P') ++ (n0 :: N').map (shiftLon 360)) p0]
    rw [show lastD ((p0 :: P') ++ (n0 :: N').map (shiftLon 360)) p0 =
        shiftLon 360 (lastD N' n0) from by
      rw [lastD_append_right _ _ _ (by simp)]
      rw [lastD_map (shiftLon 360) (n0 :: N') p0 n0 (by simp)]
      rfl]
    rw [crossSum_append (p0 :: P') ((n0 :: N').map (shiftLon 360)) p0
      (by simp) (by simp)]
    rw [show ((n0 :: N').map (shiftLon 360)).headD p0 = shiftLon 360 n0 from rfl]
    rw [show lastD (p0 :: P') p0 = lastD P' p0 from rfl]
    rw [crossSum_map_shiftLon 360 (n0 :: N') n0]
    show crossSum (p0 :: P') + cross (lastD P' p0) (shiftLon 360 n0) +
        (crossSum (n0 :: N') + 360 * ((lastD N' n0).2 - n0.2)) +
        cross (shiftLon 360 (lastD N' n0)) p0 = _
    ring
  rw [hL1, hL2, hR]
  simp only [cross, shiftLon, yDn, yUp]
  field_simp
  ring

/-- Decomposition of the shoelace sum of a closed ring of the shape
produced by the split: a cut point, the block head, the block tail, and
the other cut point. -/
theorem crossSum_closeRing_two (m a w : Point) (L : List Point) :
    crossSum (closeRing (m :: a :: (L ++ [w]))) =
      cross m a + crossSum (a :: L) + cross (lastD L a) w + cross w m := by
  show crossSum ((m :: a :: (L ++ [w])) ++ [m]) = _
  rw [crossSum_concat]
  rw [show lastD (m :: a :: (L ++ [w])) m = w from by
    show lastD (L ++ [w]) a = w
    exact lastD_concat L w a]
  show cross m a + crossSum ((a :: L) ++ [w]) + cross w m = _
  rw [crossSum_concat (a :: L)]
  show cross m a + (crossSum (a :: L) + cross (lastD L a) w) + cross w m = _
  ring

/-- The two rings produced by splitting a negative-block/positive-block
single-crossing ring carry exactly the shoelace sum of the normalized
(unwrapped) ring. -/
theorem crossSum_split_neg (n0 p0 : Point) (N' P' : List Point)
    (hN : ∀ q ∈ n0 :: N', -180 < q.1 ∧ q.1 < 0)
    (hP : ∀ q ∈ p0 :: P', 0 < q.1 ∧ q.1 < 180) :
    crossSum (closeRing (((-180 : ℚ), yDn (lastD P' p0) n0) :: n0 ::
        (N' ++ [((-180 : ℚ), yUp (lastD N' n0) p0)]))) +
      crossSum (closeRing (((180 : ℚ), yUp (lastD N' n0) p0) :: p0 ::
        (P' ++ [((180 : ℚ), yDn (lastD P' p0) n0)]))) =
      crossSum ((n0 :: N') ++ ((p0 :: P').map (shiftLon (-360))) ++ [n0]) := by
  have hp0 := hP p0 (by simp)
  have hn0 := hN n0 (by simp)
  have haP : 0 < (lastD P' p0).1 ∧ (lastD P' p0).1 < 180 := by
    rcases lastD_mem P' p0 with h | h
    · rw [h]; exact hp0
    · exact hP _ (by simp [h])
  have haN : -180 < (lastD N' n0).1 ∧ (lastD N' n0).1 < 0 := by
    rcases lastD_mem N' n0 with h | h
    · rw [h]; exact hn0
    · exact hN _ (by simp [h])
  have hd1 : n0.1 + 360 - (lastD P' p0).1 ≠ 0 := by
    have : 0 < n0.1 + 360 - (lastD P' p0).1 := by linarith [hn0.1, haP.2]
    exact ne_of_gt this
  have hd2 : p0.1 - 360 - (lastD N' n0).1 ≠ 0 := by
    have : p0.1 - 360 - (lastD N' n0).1 < 0 := by linarith [hp0.2, haN.1]
    exact ne_of_lt this
  rw [crossSum_closeRing_two, crossSum_closeRing_two]
  have hRn : crossSum ((n0 :: N') ++ ((p0 :: P').map (shiftLon (-360))) ++ [n0]) =
      crossSum (n0 :: N') + cross (lastD N' n0) (shiftLon (-360) p0) +
        crossSum (p0 :: P') + (-360) * ((lastD P' p0).2 - p0.2) +
        cross (shiftLon (-360) (lastD P' p0)) n0 := by
    rw [crossSum_concat ((n0 :: N') ++ (p0 :: P').map (shiftLon (-360))) n0]
    rw [show lastD ((n0 :: N') ++ (p0 :: P').map (shiftLon (-360))) n0 =
        shiftLon (-360) (lastD P' p0) from by
      rw [lastD_append_right _ _ _ (by simp)]
      rw [lastD_map (shiftLon (-360)) (p0 :: P') n0 p0 (by simp)]
      rfl]
    rw [crossSum_append (n0 :: N') ((p0 :: P').map (shiftLon (-360))) n0
      (by simp) (by simp)]
    rw [show ((p0 :: P').map (shiftLon (-360))).headD n0 = shiftLon (-360) p0 from rfl]
    rw [show lastD (n0 :: N') n0 = lastD N' n0 from rfl]
    rw [crossSum_map_shiftLon (-360) (p0 :: P') p0]
    show crossSum (n0 :: N') + cross (lastD N' n0) (shiftLon (-360) p0) +
        (crossSum (p0 :: P') + (-360) * ((lastD P' p0).2 - p0.2)) +
        cross (shiftLon (-360) (lastD P' p0)) n0 = _
    ring
  rw [hRn]
  simp only [cross, shiftLon, yDn, yUp]
  field_simp
  ring

/-- Every vertex of a closed ring is a vertex of the underlying list. -/
theorem mem_closeRing (q : Point) (l : List Point) (h : q ∈ closeRing l) :
    q ∈ l := by
  match l with
  | [] => simpa [closeRing] using h
  | x :: t =>
    simp only [closeRing] at h
    rcases List.mem_append.mp h with h1 | h2
    · exact h1
    · simp only [List.mem_singleton] at h2
      simp [h2]

theorem mem_pos_part (p0 n0 : Point) (P' N' : List Point)
    (hP : ∀ q ∈ p0 :: P', 0 < q.1 ∧ q.1 < 180) (q : Point)
    (hq : q ∈ closeRing (((180 : ℚ), yUp (lastD N' n0) p0) :: p0 ::
      (P' ++ [((180 : ℚ), yDn (lastD P' p0) n0)]))) : 0 < q.1 ∧ q.1 ≤ 180 := by
  have hq2 := mem_closeRing q _ hq
  simp only [List.mem_cons, List.mem_append, List.mem_singleton,
    List.not_mem_nil, or_false] at hq2
  rcases hq2 with h | h | h | h
  · rw [h]; norm_num
  · have := hP p0 (by simp)
    rw [h]
    exact ⟨this.1, le_of_lt this.2⟩
  · have := hP q (by simp [h])
    exact ⟨this.1, le_of_lt this.2⟩
  · rw [h]; norm_num

theorem mem_neg_part (p0 n0 : Point) (P' N' : List Point)
    (hN : ∀ q ∈ n0 :: N', -180 < q.1 ∧ q.1 < 0) (q : Point)
    (hq : q ∈ closeRing (((-180 : ℚ), yDn (lastD P' p0) n0) :: n0 ::
      (N' ++ [((-180 : ℚ), yUp (lastD N' n0) p0)]))) : -180 ≤ q.1 ∧ q.1 < 0 := by
  have hq2 := mem_closeRing q _ hq
  simp only [List.mem_cons, List.mem_append, List.mem_singleton,
    List.not_mem_nil, or_false] at hq2
  rcases hq2 with h | h | h | h
  · rw [h]; norm_num
  · have := hN n0 (by simp)
    rw [h]
    exact ⟨le_of_lt this.1, this.2⟩
  · have := hN q (by simp [h])
    exact ⟨le_of_lt this.1, this.2⟩
  · rw [h]; norm_num

theorem posBlock_isCrossing (p0 n0 : Point) (P' N' : List Point)
    (hc1 : n0.1 - (lastD P' p0).1 < -180) :
    isCrossing ((p0 :: P') ++ (n0 :: N') ++ [p0]) = true := by
  cases hval : adjSat lonOk ((p0 :: P') ++ (n0 :: N') ++ [p0]) with
  | false =>
    show (! adjSat lonOk ((p0 :: P') ++ (n0 :: N') ++ [p0])) = true
    rw [hval]
    rfl
  | true =>
    exfalso
    obtain ⟨l', hl'⟩ := exists_dropLast_lastD (p0 :: P') p0 (by simp)
    have hl2 : p0 :: P' = l' ++ [lastD P' p0] := hl'
    have hr : (p0 :: P') ++ (n0 :: N') ++ [p0] =
        l' ++ (lastD P' p0 :: n0 :: (N' ++ [p0])) := by
      conv_lhs => rw [hl2]
      simp [List.append_assoc]
    rw [hr] at hval
    have hext := adjSat_extract lonOk l' (lastD P' p0) n0 (N' ++ [p0]) hval
    simp only [lonOk, Bool.and_eq_true, decide_eq_true_eq] at hext
    linarith [hext.2]

theorem negBlock_isCrossing (n0 p0 : Point) (N' P' : List Point)
    (hc1 : 180 < p0.1 - (lastD N' n0).1) :
    isCrossing ((n0 :: N') ++ (p0 :: P') ++ [n0]) = true := by
  cases hval : adjSat lonOk ((n0 :: N') ++ (p0 :: P') ++ [n0]) with
  | false =>
    show (! adjSat lonOk ((n0 :: N') ++ (p0 :: P') ++ [n0])) = true
    rw [hval]
    rfl
  | true =>
    exfalso
    obtain ⟨l', hl'⟩ := exists_dropLast_lastD (n0 :: N') n0 (by simp)
    have hl2 : n0 :: N' = l' ++ [lastD N' n0] := hl'
    have hr : (n0 :: N') ++ (p0 :: P') ++ [n0] =
        l' ++ (lastD N' n0 :: p0 :: (P' ++ [n0])) := by
      conv_lhs => rw [hl2]
      simp [List.append_assoc]
    rw [hr] at hval
    have hext := adjSat_extract lonOk l' (lastD N' n0) p0 (P' ++ [n0]) hval
    simp only [lonOk, Bool.and_eq_true, decide_eq_true_eq] at hext
    linarith [hext.1]


/-! ### Simplifier (modelled from the spec) -/

/-- Squared euclidean distance between two vertices. -/
def dist2 (a b : Point) : ℚ := (b.1 - a.1) ^ 2 + (b.2 - a.2) ^ 2

/-- Orientation test: twice the signed area of the triangle `p q r`. -/
def orient2 (p q r : Point) : ℚ :=
  (q.1 - p.1) * (r.2 - p.2) - (q.2 - p.2) * (r.1 - p.1)

/-- Squared perpendicular distance from `p` to the line through `a` and
`b` (distance to `a` when the line is degenerate). -/
def perpDist2 (a b p : Point) : ℚ :=
  if a = b then dist2 a p else orient2 a b p ^ 2 / dist2 a b

/-- Index of the first maximum of a rational list (0 on the empty list),
tracking the current index, best index and best value. -/
def maxIdxAux : List ℚ → ℕ → ℕ → ℚ → ℕ
  | [], _, best, _ => best
  | x :: t, i, best, bestv =>
    if bestv < x then maxIdxAux t (i + 1) i x else maxIdxAux t (i + 1) best bestv

def maxIdx : List ℚ → ℕ
  | [] => 0
  | x :: t => maxIdxAux t 1 0 x

/-- Modelled from the spec: Douglas-Peucker-style recursion between two
anchor vertices; interior vertices whose perpendicular distance from the
anchor chord is within the tolerance are removed, otherwise the chain is
split at the farthest vertex.  The recursion is bounded by a fuel
argument (the interior length suffices). -/
def dpRec (tol2 : ℚ) : ℕ → Point → Point → List Point → List Point
  | 0, _, _, mid => mid
  | fuel + 1, a, b, mid =>
    match mid with
    | [] => []
    | _ :: _ =>
      let ds := mid.map (perpDist2 a b)
      let i := maxIdx ds
      if ds.getD i 0 ≤ tol2 then []
      else
        let m := mid.getD i a
        dpRec tol2 fuel a m (mid.take i) ++
          m :: dpRec tol2 fuel m b (mid.drop (i + 1))

/-- Douglas-Peucker simplification of a closed ring: the first vertex and
the closing vertex are the anchors, the interior is simplified. -/
def dpRing (tol : ℚ) (r : List Point) : List Point :=
  match r with
  | [] => []
  | [a] => [a]
  | a :: t =>
    a :: (dpRec (tol * tol) t.length a (lastD t a) t.dropLast ++ [lastD t a])

/-- Number of distinct ring positions: the closing duplicate of the first
vertex is not counted. -/
def ringVertexCount (r : List Point) : ℕ :=
  match r with
  | [] => 0
  | a :: t => if lastD t a = a ∧ t ≠ [] then t.length else t.length + 1

/-- `r` lies on segment `p q` (collinear and within the bounding box). -/
def onSegB (p q r : Point) : Bool :=
  decide (orient2 p q r = 0) &&
    decide (min p.1 q.1 ≤ r.1) && decide (r.1 ≤ max p.1 q.1) &&
    decide (min p.2 q.2 ≤ r.2) && decide (r.2 ≤ max p.2 q.2)

/-- Segments `a b` and `c d` share at least one point. -/
def segsIntersect (a b c d : Point) : Bool :=
  (decide (orient2 a b c * orient2 a b d < 0) &&
    decide (orient2 c d a * orient2 c d b < 0)) ||
  onSegB a b c || onSegB a b d || onSegB c d a || onSegB c d b

/-- Edges of a ring given as a closed vertex list. -/
def ringEdges (r : List Point) : List (Point × Point) := r.zip r.tail

/-- Each edge checked against the edges at least two places later. -/
def nonAdjOk : List (Point × Point) → Bool
  | [] => true
  | e :: t =>
    (t.drop 1).all (fun e2 => ! segsIntersect e.1 e.2 e2.1 e2.2) && nonAdjOk t

/-- No two non-adjacent edges of the closed ring intersect (the first
edge additionally skips the last edge, its cyclic neighbour). -/
def noSelfIntersect (r : List Point) : Bool :=
  match ringEdges r with
  | [] => true
  | e0 :: rest =>
    ((rest.drop 1).dropLast).all
      (fun e2 => ! segsIntersect e0.1 e0.2 e2.1 e2.2) && nonAdjOk rest

/-- The error raised when a requested tolerance would produce invalid
geometry (the spec's `SimplificationError`). -/
inductive SimplificationError
  | overSimplified
deriving DecidableEq

/-- A ring is valid when it keeps at least 3 vertices, is not
self-intersecting, and has positive area. -/
def validRing (r : List Point) : Bool :=
  decide (3 ≤ ringVertexCount r) && noSelfIntersect r &&
    decide (0 < signedArea r)

/-- Drop exact consecutive duplicates after the given vertex. -/
def dedupChain : Point → List Point → List Point
  | _, [] => []
  | p, b :: t => if b = p then dedupChain p t else b :: dedupChain b t

/-- Drop exact consecutive duplicate vertices of a ring. -/
def dedupClosed : List Point → List Point
  | [] => []
  | a :: t => a :: dedupChain a t

/-- Modelled from the spec: the Simplifier,
`simplify(polygon, toleranceDegrees)`.  "tolerance = 0 is a valid request
meaning no simplification beyond exact-duplicate removal"; a positive
tolerance applies the Douglas-Peucker-style reduction; the result is
checked, and `SimplificationError` is raised instead of returning a
self-intersecting or degenerate (zero-area or fewer than 3 vertices)
ring. -/
def simplify (r : List Point) (tol : ℚ) :
    Except SimplificationError (List Point) :=
  let s := if tol = 0 then dedupClosed r else dpRing tol r
  if validRing s then .ok s else .error .overSimplified

/-- Claim C4: for every geodetic polygon and non-negative tolerance,
`simplify` either returns a ring with at least 3 vertices,
non-self-intersecting and of positive area, or raises
`SimplificationError` (the only error the function can produce); it never
returns a degenerate ring. -/
theorem simplify_valid_or_error (r : List Point) (tol : ℚ) (htol : 0 ≤ tol) :
    ∀ s, simplify r tol = .ok s →
      3 ≤ ringVertexCount s ∧ noSelfIntersect s = true ∧ 0 < signedArea s := by
  intro s hs
  simp only [simplify] at hs
  cases hval : validRing (if tol = 0 then dedupClosed r else dpRing tol r) with
  | false =>
    rw [hval] at hs
    simp at hs
  | true =>
    rw [hval] at hs
    simp only [if_true] at hs
    have hse : (if tol = 0 then dedupClosed r else dpRing tol r) = s := by
      simpa using hs
    rw [← hse]
    simp only [validRing, Bool.and_eq_true, decide_eq_true_eq] at hval
    exact ⟨hval.1.1, hval.1.2, hval.2⟩

/-- Witness for C4: simplifying a unit square with tolerance 0 returns
the square, which is valid. -/
theorem simplify_valid_or_error_witness :
    (0 : ℚ) ≤ 0 ∧
      simplify [((0 : ℚ), (0 : ℚ)), (1, 0), (1, 1), (0, 1), (0, 0)] 0 =
        .ok [((0 : ℚ), (0 : ℚ)), (1, 0), (1, 1), (0, 1), (0, 0)] ∧
      (3 ≤ ringVertexCount [((0 : ℚ), (0 : ℚ)), (1, 0), (1, 1), (0, 1), (0, 0)] ∧
        noSelfIntersect [((0 : ℚ), (0 : ℚ)), (1, 0), (1, 1), (0, 1), (0, 0)] = true ∧
        0 < signedArea [((0 : ℚ), (0 : ℚ)), (1, 0), (1, 1), (0, 1), (0, 0)]) := by
  have hok : simplify [((0 : ℚ), (0 : ℚ)), (1, 0), (1, 1), (0, 1), (0, 0)] 0 =
      .ok [((0 : ℚ), (0 : ℚ)), (1, 0), (1, 1), (0, 1), (0, 0)] := by
    norm_num [simplify, dedupClosed, dedupChain, validRing, ringVertexCount,
      lastD, noSelfIntersect, nonAdjOk, ringEdges, segsIntersect, onSegB,
      orient2, signedArea, crossSum, cross, Prod.ext_iff, List.zip,
      List.cons_ne_nil]
  exact ⟨le_refl 0, hok,
    simplify_valid_or_error [((0 : ℚ), (0 : ℚ)), (1, 0), (1, 1), (0, 1), (0, 0)]
      0 (le_refl 0) _ hok⟩

/-! ### Geometry Densifier and Reprojector (modelled from the spec) -/

/-- Modelled from the spec: densification of one edge, "inserts factor - 1
additional vertices at equal parametric spacing along the straight line
between the edge's endpoints"; the returned list carries the inserted
vertices followed by the edge's far endpoint. -/
def densifyEdge (factor : ℕ) (a b : Point) : List Point :=
  (List.range factor).map (fun (j : ℕ) =>
    (a.1 + (((j : ℚ) + 1) / (factor : ℚ)) * (b.1 - a.1),
     a.2 + (((j : ℚ) + 1) / (factor : ℚ)) * (b.2 - a.2)))

/-- Modelled from the spec: densify every edge of a (closed) polygon. -/
def densifyRing (factor : ℕ) (r : List Point) : List Point :=
  match r with
  | [] => []
  | a :: t =>
    a :: ((a :: t).zip t).flatMap (fun e => densifyEdge factor e.1 e.2)

/-- Modelled from the spec: the Geometry Densifier & Reprojector,
`densifyAndReproject(polygon, factor, transform)`: densification happens
strictly before reprojection, the transform being applied to every vertex
of the densified polygon.  The coordinate transform is an abstract
function parameter. -/
def densifyAndReproject (r : List Point) (factor : ℕ) (f : Point → Point) :
    List Point :=
  (densifyRing factor r).map f

theorem densifyEdge_one (a b : Point) : densifyEdge 1 a b = [b] := by
  unfold densifyEdge
  rw [show List.range 1 = [0] from rfl]
  simp only [List.map_cons, List.map_nil]
  have h1 : a.1 + (((0 : ℕ) : ℚ) + 1) / ((1 : ℕ) : ℚ) * (b.1 - a.1) = b.1 := by
    push_cast
    ring
  have h2 : a.2 + (((0 : ℕ) : ℚ) + 1) / ((1 : ℕ) : ℚ) * (b.2 - a.2) = b.2 := by
    push_cast
    ring
  rw [h1, h2]

theorem zip_flatMap_densify_one : ∀ (t : List Point) (a : Point),
    ((a :: t).zip t).flatMap (fun e => densifyEdge 1 e.1 e.2) = t := by
  intro t
  induction t with
  | nil => intro a; rfl
  | cons b t' ih =>
    intro a
    show densifyEdge 1 a b ++
      ((b :: t').zip t').flatMap (fun e => densifyEdge 1 e.1 e.2) = b :: t'
    rw [densifyEdge_one, ih b]
    rfl

/-- Densification with factor 1 inserts no vertices. -/
theorem densifyRing_one (r : List Point) : densifyRing 1 r = r := by
  match r with
  | [] => rfl
  | a :: t =>
    show a :: ((a :: t).zip t).flatMap (fun e => densifyEdge 1 e.1 e.2) = a :: t
    rw [zip_flatMap_densify_one t a]

/-- Claim C5: for every valid projected polygon, densify-and-reproject
with factor 1 followed by `simplify` with tolerance 0 yields exactly the
direct reprojection of the original vertices: factor 1 inserts no
vertices, and tolerance 0 removes only exact duplicates, of which the
reprojection of a valid polygon has none (hypotheses `hdup`, `hval`).
Equality is exact in rational arithmetic, hence within any floating-point
tolerance. -/
theorem densify_one_simplify_zero (r : List Point) (f : Point → Point)
    (hdup : dedupClosed (r.map f) = r.map f)
    (hval : validRing (r.map f) = true) :
    densifyAndReproject r 1 f = r.map f ∧
      simplify (densifyAndReproject r 1 f) 0 = .ok (r.map f) := by
  have h1 : densifyAndReproject r 1 f = r.map f := by
    unfold densifyAndReproject
    rw [densifyRing_one]
  refine ⟨h1, ?_⟩
  rw [h1]
  simp [simplify, hdup, hval]

/-- Witness for C5: the unit square under a unit eastward translation. -/
theorem densify_one_simplify_zero_witness :
    dedupClosed ([((0 : ℚ), (0 : ℚ)), (1, 0), (1, 1), (0, 1), (0, 0)].map
        (fun p => (p.1 + 1, p.2))) =
      [((0 : ℚ), (0 : ℚ)), (1, 0), (1, 1), (0, 1), (0, 0)].map
        (fun p => (p.1 + 1, p.2)) ∧
      validRing ([((0 : ℚ), (0 : ℚ)), (1, 0), (1, 1), (0, 1), (0, 0)].map
        (fun p => (p.1 + 1, p.2))) = true ∧
      (densifyAndReproject [((0 : ℚ), (0 : ℚ)), (1, 0), (1, 1), (0, 1), (0, 0)] 1
          (fun p => (p.1 + 1, p.2)) =
        [((0 : ℚ), (0 : ℚ)), (1, 0), (1, 1), (0, 1), (0, 0)].map
          (fun p => (p.1 + 1, p.2)) ∧
        simplify (densifyAndReproject
            [((0 : ℚ), (0 : ℚ)), (1, 0), (1, 1), (0, 1), (0, 0)] 1
            (fun p => (p.1 + 1, p.2))) 0 =
          .ok ([((0 : ℚ), (0 : ℚ)), (1, 0), (1, 1), (0, 1), (0, 0)].map
            (fun p => (p.1 + 1, p.2)))) := by
  have hdup : dedupClosed ([((0 : ℚ), (0 : ℚ)), (1, 0), (1, 1), (0, 1), (0, 0)].map
      (fun p => (p.1 + 1, p.2))) =
      [((0 : ℚ), (0 : ℚ)), (1, 0), (1, 1), (0, 1), (0, 0)].map
        (fun p => (p.1 + 1, p.2)) := by
    norm_num [dedupClosed, dedupChain, Prod.ext_iff]
  have hval : validRing ([((0 : ℚ), (0 : ℚ)), (1, 0), (1, 1), (0, 1), (0, 0)].map
      (fun p => (p.1 + 1, p.2))) = true := by
    norm_num [validRing, ringVertexCount, lastD, noSelfIntersect, nonAdjOk,
      ringEdges, segsIntersect, onSegB, orient2, signedArea, crossSum, cross,
      Prod.ext_iff, List.zip, List.cons_ne_nil]
  exact ⟨hdup, hval,
    densify_one_simplify_zero [((0 : ℚ), (0 : ℚ)), (1, 0), (1, 1), (0, 1), (0, 0)]
      (fun p => (p.1 + 1, p.2)) hdup hval⟩

/-! ### Path utilities (modelling the `os.path` functions used by the
command surface; paths are plain strings with `/` separators) -/

/-- The part of the path after the last slash (`os.path.basename`). -/
def basename (s : String) : String :=
  String.mk ((s.data.reverse.takeWhile (fun c => c ≠ '/')).reverse)

/-- The part of the path before the last slash (`os.path.dirname`; empty
when there is no slash). -/
def dirname (s : String) : String :=
  String.mk (((s.data.reverse.dropWhile (fun c => c ≠ '/')).reverse).dropLast)

/-- Length of the extension (including the dot) of the path's basename:
the segment from the last dot, unless that dot is the basename's first
character (`os.path.splitext` semantics). -/
def extLen (s : String) : ℕ :=
  let b := (basename s).data
  let pre := b.reverse.takeWhile (fun c => c ≠ '.')
  if pre.length = b.length then 0
  else if pre.length + 1 = b.length then 0
  else pre.length + 1

/-- The path with its extension removed (`os.path.splitext(s)[0]`). -/
def rootOf (s : String) : String :=
  String.mk (s.data.take (s.data.length - extLen s))

/-- The file stem: basename without its extension. -/
def stem (s : String) : String :=
  String.mk ((basename s).data.take ((basename s).data.length - extLen s))

/-- The portion of the basename before the first dot
(`os.path.basename(s).split(".")[0]`). -/
def productKey (s : String) : String :=
  String.mk ((basename s).data.takeWhile (fun c => c ≠ '.'))

/-- Deterministic output path for one subdataset raster: output directory,
source file stem and subdataset name. -/
def outputPath (outdir stemStr name : String) : String :=
  outdir ++ ("/") ++ stemStr ++ ("_") ++ name ++ (".tif")

/-! ### Raster Subdataset Extractor (modelled from the spec) -/

/-- A multi-subdataset container, abstracted to its subdataset names. -/
structure Container where
  subdatasets : List String

/-- Extraction failures: missing subdataset, or unwritable output
(the spec's `NotFoundError` and `IOError`). -/
inductive ExtractErr
  | notFoundError
  | ioError
deriving DecidableEq

/-- Modelled from the spec: the Raster Subdataset Extractor,
`extract(containerPath, subdatasetName, outputDir)`.  The file system is a
list of complete file paths; the content of a container path is given by
the oracle `contents`, and writability of the output directory by the
flag `writable`.  A missing subdataset fails with `NotFoundError`; an
unwritable output fails with `IOError`; the output is written to a
temporary path and atomically renamed on success, or deleted on error, so
no failure leaves a file behind. -/
def extract (contents : String → Container) (containerPath name outdir : String)
    (writable : Bool) (fs : List String) :
    Except ExtractErr String × List String :=
  if name ∈ (contents containerPath).subdatasets then
    let path := outputPath outdir (stem containerPath) name
    let tmp := path ++ (".part")
    if writable then
      (.ok path, path :: ((tmp :: fs).erase tmp))
    else
      (.error .ioError, (tmp :: fs).erase tmp)
  else (.error .notFoundError, fs)

/-- Claim C6: extraction of a subdataset absent from the container fails
with `NotFoundError` and leaves the file system unchanged (no output file
behind); more generally, every extraction failure leaves the file system
exactly as it was (no partially written output survives). -/
theorem extract_failure_atomic (contents : String → Container)
    (containerPath name outdir : String) (writable : Bool) (fs : List String) :
    (name ∉ (contents containerPath).subdatasets →
      extract contents containerPath name outdir writable fs =
        (.error .notFoundError, fs)) ∧
    (∀ e, (extract contents containerPath name outdir writable fs).1 =
        .error e →
      (extract contents containerPath name outdir writable fs).2 = fs) := by
  constructor
  · intro h
    simp [extract, h]
  · intro e he
    by_cases hmem : name ∈ (contents containerPath).subdatasets
    · cases writable with
      | true => simp [extract, hmem] at he
      | false => simp [extract, hmem, List.erase_cons_head]
    · simp [extract, hmem]

/-- Witness for C6: a container with one subdataset, asked for another. -/
theorem extract_failure_atomic_witness :
    (("absent") ∉ (Container.mk [("sds1")]).subdatasets) ∧
      extract (fun _ => Container.mk [("sds1")]) ("d/in.h5") ("absent") ("o")
          true [("o/existing.tif")] =
        (.error .notFoundError, [("o/existing.tif")]) := by
  have h : (("absent") : String) ∉ (Container.mk [("sds1")]).subdatasets := by
    decide
  exact ⟨h,
    (extract_failure_atomic (fun _ => Container.mk [("sds1")]) ("d/in.h5")
      ("absent") ("o") true [("o/existing.tif")]).1 h⟩

/-! ### COG creation (modelled from the spec) and the command surface
(embedded from `commands.py`) -/

/-- Modelled from the spec: `cog.cogify(infile, outdir)` converts each
subdataset of the H5 file into a COG, "one georeferenced, internally-tiled
raster file per requested subdataset, written under a caller-specified
output directory, named deterministically from the source file stem and
subdataset name"; returns the written paths.  The container's subdataset
names are given by the oracle `subs`. -/
def cogify (subs : String → List String) (infile outdir : String) :
    List String :=
  (subs infile).map (fun n => outputPath outdir (stem infile) n)

/-- Embedded from `commands.py` (`create_cogs`): the output directory
defaults to the H5 file's directory when not supplied. -/
def create_cogs_command (subs : String → List String) (infile : String)
    (outdir : Option String) : List String :=
  cogify subs infile
    (match outdir with
     | none => dirname infile
     | some d => d)

/-- Claim C8: every raster asset produced by COG creation lies under the
caller-specified output directory, and its name is derived
deterministically from the source file stem and the subdataset name; the
`create-cogs` command passes the chosen output directory (defaulting to
the H5 file's directory) through to `cogify`. -/
theorem cogify_asset_naming (subs : String → List String)
    (infile outdir : String) :
    (∀ h ∈ cogify subs infile outdir,
      (∃ rest, h = outdir ++ ("/") ++ rest) ∧
        ∃ n ∈ subs infile, h = outputPath outdir (stem infile) n) ∧
    create_cogs_command subs infile none = cogify subs infile (dirname infile) ∧
    (∀ d, create_cogs_command subs infile (some d) = cogify subs infile d) := by
  refine ⟨?_, rfl, fun d => rfl⟩
  intro h hh
  simp only [cogify, List.mem_map] at hh
  obtain ⟨n, hn, hhn⟩ := hh
  constructor
  · refine ⟨stem infile ++ ("_") ++ n ++ (".tif"), ?_⟩
    rw [← hhn]
    simp [outputPath, String.append_assoc]
  · exact ⟨n, hn, hhn.symm⟩

/-- Witness for C8 at a concrete file with two subdatasets. -/
theorem cogify_asset_naming_witness :
    cogify (fun _ => [("A"), ("B")]) ("d/f.h5") ("out") =
      [("out/f_A.tif"), ("out/f_B.tif")] ∧
      (∃ rest, ("out/f_A.tif") = ("out") ++ ("/") ++ rest) ∧
      ∃ n ∈ (fun (_ : String) => [("A"), ("B")]) ("d/f.h5"),
        ("out/f_A.tif") = outputPath ("out") (stem ("d/f.h5")) n := by
  have hc : cogify (fun _ => [("A"), ("B")]) ("d/f.h5") ("out") =
      [("out/f_A.tif"), ("out/f_B.tif")] := by decide
  have hmem : ("out/f_A.tif") ∈ cogify (fun _ => [("A"), ("B")]) ("d/f.h5") ("out") := by
    rw [hc]
    decide
  exact ⟨hc,
    (cogify_asset_naming (fun _ => [("A"), ("B")]) ("d/f.h5") ("out")).1
      ("out/f_A.tif") hmem⟩

/-- Modelled from the spec: `constants.FOOTPRINT_DENSIFICATION_FACTOR`
(the constants module is not part of the visible source): "densification
factor (positive integer, default 10)". -/
def FOOTPRINT_DENSIFICATION_FACTOR : Int := 10

/-- Modelled from the spec: `constants.FOOTPRINT_SIMPLIFICATION_TOLERANCE`
(the constants module is not part of the visible source): "simplification
tolerance (non-negative degrees, default 0.0006)". -/
def FOOTPRINT_SIMPLIFICATION_TOLERANCE : ℚ := 6 / 10000

/-- Python `str.upper()` on ASCII letters, modelled on the character-list
view of strings so that every string operation stays kernel-computable. -/
def upChar (c : Char) : Char :=
  if ('a' <= c && c <= 'z') then Char.ofNat (c.toNat - 32) else c

/-- Uppercase a whole string (the model of Python `.upper()`). -/
def strUpper (s : String) : String := String.mk (s.data.map upChar)

/-- ASCII whitespace, as stripped by Python `str.strip()`. -/
def isWsp (c : Char) : Bool :=
  c = ' ' || c = '\t' || c = '\n' || c = '\r'

/-- Python `str.strip()`: whitespace removed from both ends. -/
def strStrip (s : String) : String :=
  String.mk (((s.data.dropWhile isWsp).reverse.dropWhile isWsp).reverse)

/-- Embedded from `commands.py`: `Strategy[antimeridian_strategy.upper()]`
resolves the strategy option string to the enumeration; `none` models the
lookup failing (click restricts the choices to the two valid names). -/
def parseStrategy (s : String) : Option Strategy :=
  if strUpper s = ("NORMALIZE") then some .NORMALIZE
  else if strUpper s = ("SPLIT") then some .SPLIT
  else none

/-- Arguments of the `create-item` command, with click's declared
defaults. -/
structure CreateItemArgs where
  infile : String
  outdir : String
  antimeridian_strategy : String := ("split")
  create_cogs : Bool := false
  densification_factor : Int := FOOTPRINT_DENSIFICATION_FACTOR
  simplification_tolerance : ℚ := FOOTPRINT_SIMPLIFICATION_TOLERANCE
  use_data_footprint : Bool := false
  file_list : Option String := none

/-- The argument record of the `stac.create_item` pipeline call. -/
structure CreateItemCall where
  infile : String
  cog_hrefs : Option (List String)
  antimeridian_strategy : Strategy
  densification_factor : Int
  simplification_tolerance : ℚ
  use_data_footprint : Bool
deriving DecidableEq

/-- Python truthiness of an optional string: `None` and the empty string
are falsy. -/
def pyTruthy : Option String → Bool
  | none => false
  | some s => decide (s ≠ (""))

/-- Embedded from `commands.py` (`create_item_command`): the strategy is
resolved from its option string; when the file-list option is truthy its
whitespace-stripped lines become the COG HREFs, otherwise COG creation
runs when the flag is set, writing next to the H5 file; the pipeline call
receives the four configuration parameters unchanged.  Returns the
pipeline call record and whether `cog.cogify` was invoked (`none` when
the strategy string is not a valid name). -/
def create_item_command (readLines : String → List String)
    (cgf : String → String → List String) (a : CreateItemArgs) :
    Option (CreateItemCall × Bool) :=
  match parseStrategy a.antimeridian_strategy with
  | none => none
  | some strat =>
    let hi : Option (List String) × Bool :=
      if pyTruthy a.file_list then
        (some ((readLines (a.file_list.getD (""))).map (fun l => strStrip l)),
          false)
      else if a.create_cogs then
        (some (cgf a.infile (dirname a.infile)), true)
      else (none, false)
    some ({ infile := a.infile, cog_hrefs := hi.1,
            antimeridian_strategy := strat,
            densification_factor := a.densification_factor,
            simplification_tolerance := a.simplification_tolerance,
            use_data_footprint := a.use_data_footprint }, hi.2)

/-- Claim C7: the four configuration parameters (antimeridian strategy,
densification factor, simplification tolerance, use-data-footprint flag)
are passed through unchanged from the command surface into the pipeline
call, and the declared defaults are densification factor 10,
simplification tolerance 0.0006 degrees, use-data-footprint false. -/
theorem create_item_passthrough :
    (∀ (rl : String → List String) (cg : String → String → List String)
        (a : CreateItemArgs) (call : CreateItemCall) (inv : Bool),
      create_item_command rl cg a = some (call, inv) →
        call.densification_factor = a.densification_factor ∧
          call.simplification_tolerance = a.simplification_tolerance ∧
          call.use_data_footprint = a.use_data_footprint ∧
          parseStrategy a.antimeridian_strategy =
            some call.antimeridian_strategy ∧
          call.infile = a.infile) ∧
    (∀ infile outdir : String,
      ({ infile := infile, outdir := outdir } :
          CreateItemArgs).densification_factor = 10 ∧
        ({ infile := infile, outdir := outdir } :
          CreateItemArgs).simplification_tolerance = 6 / 10000 ∧
        ({ infile := infile, outdir := outdir } :
          CreateItemArgs).use_data_footprint = false) := by
  constructor
  · intro rl cg a call inv h
    cases hp : parseStrategy a.antimeridian_strategy with
    | none => simp [create_item_command, hp] at h
    | some strat =>
      simp only [create_item_command, hp, Option.some.injEq, Prod.mk.injEq] at h
      obtain ⟨hcall, hinv⟩ := h
      subst hcall
      exact ⟨rfl, rfl, rfl, rfl, rfl⟩
  · intro infile outdir
    exact ⟨rfl, rfl, rfl⟩

/-- Witness for C7: the pipeline call produced from default arguments
carries the defaults 10 and 0.0006 and the resolved SPLIT strategy. -/
theorem create_item_passthrough_witness :
    create_item_command (fun _ => []) (fun _ _ => [])
        { infile := ("d/f.h5"), outdir := ("o") } =
      some ({ infile := ("d/f.h5"), cog_hrefs := none,
              antimeridian_strategy := .SPLIT,
              densification_factor := FOOTPRINT_DENSIFICATION_FACTOR,
              simplification_tolerance := FOOTPRINT_SIMPLIFICATION_TOLERANCE,
              use_data_footprint := false }, false) ∧
      parseStrategy (("split")) = some Strategy.SPLIT ∧
      FOOTPRINT_DENSIFICATION_FACTOR = 10 ∧
      FOOTPRINT_SIMPLIFICATION_TOLERANCE = 6 / 10000 := by
  have hcmd : create_item_command (fun _ => []) (fun _ _ => [])
      { infile := ("d/f.h5"), outdir := ("o") } =
      some ({ infile := ("d/f.h5"), cog_hrefs := none,
              antimeridian_strategy := .SPLIT,
              densification_factor := FOOTPRINT_DENSIFICATION_FACTOR,
              simplification_tolerance := FOOTPRINT_SIMPLIFICATION_TOLERANCE,
              use_data_footprint := false }, false) := by
    rfl
  have h := create_item_passthrough.1 (fun _ => []) (fun _ _ => [])
    { infile := ("d/f.h5"), outdir := ("o") } _ _ hcmd
  exact ⟨hcmd, h.2.2.2.1, rfl, rfl⟩

/-- Counterexample for C9: when the file-list option is supplied as the
empty string (falsy in Python), `create_item_command` still invokes COG
creation when the create-cogs flag is set, and the asset HREFs come from
`cogify`, not from the supplied file list. -/
theorem create_item_empty_file_list_cogifies :
    (create_item_command (fun _ => [("listed.tif")])
        (fun _ _ => [("cogified.tif")])
        { infile := ("d/f.h5"), outdir := ("o"), create_cogs := true,
          file_list := some ("") }).map (fun x => x.2) = some true ∧
      (create_item_command (fun _ => [("listed.tif")])
        (fun _ _ => [("cogified.tif")])
        { infile := ("d/f.h5"), outdir := ("o"), create_cogs := true,
          file_list := some ("") }).map (fun x => x.1.cog_hrefs) =
        some (some [("cogified.tif")]) := by
  constructor
  · rfl
  · rfl

/-- Claim C9 (amended): whenever a NON-EMPTY file list is supplied, the
asset HREFs are exactly the whitespace-stripped lines of that file and
COG creation is never invoked; COG creation runs exactly when no
non-empty file list is given and the create-cogs flag is set, in which
case the COGs are written to the directory containing the input H5
file. -/
theorem create_item_file_list_amended (rl : String → List String)
    (cg : String → String → List String) (a : CreateItemArgs)
    (call : CreateItemCall) (inv : Bool)
    (h : create_item_command rl cg a = some (call, inv)) :
    (pyTruthy a.file_list = true →
      call.cog_hrefs =
          some ((rl (a.file_list.getD (""))).map (fun l => strStrip l)) ∧
        inv = false) ∧
    (inv = true ↔ pyTruthy a.file_list = false ∧ a.create_cogs = true) ∧
    (inv = true → call.cog_hrefs = some (cg a.infile (dirname a.infile))) := by
  cases hp : parseStrategy a.antimeridian_strategy with
  | none => simp [create_item_command, hp] at h
  | some strat =>
    simp only [create_item_command, hp, Option.some.injEq, Prod.mk.injEq] at h
    obtain ⟨hcall, hinv⟩ := h
    cases hft : pyTruthy a.file_list with
    | true =>
      rw [hft] at hcall hinv
      simp only [if_true] at hcall hinv
      refine ⟨fun _ => ⟨?_, hinv.symm⟩, ?_, ?_⟩
      · rw [← hcall]
      · rw [← hinv]
        simp
      · intro hiv
        rw [← hinv] at hiv
        exact absurd hiv (by simp)
    | false =>
      rw [hft] at hcall hinv
      simp only [if_false, Bool.false_eq_true] at hcall hinv
      cases hcc : a.create_cogs with
      | true =>
        rw [hcc] at hcall hinv
        simp only [if_true] at hcall hinv
        refine ⟨fun hft2 => absurd hft2 (by simp [hft]), ?_, ?_⟩
        · rw [← hinv]
          simp
        · intro _
          rw [← hcall]
      | false =>
        rw [hcc] at hcall hinv
        simp only [if_false, Bool.false_eq_true] at hcall hinv
        refine ⟨fun hft2 => absurd hft2 (by simp [hft]), ?_, ?_⟩
        · rw [← hinv]
          simp
        · intro hiv
          rw [← hinv] at hiv
          exact absurd hiv (by simp)

/-- Witness for the amended C9: a non-empty file list suppresses COG
creation and yields the stripped lines. -/
theorem create_item_file_list_amended_witness :
    create_item_command (fun _ => [(" a.tif "), ("b.tif")])
        (fun _ _ => [("cogified.tif")])
        { infile := ("d/f.h5"), outdir := ("o"), create_cogs := true,
          file_list := some ("list.txt") } =
      some ({ infile := ("d/f.h5"),
              cog_hrefs := some [("a.tif"), ("b.tif")],
              antimeridian_strategy := .SPLIT,
              densification_factor := FOOTPRINT_DENSIFICATION_FACTOR,
              simplification_tolerance := FOOTPRINT_SIMPLIFICATION_TOLERANCE,
              use_data_footprint := false }, false) ∧
      (pyTruthy (some ("list.txt")) = true →
        ({ infile := ("d/f.h5"),
           cog_hrefs := some [("a.tif"), ("b.tif")],
           antimeridian_strategy := .SPLIT,
           densification_factor := FOOTPRINT_DENSIFICATION_FACTOR,
           simplification_tolerance := FOOTPRINT_SIMPLIFICATION_TOLERANCE,
           use_data_footprint := false } : CreateItemCall).cog_hrefs =
          some (((fun (_ : String) => [(" a.tif "), ("b.tif")])
            ((some ("list.txt")).getD (""))).map (fun l => strStrip l)) ∧
        false = false) := by
  have hcmd : create_item_command (fun _ => [(" a.tif "), ("b.tif")])
      (fun _ _ => [("cogified.tif")])
      { infile := ("d/f.h5"), outdir := ("o"), create_cogs := true,
        file_list := some ("list.txt") } =
      some ({ infile := ("d/f.h5"),
              cog_hrefs := some [("a.tif"), ("b.tif")],
              antimeridian_strategy := .SPLIT,
              densification_factor := FOOTPRINT_DENSIFICATION_FACTOR,
              simplification_tolerance := FOOTPRINT_SIMPLIFICATION_TOLERANCE,
              use_data_footprint := false }, false) := by
    rfl
  refine ⟨hcmd, ?_⟩
  have hall := create_item_file_list_amended (fun _ => [(" a.tif "), ("b.tif")])
    (fun _ _ => [("cogified.tif")])
    { infile := ("d/f.h5"), outdir := ("o"), create_cogs := true,
      file_list := some ("list.txt") } _ _ hcmd
  exact fun ht => hall.1 ht

/-! ### The create-collection command (embedded from `commands.py`) -/

/-- A STAC item record: the source H5 HREF and its COG asset HREFs. -/
structure ItemRec where
  href : String
  cog_hrefs : List String
deriving DecidableEq

/-- A STAC collection record: product key, self HREF, items (each
collection is validated and saved uniformly by the command). -/
structure CollectionRec where
  product : String
  selfHref : String
  items : List ItemRec
deriving DecidableEq

/-- `defaultdict(list)` insertion: append the item to its key's list,
keys ordered by first appearance. -/
def addItem (acc : List (String × List ItemRec)) (k : String) (it : ItemRec) :
    List (String × List ItemRec) :=
  match acc with
  | [] => [(k, [it])]
  | (k0, l) :: t =>
    if k0 = k then (k0, l ++ [it]) :: t else (k0, l) :: addItem t k it

/-- Group items by the product key of their HREF, preserving insertion
order (the `item_dict` loop of `create_collection_command`). -/
def groupItems (its : List ItemRec) : List (String × List ItemRec) :=
  its.foldl (fun acc it => addItem acc (productKey it.href) it) []

theorem addItem_keys (k : String) (it : ItemRec) :
    ∀ acc : List (String × List ItemRec),
      (addItem acc k it).map Prod.fst =
        if k ∈ acc.map Prod.fst then acc.map Prod.fst
        else acc.map Prod.fst ++ [k] := by
  intro acc
  induction acc with
  | nil => simp [addItem]
  | cons g t ih =>
    obtain ⟨k0, l⟩ := g
    by_cases hk : k0 = k
    · subst hk
      simp [addItem]
    · simp only [addItem, if_neg hk, List.map_cons, ih]
      by_cases hmem : k ∈ t.map Prod.fst
      · rw [if_pos hmem, if_pos (by simp [hmem])]
      · rw [if_neg hmem, if_neg (by
          simp only [List.mem_cons]
          rintro (hc | hc)
          · exact hk hc.symm
          · exact hmem hc)]
        simp

theorem addItem_keys_mono (k : String) (it : ItemRec)
    (acc : List (String × List ItemRec)) (x : String)
    (hx : x ∈ acc.map Prod.fst) : x ∈ (addItem acc k it).map Prod.fst := by
  rw [addItem_keys]
  by_cases hmem : k ∈ acc.map Prod.fst
  · rw [if_pos hmem]; exact hx
  · rw [if_neg hmem]; exact List.mem_append_left _ hx

theorem addItem_keys_self (k : String) (it : ItemRec)
    (acc : List (String × List ItemRec)) :
    k ∈ (addItem acc k it).map Prod.fst := by
  rw [addItem_keys]
  by_cases hmem : k ∈ acc.map Prod.fst
  · rw [if_pos hmem]; exact hmem
  · rw [if_neg hmem]; simp

theorem addItem_nodup (k : String) (it : ItemRec)
    (acc : List (String × List ItemRec)) (h : (acc.map Prod.fst).Nodup) :
    ((addItem acc k it).map Prod.fst).Nodup := by
  rw [addItem_keys]
  by_cases hmem : k ∈ acc.map Prod.fst
  · rw [if_pos hmem]; exact h
  · rw [if_neg hmem]
    rw [List.nodup_append]
    refine ⟨h, by simp, ?_⟩
    intro x hx hx2
    simp only [List.mem_singleton] at hx2
    exact hmem (hx2 ▸ hx)

theorem addItem_mem (k : String) (it : ItemRec) :
    ∀ acc : List (String × List ItemRec), (acc.map Prod.fst).Nodup →
      ∀ g ∈ addItem acc k it,
        (g ∈ acc ∧ g.1 ≠ k) ∨
          (g.1 = k ∧ ∃ l, (k, l) ∈ acc ∧ g.2 = l ++ [it]) ∨
          (g.1 = k ∧ k ∉ acc.map Prod.fst ∧ g.2 = [it]) := by
  intro acc
  induction acc with
  | nil =>
    intro _ g hg
    simp only [addItem, List.mem_singleton] at hg
    subst hg
    exact Or.inr (Or.inr ⟨rfl, by simp, rfl⟩)
  | cons g0 t ih =>
    intro hnd g hg
    obtain ⟨k0, l⟩ := g0
    by_cases hk : k0 = k
    · subst hk
      simp only [addItem, if_pos rfl] at hg
      rcases List.mem_cons.mp hg with h | h
      · subst h
        exact Or.inr (Or.inl ⟨rfl, l, by simp, rfl⟩)
      · left
        refine ⟨List.mem_cons_of_mem _ h, ?_⟩
        have hk0 : k0 ∉ t.map Prod.fst := by
          simp only [List.map_cons, List.nodup_cons] at hnd
          exact hnd.1
        intro hgk
        apply hk0
        rw [← hgk]
        exact List.mem_map_of_mem Prod.fst h
    · simp only [addItem, if_neg hk] at hg
      rcases List.mem_cons.mp hg with h | h
      · subst h
        exact Or.inl ⟨List.mem_cons_self _ _, hk⟩
      · have hnd2 : (t.map Prod.fst).Nodup := by
          simp only [List.map_cons, List.nodup_cons] at hnd
          exact hnd.2
        rcases ih hnd2 g h with h1 | h2 | h3
        · exact Or.inl ⟨List.mem_cons_of_mem _ h1.1, h1.2⟩
        · obtain ⟨hgk, l2, hl2, hg2⟩ := h2
          exact Or.inr (Or.inl ⟨hgk, l2, List.mem_cons_of_mem _ hl2, hg2⟩)
        · refine Or.inr (Or.inr ⟨h3.1, ?_, h3.2.2⟩)
          simp only [List.map_cons, List.mem_cons]
          rintro (hc | hc)
          · exact hk hc.symm
          · exact h3.2.1 hc

theorem groupFold_spec :
    ∀ (rest : List ItemRec) (acc : List (String × List ItemRec))
      (done : List ItemRec),
      (acc.map Prod.fst).Nodup →
      (∀ g ∈ acc, g.2 = done.filter (fun it => productKey it.href = g.1)) →
      (∀ it ∈ done, productKey it.href ∈ acc.map Prod.fst) →
      (∀ g ∈ acc, g.1 ∈ done.map (fun it => productKey it.href)) →
      ((rest.foldl (fun acc it => addItem acc (productKey it.href) it)
          acc).map Prod.fst).Nodup ∧
        (∀ g ∈ rest.foldl (fun acc it => addItem acc (productKey it.href) it) acc,
          g.2 = (done ++ rest).filter (fun it => productKey it.href = g.1)) ∧
        (∀ it ∈ done ++ rest, productKey it.href ∈
          (rest.foldl (fun acc it => addItem acc (productKey it.href) it)
            acc).map Prod.fst) ∧
        (∀ g ∈ rest.foldl (fun acc it => addItem acc (productKey it.href) it) acc,
          g.1 ∈ (done ++ rest).map (fun it => productKey it.href)) := by
  intro rest
  induction rest with
  | nil =>
    intro acc done h1 h2 h3 h4
    simp only [List.foldl_nil, List.append_nil]
    exact ⟨h1, h2, h3, h4⟩
  | cons x rest ih =>
    intro acc done h1 h2 h3 h4
    simp only [List.foldl_cons]
    have inv1 : ((addItem acc (productKey x.href) x).map Prod.fst).Nodup :=
      addItem_nodup _ _ _ h1
    have inv2 : ∀ g ∈ addItem acc (productKey x.href) x,
        g.2 = (done ++ [x]).filter (fun it => productKey it.href = g.1) := by
      intro g hg
      rcases addItem_mem (productKey x.href) x acc h1 g hg with h | h | h
      · obtain ⟨hga, hne⟩ := h
        rw [h2 g hga, List.filter_append]
        have hx : ¬(productKey x.href = g.1) := fun hh => hne hh.symm
        simp [hx]
      · obtain ⟨hgk, l2, hl2, hg2⟩ := h
        have hthis : l2 = done.filter
            (fun it => productKey it.href = productKey x.href) := h2 _ hl2
        rw [hg2, hthis, List.filter_append, hgk]
        simp
      · obtain ⟨hgk, hfresh, hg2⟩ := h
        rw [hg2, List.filter_append, hgk]
        have hnil : done.filter
            (fun it => productKey it.href = productKey x.href) = [] := by
          rw [List.filter_eq_nil]
          intro it hit
          simp only [decide_eq_true_eq]
          intro hkey
          exact hfresh (hkey ▸ h3 it hit)
        rw [hnil]
        simp
    have inv3 : ∀ it ∈ done ++ [x], productKey it.href ∈
        (addItem acc (productKey x.href) x).map Prod.fst := by
      intro it hit
      rcases List.mem_append.mp hit with h | h
      · exact addItem_keys_mono _ _ _ _ (h3 it h)
      · simp only [List.mem_singleton] at h
        subst h
        exact addItem_keys_self _ _ _
    have inv4 : ∀ g ∈ addItem acc (productKey x.href) x,
        g.1 ∈ (done ++ [x]).map (fun it => productKey it.href) := by
      intro g hg
      rcases addItem_mem (productKey x.href) x acc h1 g hg with h | h | h
      · have hmem := h4 g h.1
        rw [List.map_append]
        exact List.mem_append_left _ hmem
      · rw [h.1, List.map_append]
        exact List.mem_append_right _ (by simp)
      · rw [h.1, List.map_append]
        exact List.mem_append_right _ (by simp)
    have H := ih (addItem acc (productKey x.href) x) (done ++ [x])
      inv1 inv2 inv3 inv4
    have hre : (done ++ [x]) ++ rest = done ++ x :: rest := by simp
    rw [hre] at H
    exact H

/-- Embedded from `commands.py` (`create_collection_command`): the item
built for one H5 HREF; its COG HREFs are produced by `cogify` next to the
H5 file when requested, and otherwise discovered by globbing the H5
file's extensionless path followed by `*.tif`. -/
def collectionItems (subs : String → List String)
    (glb : String → List String) (create_cogs : Bool) (hrefs : List String) :
    List ItemRec :=
  hrefs.map (fun h =>
    { href := h,
      cog_hrefs := if create_cogs then cogify subs h (dirname h)
                   else glb (rootOf h ++ ("*.tif")) })

/-- Embedded from `commands.py` (`create_collection_command`): each line
of the input file is stripped and made absolute; an item is created per
HREF; the items are grouped into one collection per product key (the part
of the basename before the first dot); each collection gets its self HREF
under the output directory and is validated and saved. -/
def create_collection_command (subs : String → List String)
    (glb : String → List String) (abspath : String → String)
    (lines : List String) (create_cogs : Bool) (outdir : String) :
    List CollectionRec :=
  (groupItems (collectionItems subs glb create_cogs
      (lines.map (fun l => abspath (strStrip l))))).map
    (fun g =>
      { product := g.1,
        selfHref := outdir ++ ("/") ++ g.1 ++ ("/collection.json"),
        items := g.2 })

/-- Claim C10: in the create-collection command every item is added to
exactly one collection, keyed by the portion of its HREF's basename
before the first dot; exactly one collection is created (and uniformly
validated and saved) per distinct product key; and when COG creation is
not requested each item's COG HREFs are discovered by globbing the H5
file's extensionless path followed by `*.tif`. -/
theorem create_collection_grouping (subs : String → List String)
    (glb : String → List String) (abspath : String → String)
    (lines : List String) (cc : Bool) (outdir : String) :
    ((create_collection_command subs glb abspath lines cc outdir).map
        (fun c => c.product)).Nodup ∧
      (∀ c ∈ create_collection_command subs glb abspath lines cc outdir,
        c.items = (collectionItems subs glb cc
            (lines.map (fun l => abspath (strStrip l)))).filter
          (fun it => productKey it.href = c.product) ∧
        c.selfHref = outdir ++ ("/") ++ c.product ++ ("/collection.json")) ∧
      (∀ h ∈ lines.map (fun l => abspath (strStrip l)),
        ∃ c ∈ create_collection_command subs glb abspath lines cc outdir,
          c.product = productKey h) ∧
      (∀ c ∈ create_collection_command subs glb abspath lines cc outdir,
        ∃ h ∈ lines.map (fun l => abspath (strStrip l)),
          c.product = productKey h) ∧
      (∀ c ∈ create_collection_command subs glb abspath lines cc outdir,
        ∀ it ∈ c.items, productKey it.href = c.product ∧
          (cc = false → it.cog_hrefs = glb (rootOf it.href ++ ("*.tif")))) := by
  have H := groupFold_spec
    (collectionItems subs glb cc (lines.map (fun l => abspath (strStrip l)))) [] []
    (by simp) (by simp) (by simp) (by simp)
  simp only [List.nil_append] at H
  obtain ⟨hnd, hfil, hkeys, hkeys2⟩ := H
  refine ⟨?_, ?_, ?_, ?_, ?_⟩
  · rw [show (create_collection_command subs glb abspath lines cc outdir).map
        (fun c => c.product) =
        (groupItems (collectionItems subs glb cc
          (lines.map (fun l => abspath (strStrip l))))).map Prod.fst from by
      simp [create_collection_command, List.map_map]]
    exact hnd
  · intro c hc
    simp only [create_collection_command, List.mem_map] at hc
    obtain ⟨g, hg, hgc⟩ := hc
    constructor
    · rw [← hgc]
      exact hfil g hg
    · rw [← hgc]
  · intro h hh
    have hit : ({ href := h,
                  cog_hrefs := if cc then cogify subs h (dirname h)
                    else glb (rootOf h ++ ("*.tif")) } : ItemRec) ∈
        collectionItems subs glb cc (lines.map (fun l => abspath (strStrip l))) := by
      simp only [collectionItems, List.mem_map]
      exact ⟨h, by simpa using hh, rfl⟩
    have := hkeys _ hit
    simp only [List.mem_map] at this
    obtain ⟨g, hg, hgk⟩ := this
    refine ⟨{ product := g.1,
              selfHref := outdir ++ ("/") ++ g.1 ++ ("/collection.json"),
              items := g.2 }, ?_, ?_⟩
    · simp only [create_collection_command, List.mem_map]
      exact ⟨g, hg, rfl⟩
    · exact hgk
  · intro c hc
    simp only [create_collection_command, List.mem_map] at hc
    obtain ⟨g, hg, hgc⟩ := hc
    have := hkeys2 g hg
    simp only [List.mem_map] at this
    obtain ⟨it, hit, hitk⟩ := this
    simp only [collectionItems, List.mem_map] at hit
    obtain ⟨h, hh, hhit⟩ := hit
    refine ⟨h, by simpa using hh, ?_⟩
    rw [← hgc]
    show g.1 = productKey h
    rw [← hitk, ← hhit]
  · intro c hc it hit
    simp only [create_collection_command, List.mem_map] at hc
    obtain ⟨g, hg, hgc⟩ := hc
    have hitems : c.items = (collectionItems subs glb cc
        (lines.map (fun l => abspath (strStrip l)))).filter
        (fun x => productKey x.href = c.product) := by
      rw [← hgc]
      exact hfil g hg
    rw [hitems] at hit
    have hmf := List.mem_filter.mp hit
    constructor
    · have := hmf.2
      simpa using this
    · intro hcc
      have hin := hmf.1
      simp only [collectionItems, List.mem_map] at hin
      obtain ⟨h, hh, hhit⟩ := hin
      rw [← hhit, hcc]
      simp

/-- Witness for C10: two H5 files sharing one product key and a third
with another key yield exactly two collections, with the expected glob
patterns. -/
theorem create_collection_grouping_witness :
    create_collection_command (fun _ => []) (fun p => [p])
        (fun s => s) [("a/P1.x.h5"), ("b/P1.y.h5"), ("a/P2.h5")] false ("out") =
      [{ product := ("P1"), selfHref := ("out/P1/collection.json"),
         items := [{ href := ("a/P1.x.h5"), cog_hrefs := [("a/P1.x*.tif")] },
                   { href := ("b/P1.y.h5"), cog_hrefs := [("b/P1.y*.tif")] }] },
       { product := ("P2"), selfHref := ("out/P2/collection.json"),
         items := [{ href := ("a/P2.h5"), cog_hrefs := [("a/P2*.tif")] }] }] ∧
      ((create_collection_command (fun _ => []) (fun p => [p])
          (fun s => s) [("a/P1.x.h5"), ("b/P1.y.h5"), ("a/P2.h5")] false
          ("out")).map (fun c => c.product)).Nodup := by
  constructor
  · decide
  · exact (create_collection_grouping (fun _ => []) (fun p => [p])
      (fun s => s) [("a/P1.x.h5"), ("b/P1.y.h5"), ("a/P2.h5")] false ("out")).1

/-! ### General single-crossing presentations

A ring that crosses the antimeridian exactly once need not start right
after the crossing: the starting vertex may sit anywhere in either
one-sided block.  The run forms below cover every such presentation: a
leading run on one side, the full block on the other side, and the
remainder of the first side, closed back to the first vertex. -/

/-- A geodetic ring crossing the antimeridian exactly once, presented
starting on the positive side: a positive run `p1 :: P1`, the negative
block `n0 :: N`, the trailing positive run `P2` (possibly empty), and
closure back to `p1`; the two run-boundary deltas are the crossing
edges. -/
def posRunForm (r : List Point) : Prop :=
  ∃ p1 P1 n0 N P2, r = (p1 :: P1) ++ (n0 :: N) ++ P2 ++ [p1] ∧
    (∀ q ∈ p1 :: P1, 0 < q.1 ∧ q.1 < 180) ∧
    (∀ q ∈ n0 :: N, -180 < q.1 ∧ q.1 < 0) ∧
    (∀ q ∈ P2, 0 < q.1 ∧ q.1 < 180) ∧
    n0.1 - (lastD P1 p1).1 < -180 ∧
    180 < (P2.headD p1).1 - (lastD N n0).1

/-- A geodetic ring crossing the antimeridian exactly once, presented
starting on the negative side. -/
def negRunForm (r : List Point) : Prop :=
  ∃ n1 N1 p0 P N2, r = (n1 :: N1) ++ (p0 :: P) ++ N2 ++ [n1] ∧
    (∀ q ∈ n1 :: N1, -180 < q.1 ∧ q.1 < 0) ∧
    (∀ q ∈ p0 :: P, 0 < q.1 ∧ q.1 < 180) ∧
    (∀ q ∈ N2, -180 < q.1 ∧ q.1 < 0) ∧
    180 < p0.1 - (lastD N1 n1).1 ∧
    (N2.headD n1).1 - (lastD P p0).1 < -180

/-- A ring containing an eastward-to-westward crossing edge is detected
as crossing. -/
theorem run_isCrossing_dn (p1 n0 : Point) (P1 rest : List Point)
    (hc1 : n0.1 - (lastD P1 p1).1 < -180) :
    isCrossing ((p1 :: P1) ++ n0 :: rest) = true := by
  cases hval : adjSat lonOk ((p1 :: P1) ++ n0 :: rest) with
  | false =>
    unfold isCrossing
    rw [hval]
    rfl
  | true =>
    exfalso
    obtain ⟨l', hl'⟩ := exists_dropLast_lastD (p1 :: P1) p1 (by simp)
    have hl2 : p1 :: P1 = l' ++ [lastD P1 p1] := hl'
    have hr : (p1 :: P1) ++ n0 :: rest = l' ++ (lastD P1 p1 :: n0 :: rest) := by
      conv_lhs => rw [hl2]
      simp [List.append_assoc]
    rw [hr] at hval
    have hext := adjSat_extract lonOk l' (lastD P1 p1) n0 rest hval
    simp only [lonOk, Bool.and_eq_true, decide_eq_true_eq] at hext
    linarith [hext.2]

/-- A ring containing a westward-to-eastward crossing edge is detected
as crossing. -/
theorem run_isCrossing_up (n1 p0 : Point) (N1 rest : List Point)
    (hc1 : 180 < p0.1 - (lastD N1 n1).1) :
    isCrossing ((n1 :: N1) ++ p0 :: rest) = true := by
  cases hval : adjSat lonOk ((n1 :: N1) ++ p0 :: rest) with
  | false =>
    unfold isCrossing
    rw [hval]
    rfl
  | true =>
    exfalso
    obtain ⟨l', hl'⟩ := exists_dropLast_lastD (n1 :: N1) n1 (by simp)
    have hl2 : n1 :: N1 = l' ++ [lastD N1 n1] := hl'
    have hr : (n1 :: N1) ++ p0 :: rest = l' ++ (lastD N1 n1 :: p0 :: rest) := by
      conv_lhs => rw [hl2]
      simp [List.append_assoc]
    rw [hr] at hval
    have hext := adjSat_extract lonOk l' (lastD N1 n1) p0 rest hval
    simp only [lonOk, Bool.and_eq_true, decide_eq_true_eq] at hext
    linarith [hext.1]

/-- A fully within-bounds walk collects every vertex into the open
segment and closes nothing. -/
theorem splitLoop_all_within (xs : List Point) (a : Point) (acc : List Point)
    (segs : List (List Point)) (h : adjSat lonOk (a :: xs) = true) :
    splitLoop a acc xs segs = (acc ++ xs, segs) := by
  have h2 := splitLoop_within xs [] a acc segs h
  rw [show xs ++ ([] : List Point) = xs from by simp] at h2
  rw [h2, splitLoop_nil]

/-- Every vertex of a cut ring `c1 :: M ++ [c2]`, closed, satisfies any
property shared by the two cut points and the chain. -/
theorem mem_cut_ring (c1 c2 : Point) (M : List Point) (P : Point → Prop)
    (h1 : P c1) (h2 : P c2) (hM : ∀ q ∈ M, P q) (q : Point)
    (hq : q ∈ closeRing (c1 :: M ++ [c2])) : P q := by
  have hq2 := mem_closeRing q _ hq
  simp only [List.mem_cons, List.mem_append, List.mem_singleton,
    List.not_mem_nil, or_false] at hq2
  have hq3 : q = c1 ∨ q ∈ M ∨ q = c2 := by tauto
  rcases hq3 with h | h | h
  · rw [h]; exact h1
  · exact hM q h
  · rw [h]; exact h2

/-- Evaluation of the SPLIT action on a positive-run single-crossing
presentation: exactly two rings, the positive-side vertices in cyclic
order between the two meridian cut points and the negative block between
the opposite cut points. -/
theorem splitRing_pos_run (p1 n0 : Point) (P1 N P2 : List Point)
    (hP1 : ∀ q ∈ p1 :: P1, 0 < q.1 ∧ q.1 < 180)
    (hN : ∀ q ∈ n0 :: N, -180 < q.1 ∧ q.1 < 0)
    (hP2 : ∀ q ∈ P2, 0 < q.1 ∧ q.1 < 180)
    (hc1 : n0.1 - (lastD P1 p1).1 < -180)
    (hc2 : 180 < (P2.headD p1).1 - (lastD N n0).1) :
    splitRing ((p1 :: P1) ++ (n0 :: N) ++ P2 ++ [p1]) =
      [closeRing (((180 : ℚ), yUp (lastD N n0) (P2.headD p1)) ::
          (P2 ++ p1 :: P1) ++ [((180 : ℚ), yDn (lastD P1 p1) n0)]),
       closeRing (((-180 : ℚ), yDn (lastD P1 p1) n0) :: n0 ::
          (N ++ [((-180 : ℚ), yUp (lastD N n0) (P2.headD p1))]))] := by
  cases P2 with
  | nil => simpa using splitRing_pos_block p1 n0 P1 N hP1 hN hc1 (by simpa using hc2)
  | cons ph P2' =>
    have hp1 := hP1 p1 (List.mem_cons_self _ _)
    have adjP1 : adjSat lonOk (p1 :: P1) = true :=
      adjSat_lonOk_of_bounded 0 180 (by norm_num) _
        (fun q hq => ⟨le_of_lt (hP1 q hq).1, le_of_lt (hP1 q hq).2⟩)
    have adjN : adjSat lonOk (n0 :: N) = true :=
      adjSat_lonOk_of_bounded (-180) 0 (by norm_num) _
        (fun q hq => ⟨le_of_lt (hN q hq).1, le_of_lt (hN q hq).2⟩)
    have adjP2 : adjSat lonOk (ph :: (P2' ++ [p1])) = true := by
      apply adjSat_lonOk_of_bounded 0 180 (by norm_num)
      intro q hq
      simp only [List.mem_cons, List.mem_append, List.mem_singleton,
        List.not_mem_nil, or_false] at hq
      rcases hq with h | h | h
      · have := hP2 ph (List.mem_cons_self _ _)
        rw [h]
        exact ⟨le_of_lt this.1, le_of_lt this.2⟩
      · have := hP2 q (List.mem_cons_of_mem _ h)
        exact ⟨le_of_lt this.1, le_of_lt this.2⟩
      · rw [h]
        exact ⟨le_of_lt hp1.1, le_of_lt hp1.2⟩
    have hsplit : (p1 :: P1) ++ (n0 :: N) ++ (ph :: P2') ++ [p1] =
        p1 :: (P1 ++ (n0 :: (N ++ (ph :: (P2' ++ [p1]))))) := by simp
    rw [hsplit]
    have hloop : splitLoop p1 [p1] (P1 ++ (n0 :: (N ++ (ph :: (P2' ++ [p1]))))) [] =
        (((180 : ℚ), yUp (lastD N n0) ph) :: ph :: (P2' ++ [p1]),
         [p1 :: (P1 ++ [((180 : ℚ), yDn (lastD P1 p1) n0)]),
          ((-180 : ℚ), yDn (lastD P1 p1) n0) :: n0 ::
            (N ++ [((-180 : ℚ), yUp (lastD N n0) ph)])]) := by
      rw [splitLoop_within P1 (n0 :: (N ++ (ph :: (P2' ++ [p1])))) p1 [p1] [] adjP1]
      rw [splitLoop_cons_dn (lastD P1 p1) n0 ([p1] ++ P1)
        (N ++ (ph :: (P2' ++ [p1]))) [] hc1]
      rw [splitLoop_within N (ph :: (P2' ++ [p1])) n0
        [((-180 : ℚ), yDn (lastD P1 p1) n0), n0] _ adjN]
      rw [splitLoop_cons_up (lastD N n0) ph _ (P2' ++ [p1]) _ hc2]
      rw [splitLoop_all_within (P2' ++ [p1]) ph _ _ adjP2]
      rfl
    show splitRing (p1 :: (P1 ++ (n0 :: (N ++ (ph :: (P2' ++ [p1])))))) = _
    simp only [splitRing, hloop]
    simp [List.append_assoc]

/-- Evaluation of the SPLIT action on a negative-run single-crossing
presentation. -/
theorem splitRing_neg_run (n1 p0 : Point) (N1 P N2 : List Point)
    (hN1 : ∀ q ∈ n1 :: N1, -180 < q.1 ∧ q.1 < 0)
    (hP : ∀ q ∈ p0 :: P, 0 < q.1 ∧ q.1 < 180)
    (hN2 : ∀ q ∈ N2, -180 < q.1 ∧ q.1 < 0)
    (hc1 : 180 < p0.1 - (lastD N1 n1).1)
    (hc2 : (N2.headD n1).1 - (lastD P p0).1 < -180) :
    splitRing ((n1 :: N1) ++ (p0 :: P) ++ N2 ++ [n1]) =
      [closeRing (((-180 : ℚ), yDn (lastD P p0) (N2.headD n1)) ::
          (N2 ++ n1 :: N1) ++ [((-180 : ℚ), yUp (lastD N1 n1) p0)]),
       closeRing (((180 : ℚ), yUp (lastD N1 n1) p0) :: p0 ::
          (P ++ [((180 : ℚ), yDn (lastD P p0) (N2.headD n1))]))] := by
  cases N2 with
  | nil => simpa using splitRing_neg_block n1 p0 N1 P hN1 hP hc1 (by simpa using hc2)
  | cons nh N2' =>
    have hn1 := hN1 n1 (List.mem_cons_self _ _)
    have adjN1 : adjSat lonOk (n1 :: N1) = true :=
      adjSat_lonOk_of_bounded (-180) 0 (by norm_num) _
        (fun q hq => ⟨le_of_lt (hN1 q hq).1, le_of_lt (hN1 q hq).2⟩)
    have adjP : adjSat lonOk (p0 :: P) = true :=
      adjSat_lonOk_of_bounded 0 180 (by norm_num) _
        (fun q hq => ⟨le_of_lt (hP q hq).1, le_of_lt (hP q hq).2⟩)
    have adjN2 : adjSat lonOk (nh :: (N2' ++ [n1])) = true := by
      apply adjSat_lonOk_of_bounded (-180) 0 (by norm_num)
      intro q hq
      simp only [List.mem_cons, List.mem_append, List.mem_singleton,
        List.not_mem_nil, or_false] at hq
      rcases hq with h | h | h
      · have := hN2 nh (List.mem_cons_self _ _)
        rw [h]
        exact ⟨le_of_lt this.1, le_of_lt this.2⟩
      · have := hN2 q (List.mem_cons_of_mem _ h)
        exact ⟨le_of_lt this.1, le_of_lt this.2⟩
      · rw [h]
        exact ⟨le_of_lt hn1.1, le_of_lt hn1.2⟩
    have hsplit : (n1 :: N1) ++ (p0 :: P) ++ (nh :: N2') ++ [n1] =
        n1 :: (N1 ++ (p0 :: (P ++ (nh :: (N2' ++ [n1]))))) := by simp
    rw [hsplit]
    have hloop : splitLoop n1 [n1] (N1 ++ (p0 :: (P ++ (nh :: (N2' ++ [n1]))))) [] =
        (((-180 : ℚ), yDn (lastD P p0) nh) :: nh :: (N2' ++ [n1]),
         [n1 :: (N1 ++ [((-180 : ℚ), yUp (lastD N1 n1) p0)]),
          ((180 : ℚ), yUp (lastD N1 n1) p0) :: p0 ::
            (P ++ [((180 : ℚ), yDn (lastD P p0) nh)])]) := by
      rw [splitLoop_within N1 (p0 :: (P ++ (nh :: (N2' ++ [n1])))) n1 [n1] [] adjN1]
      rw [splitLoop_cons_up (lastD N1 n1) p0 ([n1] ++ N1)
        (P ++ (nh :: (N2' ++ [n1]))) [] hc1]
      rw [splitLoop_within P (nh :: (N2' ++ [n1])) p0
        [((180 : ℚ), yUp (lastD N1 n1) p0), p0] _ adjP]
      rw [splitLoop_cons_dn (lastD P p0) nh _ (N2' ++ [n1]) _ hc2]
      rw [splitLoop_all_within (N2' ++ [n1]) nh _ _ adjN2]
      rfl
    show splitRing (n1 :: (N1 ++ (p0 :: (P ++ (nh :: (N2' ++ [n1])))))) = _
    simp only [splitRing, hloop]
    simp [List.append_assoc]

/-- Shifting east then west by a full revolution is the identity. -/
theorem map_shiftLon_cancel (c : ℚ) (l : List Point) :
    (l.map (shiftLon c)).map (shiftLon (-c)) = l := by
  rw [List.map_map]
  have h : (shiftLon (-c) ∘ shiftLon c) = id := by
    funext q
    show (q.1 + c + -c, q.2) = q
    rw [show q.1 + c + -c = q.1 by ring]
  rw [h, List.map_id]

/-- Normalization of a positive-run single-crossing presentation shifts
exactly the negative block east by 360 degrees. -/
theorem normalizeRing_pos_run (p1 n0 : Point) (P1 N P2 : List Point)
    (hP1 : ∀ q ∈ p1 :: P1, 0 < q.1 ∧ q.1 < 180)
    (hN : ∀ q ∈ n0 :: N, -180 < q.1 ∧ q.1 < 0)
    (hP2 : ∀ q ∈ P2, 0 < q.1 ∧ q.1 < 180)
    (hc1 : n0.1 - (lastD P1 p1).1 < -180)
    (hc2 : 180 < (P2.headD p1).1 - (lastD N n0).1) :
    normalizeRing ((p1 :: P1) ++ (n0 :: N) ++ P2 ++ [p1]) =
      (p1 :: P1) ++ ((n0 :: N).map (shiftLon 360)) ++ P2 ++ [p1] := by
  cases P2 with
  | nil => simpa using normalizeRing_pos_block p1 n0 P1 N hP1 hN hc1 (by simpa using hc2)
  | cons ph P2' =>
    have hp1 := hP1 p1 (List.mem_cons_self _ _)
    have hn0 := hN n0 (List.mem_cons_self _ _)
    have hph : 0 < ph.1 ∧ ph.1 < 180 := hP2 ph (List.mem_cons_self _ _)
    have haP : 0 < (lastD P1 p1).1 ∧ (lastD P1 p1).1 < 180 := by
      rcases lastD_mem P1 p1 with h | h
      · rw [h]; exact hp1
      · exact hP1 _ (List.mem_cons_of_mem _ h)
    have haN : -180 < (lastD N n0).1 ∧ (lastD N n0).1 < 0 := by
      rcases lastD_mem N n0 with h | h
      · rw [h]; exact hn0
      · exact hN _ (List.mem_cons_of_mem _ h)
    have hP1id : unwrapFrom p1.1 P1 = P1 :=
      unwrapFrom_id_of_bounded 0 P1 p1.1
        (fun q hq => by have := hP1 q (List.mem_cons_of_mem _ hq); simpa using this)
        hp1.1 (by simpa using hp1.2)
    have hNid : unwrapFrom n0.1 N = N :=
      unwrapFrom_id_of_bounded (-180) N n0.1
        (fun q hq => by
          have := hN q (List.mem_cons_of_mem _ hq)
          exact ⟨this.1, by linarith [this.2]⟩)
        hn0.1 (by linarith [hn0.2])
    have hn0up : unwrapLon (lastD P1 p1).1 n0.1 = n0.1 + 360 :=
      unwrapLon_up _ _ (by linarith [haP.2, hn0.1]) (by linarith [hc1])
    have hc2' : 180 < ph.1 - (lastD N n0).1 := hc2
    have hphid : unwrapLon ((lastD N n0).1 + 360) ph.1 = ph.1 :=
      unwrapLon_id _ _ (by linarith [hc2']) (by linarith [hph.2, haN.1])
    have hP2id : unwrapFrom ph.1 (P2' ++ [p1]) = P2' ++ [p1] :=
      unwrapFrom_id_of_bounded 0 (P2' ++ [p1]) ph.1
        (fun q hq => by
          rcases List.mem_append.mp hq with h | h
          · have := hP2 q (List.mem_cons_of_mem _ h)
            simpa using this
          · simp only [List.mem_singleton] at h
            rw [h]
            simpa using hp1)
        hph.1 (by simpa using hph.2)
    have hsplit : (p1 :: P1) ++ (n0 :: N) ++ (ph :: P2') ++ [p1] =
        p1 :: (P1 ++ (n0 :: (N ++ (ph :: (P2' ++ [p1]))))) := by simp
    rw [hsplit]
    show p1 :: unwrapFrom p1.1 (P1 ++ (n0 :: (N ++ (ph :: (P2' ++ [p1]))))) = _
    rw [unwrapFrom_append P1 (n0 :: (N ++ (ph :: (P2' ++ [p1])))) p1.1, hP1id]
    rw [lastD_fst_congr P1 ((p1.1, 0) : Point) p1 rfl]
    show p1 :: (P1 ++ ((unwrapLon (lastD P1 p1).1 n0.1, n0.2) ::
        unwrapFrom (unwrapLon (lastD P1 p1).1 n0.1) (N ++ (ph :: (P2' ++ [p1]))))) = _
    rw [hn0up]
    rw [unwrapFrom_append N (ph :: (P2' ++ [p1])) (n0.1 + 360)]
    rw [unwrapFrom_shift N n0.1, hNid]
    have hlast2 : (lastD (N.map (shiftLon 360)) ((n0.1 + 360, 0) : Point)).1 =
        (lastD N n0).1 + 360 := by
      cases N with
      | nil => rfl
      | cons y t =>
        rw [lastD_map (shiftLon 360) (y :: t) ((n0.1 + 360, 0) : Point) n0 (by simp)]
        rfl
    rw [hlast2]
    have htail : unwrapFrom ((lastD N n0).1 + 360) (ph :: (P2' ++ [p1])) =
        ph :: (P2' ++ [p1]) := by
      show (unwrapLon ((lastD N n0).1 + 360) ph.1, ph.2) ::
          unwrapFrom (unwrapLon ((lastD N n0).1 + 360) ph.1) (P2' ++ [p1]) = _
      rw [hphid, hP2id]
    rw [htail]
    show p1 :: (P1 ++ ((n0.1 + 360, n0.2) ::
        (N.map (shiftLon 360) ++ (ph :: (P2' ++ [p1]))))) =
      (p1 :: P1) ++ (shiftLon 360 n0 :: N.map (shiftLon 360)) ++ (ph :: P2') ++ [p1]
    simp [shiftLon, List.append_assoc]

/-- Normalization of a negative-run single-crossing presentation shifts
exactly the positive block west by 360 degrees. -/
theorem normalizeRing_neg_run (n1 p0 : Point) (N1 P N2 : List Point)
    (hN1 : ∀ q ∈ n1 :: N1, -180 < q.1 ∧ q.1 < 0)
    (hP : ∀ q ∈ p0 :: P, 0 < q.1 ∧ q.1 < 180)
    (hN2 : ∀ q ∈ N2, -180 < q.1 ∧ q.1 < 0)
    (hc1 : 180 < p0.1 - (lastD N1 n1).1)
    (hc2 : (N2.headD n1).1 - (lastD P p0).1 < -180) :
    normalizeRing ((n1 :: N1) ++ (p0 :: P) ++ N2 ++ [n1]) =
      (n1 :: N1) ++ ((p0 :: P).map (shiftLon (-360))) ++ N2 ++ [n1] := by
  cases N2 with
  | nil => simpa using normalizeRing_neg_block n1 p0 N1 P hN1 hP hc1 (by simpa using hc2)
  | cons nh N2' =>
    have hn1 := hN1 n1 (List.mem_cons_self _ _)
    have hp0 := hP p0 (List.mem_cons_self _ _)
    have hnh : -180 < nh.1 ∧ nh.1 < 0 := hN2 nh (List.mem_cons_self _ _)
    have haN : -180 < (lastD N1 n1).1 ∧ (lastD N1 n1).1 < 0 := by
      rcases lastD_mem N1 n1 with h | h
      · rw [h]; exact hn1
      · exact hN1 _ (List.mem_cons_of_mem _ h)
    have haP : 0 < (lastD P p0).1 ∧ (lastD P p0).1 < 180 := by
      rcases lastD_mem P p0 with h | h
      · rw [h]; exact hp0
      · exact hP _ (List.mem_cons_of_mem _ h)
    have hN1id : unwrapFrom n1.1 N1 = N1 :=
      unwrapFrom_id_of_bounded (-180) N1 n1.1
        (fun q hq => by
          have := hN1 q (List.mem_cons_of_mem _ hq)
          exact ⟨this.1, by linarith [this.2]⟩)
        hn1.1 (by linarith [hn1.2])
    have hPid : unwrapFrom p0.1 P = P :=
      unwrapFrom_id_of_bounded 0 P p0.1
        (fun q hq => by have := hP q (List.mem_cons_of_mem _ hq); simpa using this)
        hp0.1 (by simpa using hp0.2)
    have hp0dn : unwrapLon (lastD N1 n1).1 p0.1 = p0.1 - 360 :=
      unwrapLon_dn _ _ (by linarith [hc1]) (by linarith [hp0.2, haN.1])
    have hc2' : nh.1 - (lastD P p0).1 < -180 := hc2
    have hnhup : unwrapLon (lastD P p0).1 nh.1 = nh.1 + 360 :=
      unwrapLon_up _ _ (by linarith [haP.2, hnh.1]) (by linarith [hc2'])
    have hN2id : unwrapFrom nh.1 (N2' ++ [n1]) = N2' ++ [n1] :=
      unwrapFrom_id_of_bounded (-180) (N2' ++ [n1]) nh.1
        (fun q hq => by
          rcases List.mem_append.mp hq with h | h
          · have := hN2 q (List.mem_cons_of_mem _ h)
            exact ⟨this.1, by linarith [this.2]⟩
          · simp only [List.mem_singleton] at h
            rw [h]
            exact ⟨hn1.1, by linarith [hn1.2]⟩)
        hnh.1 (by linarith [hnh.2])
    have hsplit : (n1 :: N1) ++ (p0 :: P) ++ (nh :: N2') ++ [n1] =
        n1 :: (N1 ++ (p0 :: (P ++ (nh :: (N2' ++ [n1]))))) := by simp
    rw [hsplit]
    show n1 :: unwrapFrom n1.1 (N1 ++ (p0 :: (P ++ (nh :: (N2' ++ [n1]))))) = _
    rw [unwrapFrom_append N1 (p0 :: (P ++ (nh :: (N2' ++ [n1])))) n1.1, hN1id]
    rw [lastD_fst_congr N1 ((n1.1, 0) : Point) n1 rfl]
    show n1 :: (N1 ++ ((unwrapLon (lastD N1 n1).1 p0.1, p0.2) ::
        unwrapFrom (unwrapLon (lastD N1 n1).1 p0.1) (P ++ (nh :: (N2' ++ [n1]))))) = _
    rw [hp0dn]
    rw [unwrapFrom_shift_dn (P ++ (nh :: (N2' ++ [n1]))) p0.1]
    rw [unwrapFrom_append P (nh :: (N2' ++ [n1])) p0.1, hPid]
    rw [lastD_fst_congr P ((p0.1, 0) : Point) p0 rfl]
    show n1 :: (N1 ++ ((p0.1 - 360, p0.2) ::
        (P ++ ((unwrapLon (lastD P p0).1 nh.1, nh.2) ::
          unwrapFrom (unwrapLon (lastD P p0).1 nh.1) (N2' ++ [n1]))).map
            (shiftLon (-360)))) = _
    rw [hnhup]
    rw [unwrapFrom_shift (N2' ++ [n1]) nh.1, hN2id]
    rw [List.map_append]
    show n1 :: (N1 ++ ((p0.1 - 360, p0.2) :: (P.map (shiftLon (-360)) ++
        (shiftLon (-360) ((nh.1 + 360, nh.2) : Point) ::
          ((N2' ++ [n1]).map (shiftLon 360)).map (shiftLon (-360)))))) = _
    rw [map_shiftLon_cancel 360 (N2' ++ [n1])]
    have hnhback : shiftLon (-360) ((nh.1 + 360, nh.2) : Point) = nh := by
      show ((nh.1 + 360 + -360, nh.2) : Point) = nh
      rw [show nh.1 + 360 + -360 = nh.1 by ring]
    rw [hnhback]
    show n1 :: (N1 ++ ((p0.1 - 360, p0.2) ::
        (P.map (shiftLon (-360)) ++ (nh :: (N2' ++ [n1]))))) =
      (n1 :: N1) ++ (shiftLon (-360) p0 :: P.map (shiftLon (-360))) ++ (nh :: N2') ++ [n1]
    have hp0back : shiftLon (-360) p0 = ((p0.1 - 360, p0.2) : Point) := by
      show ((p0.1 + -360, p0.2) : Point) = (p0.1 - 360, p0.2)
      rw [show p0.1 + -360 = p0.1 - 360 by ring]
    rw [hp0back]
    simp [List.append_assoc]

/-- Shoelace sum of a closed cut ring whose chain is two runs. -/
theorem crossSum_closeRing_cutTwo (c1 c2 x p : Point) (X Q : List Point) :
    crossSum (closeRing (c1 :: ((x :: X) ++ p :: Q) ++ [c2])) =
      cross c1 x + crossSum (x :: X) + cross (lastD X x) p + crossSum (p :: Q) +
        cross (lastD Q p) c2 + cross c2 c1 := by
  show crossSum (closeRing (c1 :: x :: ((X ++ p :: Q) ++ [c2]))) = _
  rw [show (X ++ p :: Q) ++ [c2] = X ++ ((p :: Q) ++ [c2]) from by
    simp [List.append_assoc]]
  rw [show c1 :: x :: (X ++ ((p :: Q) ++ [c2])) =
      c1 :: x :: ((X ++ (p :: (Q ++ [c2])))) from by simp]
  rw [show closeRing (c1 :: x :: (X ++ (p :: (Q ++ [c2])))) =
      (c1 :: x :: (X ++ (p :: (Q ++ [c2])))) ++ [c1] from rfl]
  rw [crossSum_concat]
  rw [show lastD (c1 :: x :: (X ++ p :: (Q ++ [c2]))) c1 =
      c2 from by
    show lastD (X ++ p :: (Q ++ [c2])) x = c2
    rw [lastD_append_right X (p :: (Q ++ [c2])) x (by simp)]
    show lastD (Q ++ [c2]) p = c2
    exact lastD_concat Q c2 p]
  rw [show crossSum (c1 :: x :: (X ++ p :: (Q ++ [c2]))) =
      cross c1 x + crossSum (x :: (X ++ p :: (Q ++ [c2]))) from rfl]
  rw [show crossSum (x :: (X ++ p :: (Q ++ [c2]))) =
      crossSum ((x :: X) ++ (p :: (Q ++ [c2]))) from rfl]
  rw [crossSum_append (x :: X) (p :: (Q ++ [c2])) p (by simp) (by simp)]
  rw [show lastD (x :: X) p = lastD X x from rfl]
  rw [show (p :: (Q ++ [c2])).headD p = p from rfl]
  rw [show crossSum (p :: (Q ++ [c2])) = crossSum ((p :: Q) ++ [c2]) from rfl]
  rw [crossSum_concat (p :: Q) c2]
  rw [show lastD (p :: Q) c2 = lastD Q p from rfl]
  ring

/-- Shoelace sum of a normalized single-crossing ring with a trailing
run, decomposed into its runs and junction terms. -/
theorem crossSum_norm_cut (c : ℚ) (p1 x n0 : Point) (P1 N Q : List Point) :
    crossSum ((p1 :: P1) ++ ((n0 :: N).map (shiftLon c)) ++ (x :: Q) ++ [p1]) =
      crossSum (p1 :: P1) + cross (lastD P1 p1) (shiftLon c n0) +
        (crossSum (n0 :: N) + c * ((lastD N n0).2 - n0.2)) +
        cross (shiftLon c (lastD N n0)) x + crossSum (x :: Q) +
        cross (lastD Q x) p1 := by
  rw [crossSum_concat ((p1 :: P1) ++ ((n0 :: N).map (shiftLon c)) ++ (x :: Q)) p1]
  rw [show lastD ((p1 :: P1) ++ ((n0 :: N).map (shiftLon c)) ++ (x :: Q)) p1 =
      lastD Q x from by
    rw [lastD_append_right _ (x :: Q) p1 (by simp)]
    rfl]
  rw [crossSum_append ((p1 :: P1) ++ ((n0 :: N).map (shiftLon c))) (x :: Q) x
    (by simp) (by simp)]
  rw [show lastD ((p1 :: P1) ++ ((n0 :: N).map (shiftLon c))) x =
      shiftLon c (lastD N n0) from by
    rw [lastD_append_right (p1 :: P1) _ x (by simp)]
    rw [lastD_map (shiftLon c) (n0 :: N) x n0 (by simp)]
    rfl]
  rw [show ((x :: Q).headD x) = x from rfl]
  rw [crossSum_append (p1 :: P1) ((n0 :: N).map (shiftLon c)) n0
    (by simp) (by simp)]
  rw [show lastD (p1 :: P1) n0 = lastD P1 p1 from rfl]
  rw [show (((n0 :: N).map (shiftLon c)).headD n0) = shiftLon c n0 from rfl]
  rw [crossSum_map_shiftLon c (n0 :: N) n0]
  rw [show lastD (n0 :: N) n0 = lastD N n0 from rfl]
  rw [show ((n0 :: N).headD n0) = n0 from rfl]

/-- The two rings produced by splitting a positive-run single-crossing
presentation carry exactly the shoelace sum of the normalized ring. -/
theorem crossSum_split_pos_run (p1 n0 : Point) (P1 N P2 : List Point)
    (hP1 : ∀ q ∈ p1 :: P1, 0 < q.1 ∧ q.1 < 180)
    (hN : ∀ q ∈ n0 :: N, -180 < q.1 ∧ q.1 < 0)
    (hP2 : ∀ q ∈ P2, 0 < q.1 ∧ q.1 < 180) :
    crossSum (closeRing (((180 : ℚ), yUp (lastD N n0) (P2.headD p1)) ::
        (P2 ++ p1 :: P1) ++ [((180 : ℚ), yDn (lastD P1 p1) n0)])) +
      crossSum (closeRing (((-180 : ℚ), yDn (lastD P1 p1) n0) :: n0 ::
        (N ++ [((-180 : ℚ), yUp (lastD N n0) (P2.headD p1))]))) =
      crossSum ((p1 :: P1) ++ ((n0 :: N).map (shiftLon 360)) ++ P2 ++ [p1]) := by
  cases P2 with
  | nil => simpa using crossSum_split_pos p1 n0 P1 N hP1 hN
  | cons ph P2' =>
    have hp1 := hP1 p1 (List.mem_cons_self _ _)
    have hn0 := hN n0 (List.mem_cons_self _ _)
    have hph : 0 < ph.1 ∧ ph.1 < 180 := hP2 ph (List.mem_cons_self _ _)
    have haP : 0 < (lastD P1 p1).1 ∧ (lastD P1 p1).1 < 180 := by
      rcases lastD_mem P1 p1 with h | h
      · rw [h]; exact hp1
      · exact hP1 _ (List.mem_cons_of_mem _ h)
    have haN : -180 < (lastD N n0).1 ∧ (lastD N n0).1 < 0 := by
      rcases lastD_mem N n0 with h | h
      · rw [h]; exact hn0
      · exact hN _ (List.mem_cons_of_mem _ h)
    have hd1 : n0.1 + 360 - (lastD P1 p1).1 ≠ 0 :=
      ne_of_gt (by linarith [hn0.1, haP.2])
    have hd2 : ph.1 - 360 - (lastD N n0).1 ≠ 0 :=
      ne_of_lt (by linarith [hph.2, haN.1])
    rw [crossSum_closeRing_cutTwo ((180 : ℚ), yUp (lastD N n0) ((ph :: P2').headD p1))
      ((180 : ℚ), yDn (lastD P1 p1) n0) ph p1 P2' P1]
    rw [crossSum_closeRing_two ((-180 : ℚ), yDn (lastD P1 p1) n0) n0
      ((-180 : ℚ), yUp (lastD N n0) ((ph :: P2').headD p1)) N]
    rw [crossSum_norm_cut 360 p1 ph n0 P1 N P2']
    rw [show (ph :: P2').headD p1 = ph from rfl]
    simp only [cross, shiftLon, yDn, yUp]
    field_simp
    ring

/-- The two rings produced by splitting a negative-run single-crossing
presentation carry exactly the shoelace sum of the normalized ring. -/
theorem crossSum_split_neg_run (n1 p0 : Point) (N1 P N2 : List Point)
    (hN1 : ∀ q ∈ n1 :: N1, -180 < q.1 ∧ q.1 < 0)
    (hP : ∀ q ∈ p0 :: P, 0 < q.1 ∧ q.1 < 180)
    (hN2 : ∀ q ∈ N2, -180 < q.1 ∧ q.1 < 0) :
    crossSum (closeRing (((-180 : ℚ), yDn (lastD P p0) (N2.headD n1)) ::
        (N2 ++ n1 :: N1) ++ [((-180 : ℚ), yUp (lastD N1 n1) p0)])) +
      crossSum (closeRing (((180 : ℚ), yUp (lastD N1 n1) p0) :: p0 ::
        (P ++ [((180 : ℚ), yDn (lastD P p0) (N2.headD n1))]))) =
      crossSum ((n1 :: N1) ++ ((p0 :: P).map (shiftLon (-360))) ++ N2 ++ [n1]) := by
  cases N2 with
  | nil => simpa using crossSum_split_neg n1 p0 N1 P hN1 hP
  | cons nh N2' =>
    have hn1 := hN1 n1 (List.mem_cons_self _ _)
    have hp0 := hP p0 (List.mem_cons_self _ _)
    have hnh : -180 < nh.1 ∧ nh.1 < 0 := hN2 nh (List.mem_cons_self _ _)
    have haN : -180 < (lastD N1 n1).1 ∧ (lastD N1 n1).1 < 0 := by
      rcases lastD_mem N1 n1 with h | h
      · rw [h]; exact hn1
      · exact hN1 _ (List.mem_cons_of_mem _ h)
    have haP : 0 < (lastD P p0).1 ∧ (lastD P p0).1 < 180 := by
      rcases lastD_mem P p0 with h | h
      · rw [h]; exact hp0
      · exact hP _ (List.mem_cons_of_mem _ h)
    have hd1 : nh.1 + 360 - (lastD P p0).1 ≠ 0 :=
      ne_of_gt (by linarith [hnh.1, haP.2])
    have hd2 : p0.1 - 360 - (lastD N1 n1).1 ≠ 0 :=
      ne_of_lt (by linarith [hp0.2, haN.1])
    rw [crossSum_closeRing_cutTwo ((-180 : ℚ), yDn (lastD P p0) ((nh :: N2').headD n1))
      ((-180 : ℚ), yUp (lastD N1 n1) p0) nh n1 N2' N1]
    rw [crossSum_closeRing_two ((180 : ℚ), yUp (lastD N1 n1) p0) p0
      ((180 : ℚ), yDn (lastD P p0) ((nh :: N2').headD n1)) P]
    rw [crossSum_norm_cut (-360) n1 nh p0 N1 P N2']
    rw [show (nh :: N2').headD n1 = nh from rfl]
    simp only [cross, shiftLon, yDn, yUp]
    field_simp
    ring

/-! ### Simplicity of the split parts

The split parts' edges are, apart from the meridian cut segment, exactly
the edges of the input ring presented with its two crossing points as
vertices.  The lemmas below transport `noSelfIntersect` from that cut
presentation to both parts. -/

theorem ringEdges_cons_cons (a b : Point) (l : List Point) :
    ringEdges (a :: b :: l) = (a, b) :: ringEdges (b :: l) := rfl

theorem ringEdges_cons_append (a : Point) (l m : List Point) :
    ringEdges ((a :: l) ++ m) = ringEdges (a :: l) ++ ringEdges (lastD l a :: m) := by
  induction l generalizing a with
  | nil => rfl
  | cons x l' ih =>
    show ringEdges (a :: x :: (l' ++ m)) =
      ((a, x) :: ringEdges (x :: l')) ++ ringEdges (lastD l' x :: m)
    rw [ringEdges_cons_cons a x (l' ++ m)]
    rw [show ringEdges (x :: (l' ++ m)) = ringEdges ((x :: l') ++ m) from rfl]
    rw [ih x]
    rfl

theorem mem_ringEdges (e : Point × Point) :
    ∀ l : List Point, e ∈ ringEdges l → e.1 ∈ l ∧ e.2 ∈ l := by
  intro l
  induction l with
  | nil => intro h; simp [ringEdges] at h
  | cons a t ih =>
    intro h
    cases t with
    | nil => simp [ringEdges] at h
    | cons b t' =>
      rw [ringEdges_cons_cons] at h
      rcases List.mem_cons.mp h with h1 | h1
      · rw [h1]
        exact ⟨List.mem_cons_self _ _, List.mem_cons_of_mem _ (List.mem_cons_self _ _)⟩
      · have h2 := ih h1
        exact ⟨List.mem_cons_of_mem _ h2.1, List.mem_cons_of_mem _ h2.2⟩

/-- Propositional characterisation of the on-segment test. -/
theorem onSegB_iff (p q r : Point) :
    onSegB p q r = true ↔
      orient2 p q r = 0 ∧ min p.1 q.1 ≤ r.1 ∧ r.1 ≤ max p.1 q.1 ∧
        min p.2 q.2 ≤ r.2 ∧ r.2 ≤ max p.2 q.2 := by
  simp [onSegB, and_assoc]

/-- Propositional characterisation of the segment-intersection test. -/
theorem segsIntersect_iff (a b c d : Point) :
    segsIntersect a b c d = true ↔
      (orient2 a b c * orient2 a b d < 0 ∧ orient2 c d a * orient2 c d b < 0) ∨
        onSegB a b c = true ∨ onSegB a b d = true ∨
        onSegB c d a = true ∨ onSegB c d b = true := by
  simp [segsIntersect, and_assoc, or_assoc]

theorem orient2_shiftLon (c : ℚ) (p q r : Point) :
    orient2 (shiftLon c p) (shiftLon c q) (shiftLon c r) = orient2 p q r := by
  simp only [orient2, shiftLon]
  ring

theorem onSegB_shiftLon (c : ℚ) (p q r : Point) :
    onSegB (shiftLon c p) (shiftLon c q) (shiftLon c r) = onSegB p q r := by
  rw [Bool.eq_iff_iff, onSegB_iff, onSegB_iff, orient2_shiftLon]
  show orient2 p q r = 0 ∧ min (p.1 + c) (q.1 + c) ≤ r.1 + c ∧
      r.1 + c ≤ max (p.1 + c) (q.1 + c) ∧ min p.2 q.2 ≤ r.2 ∧ r.2 ≤ max p.2 q.2 ↔ _
  rw [min_add_add_right, max_add_add_right]
  constructor
  · rintro ⟨h1, h2, h3, h4, h5⟩
    exact ⟨h1, by linarith, by linarith, h4, h5⟩
  · rintro ⟨h1, h2, h3, h4, h5⟩
    exact ⟨h1, by linarith, by linarith, h4, h5⟩

theorem segsIntersect_shiftLon (c : ℚ) (a b d e : Point) :
    segsIntersect (shiftLon c a) (shiftLon c b) (shiftLon c d) (shiftLon c e) =
      segsIntersect a b d e := by
  rw [Bool.eq_iff_iff, segsIntersect_iff, segsIntersect_iff]
  simp only [orient2_shiftLon, onSegB_shiftLon]

/-- Shift every vertex of an edge east by `c` degrees of longitude. -/
def shiftEdge (c : ℚ) (e : Point × Point) : Point × Point :=
  (shiftLon c e.1, shiftLon c e.2)

theorem ringEdges_map_shift (c : ℚ) (l : List Point) :
    ringEdges (l.map (shiftLon c)) = (ringEdges l).map (shiftEdge c) := by
  unfold ringEdges
  rw [show (l.map (shiftLon c)).tail = l.tail.map (shiftLon c) from by
    cases l <;> rfl]
  rw [List.zip_map]
  rfl

theorem map_drop_one {α β : Type} (f : α → β) (l : List α) :
    (l.map f).drop 1 = (l.drop 1).map f := by
  cases l <;> rfl

theorem all_map_pointwise {α β : Type} (f : α → β) (p : β → Bool) (q : α → Bool)
    (h : ∀ x, p (f x) = q x) : ∀ l : List α, (l.map f).all p = l.all q := by
  intro l
  induction l with
  | nil => rfl
  | cons x t ih => simp only [List.map_cons, List.all_cons, h, ih]

theorem nonAdjOk_map_shift (c : ℚ) :
    ∀ E : List (Point × Point), nonAdjOk (E.map (shiftEdge c)) = nonAdjOk E := by
  intro E
  induction E with
  | nil => rfl
  | cons e t ih =>
    show ((((t.map (shiftEdge c)).drop 1).all
        (fun e2 => ! segsIntersect (shiftEdge c e).1 (shiftEdge c e).2 e2.1 e2.2)) &&
        nonAdjOk (t.map (shiftEdge c))) =
      (((t.drop 1).all (fun e2 => ! segsIntersect e.1 e.2 e2.1 e2.2)) && nonAdjOk t)
    rw [ih, map_drop_one]
    rw [all_map_pointwise (shiftEdge c)
      (fun e2 => ! segsIntersect (shiftEdge c e).1 (shiftEdge c e).2 e2.1 e2.2)
      (fun e2 => ! segsIntersect e.1 e.2 e2.1 e2.2)
      (fun x => by
        show (! segsIntersect (shiftLon c e.1) (shiftLon c e.2)
          (shiftLon c x.1) (shiftLon c x.2)) = _
        rw [segsIntersect_shiftLon])
      (t.drop 1)]

/-- Unfolding of `noSelfIntersect` along a computed edge list. -/
theorem noSelfIntersect_eq (r : List Point) (e : Point × Point)
    (t : List (Point × Point)) (h : ringEdges r = e :: t) :
    noSelfIntersect r =
      ((((t.drop 1).dropLast).all
        (fun e2 => ! segsIntersect e.1 e.2 e2.1 e2.2)) && nonAdjOk t) := by
  unfold noSelfIntersect
  rw [h]

theorem noSelfIntersect_empty_edges (r : List Point) (h : ringEdges r = []) :
    noSelfIntersect r = true := by
  unfold noSelfIntersect
  rw [h]

theorem noSelfIntersect_shiftLon (c : ℚ) (r : List Point) :
    noSelfIntersect (r.map (shiftLon c)) = noSelfIntersect r := by
  cases hre : ringEdges r with
  | nil =>
    rw [noSelfIntersect_empty_edges r hre,
      noSelfIntersect_empty_edges (r.map (shiftLon c))
        (by rw [ringEdges_map_shift, hre]; rfl)]
  | cons e t =>
    rw [noSelfIntersect_eq r e t hre,
      noSelfIntersect_eq (r.map (shiftLon c)) (shiftEdge c e) (t.map (shiftEdge c))
        (by rw [ringEdges_map_shift, hre]; rfl)]
    rw [nonAdjOk_map_shift]
    rw [map_drop_one, (List.map_dropLast (shiftEdge c) (t.drop 1)).symm]
    rw [all_map_pointwise (shiftEdge c)
      (fun e2 => ! segsIntersect (shiftEdge c e).1 (shiftEdge c e).2 e2.1 e2.2)
      (fun e2 => ! segsIntersect e.1 e.2 e2.1 e2.2)
      (fun x => by
        show (! segsIntersect (shiftLon c e.1) (shiftLon c e.2)
          (shiftLon c x.1) (shiftLon c x.2)) = _
        rw [segsIntersect_shiftLon])
      ((t.drop 1).dropLast)]

theorem nonAdjOk_append_left (Y : List (Point × Point)) :
    ∀ X : List (Point × Point), nonAdjOk (X ++ Y) = true → nonAdjOk X = true := by
  intro X
  induction X with
  | nil => intro _; rfl
  | cons e t ih =>
    intro h
    show (((t.drop 1).all (fun e2 => ! segsIntersect e.1 e.2 e2.1 e2.2)) &&
      nonAdjOk t) = true
    have h2 : ((((t ++ Y).drop 1).all
        (fun e2 => ! segsIntersect e.1 e.2 e2.1 e2.2)) && nonAdjOk (t ++ Y)) = true := h
    rw [Bool.and_eq_true] at h2 ⊢
    refine ⟨?_, ih h2.2⟩
    cases t with
    | nil => rfl
    | cons e2 t' =>
      have h3 := h2.1
      rw [show ((e2 :: t') ++ Y).drop 1 = t' ++ Y from rfl] at h3
      rw [List.all_append, Bool.and_eq_true] at h3
      exact h3.1

theorem nonAdjOk_suffix (Y : List (Point × Point)) :
    ∀ X : List (Point × Point), nonAdjOk (X ++ Y) = true → nonAdjOk Y = true := by
  intro X
  induction X with
  | nil => intro h; exact h
  | cons e t ih =>
    intro h
    have h2 : ((((t ++ Y).drop 1).all
        (fun e2 => ! segsIntersect e.1 e.2 e2.1 e2.2)) && nonAdjOk (t ++ Y)) = true := h
    rw [Bool.and_eq_true] at h2
    exact ih h2.2

theorem nonAdjOk_concat (cseg : Point × Point) :
    ∀ L : List (Point × Point), nonAdjOk L = true →
      (∀ e ∈ L.dropLast, segsIntersect e.1 e.2 cseg.1 cseg.2 = false) →
      nonAdjOk (L ++ [cseg]) = true := by
  intro L
  induction L with
  | nil => intro _ _; rfl
  | cons e t ih =>
    intro hL hc
    have hL2 : (((t.drop 1).all (fun e2 => ! segsIntersect e.1 e.2 e2.1 e2.2)) &&
      nonAdjOk t) = true := hL
    rw [Bool.and_eq_true] at hL2
    show ((((t ++ [cseg]).drop 1).all
      (fun e2 => ! segsIntersect e.1 e.2 e2.1 e2.2)) && nonAdjOk (t ++ [cseg])) = true
    rw [Bool.and_eq_true]
    constructor
    · cases t with
      | nil => rfl
      | cons e2 t' =>
        rw [show ((e2 :: t') ++ [cseg]).drop 1 = t' ++ [cseg] from rfl]
        rw [List.all_append, Bool.and_eq_true]
        constructor
        · have h3 := hL2.1
          rw [show (e2 :: t').drop 1 = t' from rfl] at h3
          exact h3
        · have he : segsIntersect e.1 e.2 cseg.1 cseg.2 = false := by
            apply hc e
            show e ∈ e :: (e2 :: t').dropLast
            exact List.mem_cons_self _ _
          simp [he]
    · apply ih hL2.2
      intro e2 he2
      apply hc
      cases t with
      | nil => simp at he2
      | cons x t'' =>
        show e2 ∈ e :: (x :: t'').dropLast
        exact List.mem_cons_of_mem _ he2

/-- A segment whose endpoints lie strictly west of the meridian cannot
meet the meridian cut segment. -/
theorem segsIntersect_vertical_left (u v : Point) (x0 y1 y2 : ℚ)
    (hu : u.1 < x0) (hv : v.1 < x0) (hy : y1 ≠ y2) :
    segsIntersect u v (x0, y1) (x0, y2) = false := by
  rw [Bool.eq_false_iff]
  intro hcon
  rw [segsIntersect_iff] at hcon
  have hyne : y2 - y1 ≠ 0 := sub_ne_zero.mpr (Ne.symm hy)
  have e1 : orient2 ((x0, y1) : Point) ((x0, y2) : Point) u =
      (y2 - y1) * (x0 - u.1) := by
    simp only [orient2]
    ring
  have e2 : orient2 ((x0, y1) : Point) ((x0, y2) : Point) v =
      (y2 - y1) * (x0 - v.1) := by
    simp only [orient2]
    ring
  have hsq : 0 < (y2 - y1) * (y2 - y1) := by
    rcases lt_trichotomy (y2 - y1) 0 with hh | hh | hh
    · exact mul_pos_of_neg_of_neg hh hh
    · exact absurd hh hyne
    · exact mul_pos hh hh
  rcases hcon with ⟨_, h2⟩ | h | h | h | h
  · rw [e1, e2] at h2
    have hpos : 0 < ((y2 - y1) * (x0 - u.1)) * ((y2 - y1) * (x0 - v.1)) := by
      have hx1 : 0 < x0 - u.1 := by linarith
      have hx2 : 0 < x0 - v.1 := by linarith
      nlinarith [mul_pos hsq (mul_pos hx1 hx2)]
    linarith
  · rw [onSegB_iff] at h
    have h3 : x0 ≤ max u.1 v.1 := h.2.2.1
    have h4 : max u.1 v.1 < x0 := max_lt hu hv
    linarith
  · rw [onSegB_iff] at h
    have h3 : x0 ≤ max u.1 v.1 := h.2.2.1
    have h4 : max u.1 v.1 < x0 := max_lt hu hv
    linarith
  · rw [onSegB_iff] at h
    have h3 := h.1
    rw [e1] at h3
    have hx1 : x0 - u.1 ≠ 0 := ne_of_gt (by linarith)
    exact mul_ne_zero hyne hx1 h3
  · rw [onSegB_iff] at h
    have h3 := h.1
    rw [e2] at h3
    have hx2 : x0 - v.1 ≠ 0 := ne_of_gt (by linarith)
    exact mul_ne_zero hyne hx2 h3

/-- A segment whose endpoints lie strictly east of the meridian cannot
meet the meridian cut segment. -/
theorem segsIntersect_vertical_right (u v : Point) (x0 y1 y2 : ℚ)
    (hu : x0 < u.1) (hv : x0 < v.1) (hy : y1 ≠ y2) :
    segsIntersect u v (x0, y1) (x0, y2) = false := by
  rw [Bool.eq_false_iff]
  intro hcon
  rw [segsIntersect_iff] at hcon
  have hyne : y2 - y1 ≠ 0 := sub_ne_zero.mpr (Ne.symm hy)
  have e1 : orient2 ((x0, y1) : Point) ((x0, y2) : Point) u =
      (y2 - y1) * (x0 - u.1) := by
    simp only [orient2]
    ring
  have e2 : orient2 ((x0, y1) : Point) ((x0, y2) : Point) v =
      (y2 - y1) * (x0 - v.1) := by
    simp only [orient2]
    ring
  have hsq : 0 < (y2 - y1) * (y2 - y1) := by
    rcases lt_trichotomy (y2 - y1) 0 with hh | hh | hh
    · exact mul_pos_of_neg_of_neg hh hh
    · exact absurd hh hyne
    · exact mul_pos hh hh
  rcases hcon with ⟨_, h2⟩ | h | h | h | h
  · rw [e1, e2] at h2
    have hpos : 0 < ((y2 - y1) * (x0 - u.1)) * ((y2 - y1) * (x0 - v.1)) := by
      have hx1 : x0 - u.1 < 0 := by linarith
      have hx2 : x0 - v.1 < 0 := by linarith
      nlinarith [mul_pos hsq (mul_pos_of_neg_of_neg hx1 hx2)]
    linarith
  · rw [onSegB_iff] at h
    have h3 : min u.1 v.1 ≤ x0 := h.2.1
    have h4 : x0 < min u.1 v.1 := lt_min hu hv
    linarith
  · rw [onSegB_iff] at h
    have h3 : min u.1 v.1 ≤ x0 := h.2.1
    have h4 : x0 < min u.1 v.1 := lt_min hu hv
    linarith
  · rw [onSegB_iff] at h
    have h3 := h.1
    rw [e1] at h3
    have hx1 : x0 - u.1 ≠ 0 := ne_of_lt (by linarith)
    exact mul_ne_zero hyne hx1 h3
  · rw [onSegB_iff] at h
    have h3 := h.1
    rw [e2] at h3
    have hx2 : x0 - v.1 ≠ 0 := ne_of_lt (by linarith)
    exact mul_ne_zero hyne hx2 h3

/-- Splitting preserves simplicity: if the input ring, presented in
normalized coordinates with its two meridian crossing points as vertices,
is free of non-adjacent edge intersections, then so are both parts cut at
the meridian (the part east of the meridian given here shifted east by a
revolution; the actual part is its shift west, which `noSelfIntersect`
ignores). -/
theorem split_parts_noSelfIntersect (c1 c2 p0 n0 : Point) (PM NM : List Point)
    (hx1 : c1.1 = 180) (hx2 : c2.1 = 180)
    (hPM : ∀ q ∈ p0 :: PM, q.1 < 180)
    (hNM : ∀ q ∈ n0 :: NM, 180 < q.1)
    (H : noSelfIntersect (closeRing (c1 :: (p0 :: PM) ++ c2 :: (n0 :: NM))) = true) :
    noSelfIntersect (closeRing (c1 :: (p0 :: PM) ++ [c2])) = true ∧
      noSelfIntersect (closeRing (c2 :: (n0 :: NM) ++ [c1])) = true := by
  have hCR : ringEdges (closeRing (c1 :: (p0 :: PM) ++ c2 :: (n0 :: NM))) =
      (c1, p0) :: ((ringEdges (p0 :: PM) ++ (lastD PM p0, c2) :: (c2, n0) ::
        ringEdges (n0 :: NM)) ++ [(lastD NM n0, c1)]) := by
    show ringEdges ((c1 :: ((p0 :: PM) ++ c2 :: (n0 :: NM))) ++ [c1]) = _
    rw [ringEdges_cons_append c1 ((p0 :: PM) ++ c2 :: (n0 :: NM)) [c1]]
    rw [show lastD ((p0 :: PM) ++ c2 :: (n0 :: NM)) c1 = lastD NM n0 from by
      rw [lastD_append_right (p0 :: PM) (c2 :: (n0 :: NM)) c1 (by simp)]
      rfl]
    rw [show ringEdges (c1 :: ((p0 :: PM) ++ c2 :: (n0 :: NM))) =
        ringEdges ((c1 :: (p0 :: PM)) ++ c2 :: (n0 :: NM)) from rfl]
    rw [ringEdges_cons_append c1 (p0 :: PM) (c2 :: (n0 :: NM))]
    rfl
  rw [noSelfIntersect_eq _ _ _ hCR, Bool.and_eq_true] at H
  obtain ⟨Hhead, Hadj⟩ := H
  have hTCeq : (ringEdges (p0 :: PM) ++ (lastD PM p0, c2) :: (c2, n0) ::
      ringEdges (n0 :: NM)) ++ [(lastD NM n0, c1)] =
      (ringEdges (p0 :: PM) ++ [(lastD PM p0, c2)]) ++
        ((c2, n0) :: (ringEdges (n0 :: NM) ++ [(lastD NM n0, c1)])) := by
    simp
  rw [hTCeq] at Hadj
  have Hneg : nonAdjOk ((c2, n0) :: (ringEdges (n0 :: NM) ++ [(lastD NM n0, c1)])) =
      true := nonAdjOk_suffix _ _ Hadj
  have HnegSplit : ((((ringEdges (n0 :: NM) ++ [(lastD NM n0, c1)]).drop 1).all
      (fun e2 => ! segsIntersect c2 n0 e2.1 e2.2)) &&
      nonAdjOk (ringEdges (n0 :: NM) ++ [(lastD NM n0, c1)])) = true := Hneg
  rw [Bool.and_eq_true] at HnegSplit
  have HposL : nonAdjOk (ringEdges (p0 :: PM) ++ [(lastD PM p0, c2)]) = true :=
    nonAdjOk_append_left _ _ Hadj
  -- the cut points have distinct latitudes
  have hPcheck : ∀ e ∈ (ringEdges (n0 :: NM) ++ [(lastD NM n0, c1)]).drop 1,
      (! segsIntersect c2 n0 e.1 e.2) = true := by
    rw [← List.all_eq_true]
    exact HnegSplit.1
  have haPmem : lastD PM p0 ∈ p0 :: PM := by
    rcases lastD_mem PM p0 with h | h
    · rw [h]; exact List.mem_cons_self _ _
    · exact List.mem_cons_of_mem _ h
  have haNmem : lastD NM n0 ∈ n0 :: NM := by
    rcases lastD_mem NM n0 with h | h
    · rw [h]; exact List.mem_cons_self _ _
    · exact List.mem_cons_of_mem _ h
  have hPadjHead : ∀ e ∈ (ringEdges (p0 :: PM) ++ [(lastD PM p0, c2)]).drop 1 ++
      ((c2, n0) :: (ringEdges (n0 :: NM) ++ [(lastD NM n0, c1)])), True := fun _ _ => trivial
  have hy12 : c2.2 ≠ c1.2 := by
    intro heq
    have hc12 : c2 = c1 := by
      have h1 : c2 = (c2.1, c2.2) := rfl
      have h2 : c1 = (c1.1, c1.2) := rfl
      rw [h1, h2, hx1, hx2, heq]
    -- extract the pair ((lastD PM p0, c2), (lastD NM n0, c1)) from Hadj
    have Hmid : nonAdjOk ((lastD PM p0, c2) :: ((c2, n0) ::
        (ringEdges (n0 :: NM) ++ [(lastD NM n0, c1)]))) = true := by
      refine nonAdjOk_suffix _ (ringEdges (p0 :: PM)) ?_
      rw [show ringEdges (p0 :: PM) ++ ((lastD PM p0, c2) :: ((c2, n0) ::
          (ringEdges (n0 :: NM) ++ [(lastD NM n0, c1)]))) =
          (ringEdges (p0 :: PM) ++ [(lastD PM p0, c2)]) ++
            ((c2, n0) :: (ringEdges (n0 :: NM) ++ [(lastD NM n0, c1)])) from by
        simp]
      exact Hadj
    have Hmid2 : ((((c2, n0) :: (ringEdges (n0 :: NM) ++ [(lastD NM n0, c1)])).drop 1).all
        (fun e2 => ! segsIntersect (lastD PM p0) c2 e2.1 e2.2) &&
        nonAdjOk ((c2, n0) :: (ringEdges (n0 :: NM) ++ [(lastD NM n0, c1)]))) =
        true := Hmid
    rw [Bool.and_eq_true, List.all_eq_true] at Hmid2
    have hpair := Hmid2.1 (lastD NM n0, c1) (by
      show (lastD NM n0, c1) ∈ ringEdges (n0 :: NM) ++ [(lastD NM n0, c1)]
      exact List.mem_append_right _ (List.mem_singleton.mpr rfl))
    rw [Bool.not_eq_true'] at hpair
    rw [Bool.eq_false_iff] at hpair
    apply hpair
    rw [segsIntersect_iff]
    right; right; left
    rw [onSegB_iff]
    refine ⟨?_, ?_, ?_, ?_, ?_⟩
    · rw [← hc12]
      show orient2 (lastD PM p0) c2 c2 = 0
      simp only [orient2]
      ring
    · rw [← hc12]
      exact min_le_right _ _
    · rw [← hc12]
      exact le_max_right _ _
    · rw [← hc12]
      exact min_le_right _ _
    · rw [← hc12]
      exact le_max_right _ _
  constructor
  · -- the positive part
    have hPR : ringEdges (closeRing (c1 :: (p0 :: PM) ++ [c2])) =
        (c1, p0) :: ((ringEdges (p0 :: PM) ++ [(lastD PM p0, c2)]) ++ [(c2, c1)]) := by
      show ringEdges ((c1 :: ((p0 :: PM) ++ [c2])) ++ [c1]) = _
      rw [ringEdges_cons_append c1 ((p0 :: PM) ++ [c2]) [c1]]
      rw [show lastD ((p0 :: PM) ++ [c2]) c1 = c2 from lastD_concat (p0 :: PM) c2 c1]
      rw [show ringEdges (c1 :: ((p0 :: PM) ++ [c2])) =
          ringEdges ((c1 :: (p0 :: PM)) ++ [c2]) from rfl]
      rw [ringEdges_cons_append c1 (p0 :: PM) [c2]]
      rfl
    rw [noSelfIntersect_eq _ _ _ hPR, Bool.and_eq_true]
    constructor
    · -- head edge (c1, p0) against the interior
      rw [List.all_eq_true]
      intro e he
      rw [List.all_eq_true] at Hhead
      apply Hhead
      cases hEP : ringEdges (p0 :: PM) with
      | nil =>
        rw [hEP] at he
        simp at he
      | cons f EP'' =>
        rw [hEP] at he
        rw [show ((f :: EP'' ++ [(lastD PM p0, c2)]) ++ [(c2, c1)]).drop 1 =
            (EP'' ++ [(lastD PM p0, c2)]) ++ [(c2, c1)] from rfl] at he
        rw [List.dropLast_concat] at he
        rw [show (((f :: EP'' ++ (lastD PM p0, c2) :: (c2, n0) ::
            ringEdges (n0 :: NM)) ++ [(lastD NM n0, c1)]).drop 1) =
            (EP'' ++ (lastD PM p0, c2) :: (c2, n0) ::
              ringEdges (n0 :: NM)) ++ [(lastD NM n0, c1)] from rfl]
        rw [List.dropLast_concat]
        rcases List.mem_append.mp he with h | h
        · exact List.mem_append_left _ h
        · simp only [List.mem_singleton] at h
          rw [h]
          exact List.mem_append_right _ (List.mem_cons_self _ _)
    · -- non-adjacent interior pairs
      apply nonAdjOk_concat (c2, c1) (ringEdges (p0 :: PM) ++ [(lastD PM p0, c2)])
        HposL
      intro e he
      rw [List.dropLast_concat] at he
      have hb := mem_ringEdges e (p0 :: PM) he
      have h1 : e.1.1 < 180 := hPM e.1 hb.1
      have h2 : e.2.1 < 180 := hPM e.2 hb.2
      show segsIntersect e.1 e.2 c2 c1 = false
      rw [show c2 = ((180 : ℚ), c2.2) from by rw [← hx2],
        show c1 = ((180 : ℚ), c1.2) from by rw [← hx1]]
      exact segsIntersect_vertical_left e.1 e.2 180 c2.2 c1.2 h1 h2 hy12
  · -- the negative part (shifted east)
    have hNR : ringEdges (closeRing (c2 :: (n0 :: NM) ++ [c1])) =
        (c2, n0) :: ((ringEdges (n0 :: NM) ++ [(lastD NM n0, c1)]) ++ [(c1, c2)]) := by
      show ringEdges ((c2 :: ((n0 :: NM) ++ [c1])) ++ [c2]) = _
      rw [ringEdges_cons_append c2 ((n0 :: NM) ++ [c1]) [c2]]
      rw [show lastD ((n0 :: NM) ++ [c1]) c2 = c1 from lastD_concat (n0 :: NM) c1 c2]
      rw [show ringEdges (c2 :: ((n0 :: NM) ++ [c1])) =
          ringEdges ((c2 :: (n0 :: NM)) ++ [c1]) from rfl]
      rw [ringEdges_cons_append c2 (n0 :: NM) [c1]]
      rfl
    rw [noSelfIntersect_eq _ _ _ hNR, Bool.and_eq_true]
    constructor
    · rw [List.all_eq_true]
      intro e he
      cases hEN : ringEdges (n0 :: NM) with
      | nil =>
        rw [hEN] at he
        simp at he
      | cons f EN'' =>
        rw [hEN] at he
        rw [show ((f :: EN'' ++ [(lastD NM n0, c1)]) ++ [(c1, c2)]).drop 1 =
            (EN'' ++ [(lastD NM n0, c1)]) ++ [(c1, c2)] from rfl] at he
        rw [List.dropLast_concat] at he
        have := hPcheck e (by
          rw [hEN]
          show e ∈ (f :: EN'' ++ [(lastD NM n0, c1)]).drop 1
          rw [show (f :: EN'' ++ [(lastD NM n0, c1)]).drop 1 =
              EN'' ++ [(lastD NM n0, c1)] from rfl]
          exact he)
        exact this
    · apply nonAdjOk_concat (c1, c2) (ringEdges (n0 :: NM) ++ [(lastD NM n0, c1)])
        HnegSplit.2
      intro e he
      rw [List.dropLast_concat] at he
      have hb := mem_ringEdges e (n0 :: NM) he
      have h1 : 180 < e.1.1 := hNM e.1 hb.1
      have h2 : 180 < e.2.1 := hNM e.2 hb.2
      show segsIntersect e.1 e.2 c1 c2 = false
      rw [show c1 = ((180 : ℚ), c1.2) from by rw [← hx1],
        show c2 = ((180 : ℚ), c2.2) from by rw [← hx2]]
      exact segsIntersect_vertical_right e.1 e.2 180 c1.2 c2.2 h1 h2
        (fun hcon => hy12 hcon.symm)

/-! ### The antimeridian claims -/

/-- Counterexample for claim C1: a crossing ring that runs eastward once
around the globe (one explicit crossing edge, then a chain of sub-180
steps all the way back).  SPLIT cuts only the explicit crossing edge, so
the single collected segment is closed with an edge jumping from
longitude 180 back to -180: the output still contains a consecutive-vertex
longitude delta above 180 in absolute value, refuting the every-strategy
half of the claim as stated. -/
theorem resolve_split_winding_crossing :
    isCrossing [((179 : ℚ), (0 : ℚ)), (-179, 0), (-90, 0), (0, 10), (90, 10),
        (179, 0)] = true ∧
      ¬ (∀ q ∈ resolve .SPLIT
            [((179 : ℚ), (0 : ℚ)), (-179, 0), (-90, 0), (0, 10), (90, 10), (179, 0)],
          isCrossing q = false) := by
  have hcross : isCrossing [((179 : ℚ), (0 : ℚ)), (-179, 0), (-90, 0), (0, 10),
      (90, 10), (179, 0)] = true := by
    norm_num [isCrossing, adjSat, lonOk]
  have hyd : yDn ((179 : ℚ), (0 : ℚ)) ((-179 : ℚ), (0 : ℚ)) = (0 : ℚ) := by
    norm_num [yDn]
  have hadj : adjSat lonOk [((-179 : ℚ), (0 : ℚ)), (-90, 0), (0, 10), (90, 10),
      (179, 0)] = true := by
    norm_num [adjSat, lonOk]
  have hloop : splitLoop ((179 : ℚ), (0 : ℚ)) [((179 : ℚ), (0 : ℚ))]
      [((-179 : ℚ), (0 : ℚ)), (-90, 0), (0, 10), (90, 10), (179, 0)] [] =
      ([((-180 : ℚ), (0 : ℚ)), (-179, 0), (-90, 0), (0, 10), (90, 10), (179, 0)],
       [[((179 : ℚ), (0 : ℚ)), (180, 0)]]) := by
    rw [splitLoop_cons_dn ((179 : ℚ), (0 : ℚ)) ((-179 : ℚ), (0 : ℚ))
      [((179 : ℚ), (0 : ℚ))] [((-90 : ℚ), (0 : ℚ)), (0, 10), (90, 10), (179, 0)] []
      (by norm_num)]
    rw [hyd]
    rw [splitLoop_all_within [((-90 : ℚ), (0 : ℚ)), (0, 10), (90, 10), (179, 0)]
      ((-179 : ℚ), (0 : ℚ)) _ _ hadj]
    rfl
  have hsplit : splitRing [((179 : ℚ), (0 : ℚ)), (-179, 0), (-90, 0), (0, 10),
      (90, 10), (179, 0)] =
      [[((-180 : ℚ), (0 : ℚ)), (-179, 0), (-90, 0), (0, 10), (90, 10), (179, 0),
        (180, 0), (-180, 0)]] := by
    show splitRing (((179 : ℚ), (0 : ℚ)) ::
      [((-179 : ℚ), (0 : ℚ)), (-90, 0), (0, 10), (90, 10), (179, 0)]) = _
    simp only [splitRing, hloop]
    rfl
  have hres : resolve .SPLIT [((179 : ℚ), (0 : ℚ)), (-179, 0), (-90, 0), (0, 10),
      (90, 10), (179, 0)] =
      [[((-180 : ℚ), (0 : ℚ)), (-179, 0), (-90, 0), (0, 10), (90, 10), (179, 0),
        (180, 0), (-180, 0)]] := by
    have hdef : resolve .SPLIT [((179 : ℚ), (0 : ℚ)), (-179, 0), (-90, 0), (0, 10),
        (90, 10), (179, 0)] =
        if isCrossing [((179 : ℚ), (0 : ℚ)), (-179, 0), (-90, 0), (0, 10),
            (90, 10), (179, 0)] then
          splitRing [((179 : ℚ), (0 : ℚ)), (-179, 0), (-90, 0), (0, 10),
            (90, 10), (179, 0)]
        else [[((179 : ℚ), (0 : ℚ)), (-179, 0), (-90, 0), (0, 10), (90, 10),
          (179, 0)]] := rfl
    rw [hdef, hcross, if_pos rfl, hsplit]
  refine ⟨hcross, ?_⟩
  intro hall
  have hmem : [((-180 : ℚ), (0 : ℚ)), (-179, 0), (-90, 0), (0, 10), (90, 10),
      (179, 0), (180, 0), (-180, 0)] ∈ resolve .SPLIT
      [((179 : ℚ), (0 : ℚ)), (-179, 0), (-90, 0), (0, 10), (90, 10), (179, 0)] := by
    rw [hres]
    exact List.mem_singleton.mpr rfl
  have h1 := hall _ hmem
  have h2 : isCrossing [((-180 : ℚ), (0 : ℚ)), (-179, 0), (-90, 0), (0, 10),
      (90, 10), (179, 0), (180, 0), (-180, 0)] = true := by
    norm_num [isCrossing, adjSat, lonOk]
  rw [h1] at h2
  exact Bool.false_ne_true h2

/-- Claim C1 (amended): for every geodetic polygon that crosses the
antimeridian, `resolve` with the NORMALIZE strategy returns a single
polygon (the normalized ring) in which no two consecutive vertices'
longitudes differ by more than 180 degrees in absolute value; and for
polygons crossing the antimeridian exactly once — presented as a run on
one side, the opposite side, then optionally back on the first side
before closure — the no-spurious-crossing invariant holds for the output
of `resolve` under every strategy.  The unamended every-strategy half is
refuted by `resolve_split_winding_crossing`: a once-winding ring under
SPLIT still contains a crossing delta. -/
theorem resolve_no_spurious_crossing_amended (r : List Point)
    (hcross : isCrossing r = true) :
    resolve .NORMALIZE r = [normalizeRing r] ∧
      (∀ q ∈ resolve .NORMALIZE r, isCrossing q = false) ∧
      ((posRunForm r ∨ negRunForm r) →
        ∀ s : Strategy, ∀ q ∈ resolve s r, isCrossing q = false) := by
  have hnorm : resolve .NORMALIZE r = [normalizeRing r] := by
    simp [resolve, hcross]
  refine ⟨hnorm, ?_, ?_⟩
  · intro q hq
    rw [hnorm] at hq
    simp only [List.mem_singleton] at hq
    rw [hq]
    exact normalizeRing_not_crossing r
  · intro hform s q hq
    cases s with
    | NORMALIZE =>
      rw [hnorm] at hq
      simp only [List.mem_singleton] at hq
      rw [hq]
      exact normalizeRing_not_crossing r
    | SPLIT =>
      have hsplit : resolve .SPLIT r = splitRing r := by
        simp [resolve, hcross]
      rw [hsplit] at hq
      rcases hform with ⟨p1, P1, n0, N, P2, hr, hP1, hN, hP2, hc1, hc2⟩ |
        ⟨n1, N1, p0, P, N2, hr, hN1, hP, hN2, hc1, hc2⟩
      · rw [hr, splitRing_pos_run p1 n0 P1 N P2 hP1 hN hP2 hc1 hc2] at hq
        simp only [List.mem_cons, List.mem_singleton, List.not_mem_nil,
          or_false] at hq
        rcases hq with hq | hq
        · rw [hq]
          have hadj : adjSat lonOk (closeRing
              (((180 : ℚ), yUp (lastD N n0) (P2.headD p1)) ::
                (P2 ++ p1 :: P1) ++ [((180 : ℚ), yDn (lastD P1 p1) n0)])) = true := by
            apply adjSat_lonOk_of_bounded 0 180 (by norm_num)
            intro z hz
            refine mem_cut_ring ((180 : ℚ), yUp (lastD N n0) (P2.headD p1))
              ((180 : ℚ), yDn (lastD P1 p1) n0) (P2 ++ p1 :: P1)
              (fun w => 0 ≤ w.1 ∧ w.1 ≤ 180) (by norm_num) (by norm_num)
              ?_ z hz
            intro w hw
            rcases List.mem_append.mp hw with h | h
            · exact ⟨le_of_lt (hP2 w h).1, le_of_lt (hP2 w h).2⟩
            · exact ⟨le_of_lt (hP1 w h).1, le_of_lt (hP1 w h).2⟩
          unfold isCrossing
          rw [hadj]
          rfl
        · rw [hq]
          have hadj : adjSat lonOk (closeRing
              (((-180 : ℚ), yDn (lastD P1 p1) n0) :: n0 ::
                (N ++ [((-180 : ℚ), yUp (lastD N n0) (P2.headD p1))]))) = true := by
            apply adjSat_lonOk_of_bounded (-180) 0 (by norm_num)
            intro z hz
            refine mem_cut_ring ((-180 : ℚ), yDn (lastD P1 p1) n0)
              ((-180 : ℚ), yUp (lastD N n0) (P2.headD p1)) (n0 :: N)
              (fun w => -180 ≤ w.1 ∧ w.1 ≤ 0) (by norm_num) (by norm_num)
              ?_ z hz
            intro w hw
            exact ⟨le_of_lt (hN w hw).1, le_of_lt (hN w hw).2⟩
          unfold isCrossing
          rw [hadj]
          rfl
      · rw [hr, splitRing_neg_run n1 p0 N1 P N2 hN1 hP hN2 hc1 hc2] at hq
        simp only [List.mem_cons, List.mem_singleton, List.not_mem_nil,
          or_false] at hq
        rcases hq with hq | hq
        · rw [hq]
          have hadj : adjSat lonOk (closeRing
              (((-180 : ℚ), yDn (lastD P p0) (N2.headD n1)) ::
                (N2 ++ n1 :: N1) ++ [((-180 : ℚ), yUp (lastD N1 n1) p0)])) = true := by
            apply adjSat_lonOk_of_bounded (-180) 0 (by norm_num)
            intro z hz
            refine mem_cut_ring ((-180 : ℚ), yDn (lastD P p0) (N2.headD n1))
              ((-180 : ℚ), yUp (lastD N1 n1) p0) (N2 ++ n1 :: N1)
              (fun w => -180 ≤ w.1 ∧ w.1 ≤ 0) (by norm_num) (by norm_num)
              ?_ z hz
            intro w hw
            rcases List.mem_append.mp hw with h | h
            · exact ⟨le_of_lt (hN2 w h).1, le_of_lt (hN2 w h).2⟩
            · exact ⟨le_of_lt (hN1 w h).1, le_of_lt (hN1 w h).2⟩
          unfold isCrossing
          rw [hadj]
          rfl
        · rw [hq]
          have hadj : adjSat lonOk (closeRing
              (((180 : ℚ), yUp (lastD N1 n1) p0) :: p0 ::
                (P ++ [((180 : ℚ), yDn (lastD P p0) (N2.headD n1))]))) = true := by
            apply adjSat_lonOk_of_bounded 0 180 (by norm_num)
            intro z hz
            refine mem_cut_ring ((180 : ℚ), yUp (lastD N1 n1) p0)
              ((180 : ℚ), yDn (lastD P p0) (N2.headD n1)) (p0 :: P)
              (fun w => 0 ≤ w.1 ∧ w.1 ≤ 180) (by norm_num) (by norm_num)
              ?_ z hz
            intro w hw
            exact ⟨le_of_lt (hP w hw).1, le_of_lt (hP w hw).2⟩
          unfold isCrossing
          rw [hadj]
          rfl

/-- Witness for the amended C1 at a concrete quadrilateral crossing the
antimeridian once (longitudes 179 and -179). -/
theorem resolve_no_spurious_crossing_amended_witness :
    isCrossing [((179 : ℚ), (0 : ℚ)), (179, 1), (-179, 1), (-179, 0), (179, 0)] = true ∧
      posRunForm [((179 : ℚ), (0 : ℚ)), (179, 1), (-179, 1), (-179, 0), (179, 0)] ∧
      (∀ s : Strategy, ∀ q ∈ resolve s
          [((179 : ℚ), (0 : ℚ)), (179, 1), (-179, 1), (-179, 0), (179, 0)],
        isCrossing q = false) := by
  have hcross : isCrossing
      [((179 : ℚ), (0 : ℚ)), (179, 1), (-179, 1), (-179, 0), (179, 0)] = true := by
    norm_num [isCrossing, adjSat, lonOk]
  have hform : posRunForm
      [((179 : ℚ), (0 : ℚ)), (179, 1), (-179, 1), (-179, 0), (179, 0)] := by
    refine ⟨((179 : ℚ), (0 : ℚ)), [((179 : ℚ), (1 : ℚ))],
      ((-179 : ℚ), (1 : ℚ)), [((-179 : ℚ), (0 : ℚ))], [], rfl, ?_, ?_, ?_, ?_, ?_⟩
    · intro q hq
      simp only [List.mem_cons, List.mem_singleton, List.not_mem_nil,
        or_false] at hq
      rcases hq with h | h <;> rw [h] <;> norm_num
    · intro q hq
      simp only [List.mem_cons, List.mem_singleton, List.not_mem_nil,
        or_false] at hq
      rcases hq with h | h <;> rw [h] <;> norm_num
    · intro q hq
      simp at hq
    · norm_num [lastD]
    · norm_num [lastD]
  exact ⟨hcross, hform,
    (resolve_no_spurious_crossing_amended _ hcross).2.2 (Or.inl hform)⟩

/-- Claim C3: for every geodetic polygon that crosses 180 degrees
longitude exactly once — in either single-crossing presentation: a run on
one side, then the opposite side, then optionally back on the first side
before closure — `resolve` with the SPLIT strategy produces exactly two
polygons, one whose longitudes are all positive and at most 180, one
whose longitudes are all negative and at least -180; the sum of their
signed areas equals the signed area of the pre-split polygon (represented
by its normalized, unwrapped ring), exactly in rational arithmetic; and
both parts are simple (free of non-adjacent edge intersections) whenever
the pre-split polygon itself is, as presented in normalized coordinates
with its two meridian crossing points as vertices — that glued
presentation is exactly `A.dropLast ++ ((B.map (shiftLon 360)).tail.dropLast)`
for the two output rings `A` and `B`. -/
theorem resolve_split_single_crossing (r : List Point)
    (hform : posRunForm r ∨ negRunForm r) :
    (resolve .SPLIT r).length = 2 ∧
      ∃ A B, (resolve .SPLIT r = [A, B] ∨ resolve .SPLIT r = [B, A]) ∧
        (∀ q ∈ A, 0 < q.1 ∧ q.1 ≤ 180) ∧
        (∀ q ∈ B, -180 ≤ q.1 ∧ q.1 < 0) ∧
        signedArea A + signedArea B = signedArea (normalizeRing r) ∧
        (noSelfIntersect (A.dropLast ++ ((B.map (shiftLon 360)).tail.dropLast)) = true →
          noSelfIntersect A = true ∧ noSelfIntersect B = true) := by
  rcases hform with ⟨p1, P1, n0, N, P2, hr, hP1, hN, hP2, hc1, hc2⟩ |
    ⟨n1, N1, p0, P, N2, hr, hN1, hP, hN2, hc1, hc2⟩
  · subst hr
    have hcross : isCrossing ((p1 :: P1) ++ (n0 :: N) ++ P2 ++ [p1]) = true := by
      rw [show (p1 :: P1) ++ (n0 :: N) ++ P2 ++ [p1] =
          (p1 :: P1) ++ n0 :: (N ++ P2 ++ [p1]) from by simp]
      exact run_isCrossing_dn p1 n0 P1 _ hc1
    have hres : resolve .SPLIT ((p1 :: P1) ++ (n0 :: N) ++ P2 ++ [p1]) =
        splitRing ((p1 :: P1) ++ (n0 :: N) ++ P2 ++ [p1]) := by
      have hdef : resolve .SPLIT ((p1 :: P1) ++ (n0 :: N) ++ P2 ++ [p1]) =
          if isCrossing ((p1 :: P1) ++ (n0 :: N) ++ P2 ++ [p1]) then
            splitRing ((p1 :: P1) ++ (n0 :: N) ++ P2 ++ [p1])
          else [(p1 :: P1) ++ (n0 :: N) ++ P2 ++ [p1]] := rfl
      rw [hdef, hcross]
      rfl
    rw [hres, splitRing_pos_run p1 n0 P1 N P2 hP1 hN hP2 hc1 hc2]
    refine ⟨rfl, _, _, Or.inl rfl, ?_, ?_, ?_, ?_⟩
    · intro q hq
      refine mem_cut_ring ((180 : ℚ), yUp (lastD N n0) (P2.headD p1))
        ((180 : ℚ), yDn (lastD P1 p1) n0) (P2 ++ p1 :: P1)
        (fun w => 0 < w.1 ∧ w.1 ≤ 180) (by norm_num) (by norm_num) ?_ q hq
      intro w hw
      rcases List.mem_append.mp hw with h | h
      · exact ⟨(hP2 w h).1, le_of_lt (hP2 w h).2⟩
      · exact ⟨(hP1 w h).1, le_of_lt (hP1 w h).2⟩
    · intro q hq
      refine mem_cut_ring ((-180 : ℚ), yDn (lastD P1 p1) n0)
        ((-180 : ℚ), yUp (lastD N n0) (P2.headD p1)) (n0 :: N)
        (fun w => -180 ≤ w.1 ∧ w.1 < 0) (by norm_num) (by norm_num) ?_ q hq
      intro w hw
      exact ⟨le_of_lt (hN w hw).1, (hN w hw).2⟩
    · rw [normalizeRing_pos_run p1 n0 P1 N P2 hP1 hN hP2 hc1 hc2]
      simp only [signedArea]
      have h := crossSum_split_pos_run p1 n0 P1 N P2 hP1 hN hP2
      linarith
    · intro Hglue
      obtain ⟨m0, M, hM⟩ : ∃ m0 M, P2 ++ p1 :: P1 = m0 :: M := by
        cases P2 with
        | nil => exact ⟨p1, P1, rfl⟩
        | cons x t => exact ⟨x, t ++ p1 :: P1, rfl⟩
      have hs1 : shiftLon 360 ((-180 : ℚ), yUp (lastD N n0) (P2.headD p1)) =
          ((180 : ℚ), yUp (lastD N n0) (P2.headD p1)) := by
        show ((-180 + 360 : ℚ), yUp (lastD N n0) (P2.headD p1)) = _
        norm_num
      have hs2 : shiftLon 360 ((-180 : ℚ), yDn (lastD P1 p1) n0) =
          ((180 : ℚ), yDn (lastD P1 p1) n0) := by
        show ((-180 + 360 : ℚ), yDn (lastD P1 p1) n0) = _
        norm_num
      have hA : (closeRing (((180 : ℚ), yUp (lastD N n0) (P2.headD p1)) ::
            (P2 ++ p1 :: P1) ++ [((180 : ℚ), yDn (lastD P1 p1) n0)])).dropLast =
          ((180 : ℚ), yUp (lastD N n0) (P2.headD p1)) ::
            ((P2 ++ p1 :: P1) ++ [((180 : ℚ), yDn (lastD P1 p1) n0)]) := by
        show ((((180 : ℚ), yUp (lastD N n0) (P2.headD p1)) ::
            ((P2 ++ p1 :: P1) ++ [((180 : ℚ), yDn (lastD P1 p1) n0)])) ++
            [((180 : ℚ), yUp (lastD N n0) (P2.headD p1))]).dropLast = _
        rw [List.dropLast_concat]
      have hB : ((closeRing (((-180 : ℚ), yDn (lastD P1 p1) n0) :: n0 ::
            (N ++ [((-180 : ℚ), yUp (lastD N n0) (P2.headD p1))]))).map
              (shiftLon 360)).tail.dropLast =
          shiftLon 360 n0 :: (N.map (shiftLon 360) ++
            [shiftLon 360 ((-180 : ℚ), yUp (lastD N n0) (P2.headD p1))]) := by
        have hstep : List.map (shiftLon 360)
            ((n0 :: (N ++ [((-180 : ℚ), yUp (lastD N n0) (P2.headD p1))])) ++
              [((-180 : ℚ), yDn (lastD P1 p1) n0)]) =
            (shiftLon 360 n0 :: (N.map (shiftLon 360) ++
              [shiftLon 360 ((-180 : ℚ), yUp (lastD N n0) (P2.headD p1))])) ++
              [shiftLon 360 ((-180 : ℚ), yDn (lastD P1 p1) n0)] := by
          simp
        show (List.map (shiftLon 360)
            ((n0 :: (N ++ [((-180 : ℚ), yUp (lastD N n0) (P2.headD p1))])) ++
              [((-180 : ℚ), yDn (lastD P1 p1) n0)])).dropLast = _
        rw [hstep, List.dropLast_concat]
      rw [hA, hB, hs1] at Hglue
      have hlist : (((180 : ℚ), yUp (lastD N n0) (P2.headD p1)) ::
            ((P2 ++ p1 :: P1) ++ [((180 : ℚ), yDn (lastD P1 p1) n0)])) ++
          (shiftLon 360 n0 :: (N.map (shiftLon 360) ++
            [((180 : ℚ), yUp (lastD N n0) (P2.headD p1))])) =
          closeRing (((180 : ℚ), yUp (lastD N n0) (P2.headD p1)) ::
            (m0 :: M) ++ ((180 : ℚ), yDn (lastD P1 p1) n0) ::
              (shiftLon 360 n0 :: N.map (shiftLon 360))) := by
        rw [← hM]
        show _ = (((180 : ℚ), yUp (lastD N n0) (P2.headD p1)) ::
            ((P2 ++ p1 :: P1) ++ ((180 : ℚ), yDn (lastD P1 p1) n0) ::
              (shiftLon 360 n0 :: N.map (shiftLon 360)))) ++
          [((180 : ℚ), yUp (lastD N n0) (P2.headD p1))]
        simp [List.append_assoc]
      rw [hlist] at Hglue
      have hPMb : ∀ q ∈ m0 :: M, q.1 < 180 := by
        intro q hq
        rw [← hM] at hq
        rcases List.mem_append.mp hq with h | h
        · exact (hP2 q h).2
        · exact (hP1 q h).2
      have hNMb : ∀ q ∈ shiftLon 360 n0 :: N.map (shiftLon 360), 180 < q.1 := by
        intro q hq
        have hq2 : q ∈ (n0 :: N).map (shiftLon 360) := hq
        rcases List.mem_map.mp hq2 with ⟨x, hx, rfl⟩
        show (180 : ℚ) < x.1 + 360
        have := hN x hx
        linarith [this.1]
      have hparts := split_parts_noSelfIntersect
        ((180 : ℚ), yUp (lastD N n0) (P2.headD p1))
        ((180 : ℚ), yDn (lastD P1 p1) n0) m0 (shiftLon 360 n0) M
        (N.map (shiftLon 360)) rfl rfl hPMb hNMb Hglue
      constructor
      · rw [show P2 ++ p1 :: P1 = m0 :: M from hM]
        exact hparts.1
      · have hmapB : (closeRing (((-180 : ℚ), yDn (lastD P1 p1) n0) :: n0 ::
              (N ++ [((-180 : ℚ), yUp (lastD N n0) (P2.headD p1))]))).map
                (shiftLon 360) =
            closeRing (((180 : ℚ), yDn (lastD P1 p1) n0) ::
              (shiftLon 360 n0 :: N.map (shiftLon 360)) ++
                [((180 : ℚ), yUp (lastD N n0) (P2.headD p1))]) := by
          show List.map (shiftLon 360) ((((-180 : ℚ), yDn (lastD P1 p1) n0) :: n0 ::
              (N ++ [((-180 : ℚ), yUp (lastD N n0) (P2.headD p1))])) ++
                [((-180 : ℚ), yDn (lastD P1 p1) n0)]) =
            (((180 : ℚ), yDn (lastD P1 p1) n0) ::
              ((shiftLon 360 n0 :: N.map (shiftLon 360)) ++
                [((180 : ℚ), yUp (lastD N n0) (P2.headD p1))])) ++
              [((180 : ℚ), yDn (lastD P1 p1) n0)]
          rw [← hs1, ← hs2]
          simp
        rw [← noSelfIntersect_shiftLon 360
          (closeRing (((-180 : ℚ), yDn (lastD P1 p1) n0) :: n0 ::
            (N ++ [((-180 : ℚ), yUp (lastD N n0) (P2.headD p1))])))]
        rw [hmapB]
        exact hparts.2
  · subst hr
    have hcross : isCrossing ((n1 :: N1) ++ (p0 :: P) ++ N2 ++ [n1]) = true := by
      rw [show (n1 :: N1) ++ (p0 :: P) ++ N2 ++ [n1] =
          (n1 :: N1) ++ p0 :: (P ++ N2 ++ [n1]) from by simp]
      exact run_isCrossing_up n1 p0 N1 _ hc1
    have hres : resolve .SPLIT ((n1 :: N1) ++ (p0 :: P) ++ N2 ++ [n1]) =
        splitRing ((n1 :: N1) ++ (p0 :: P) ++ N2 ++ [n1]) := by
      have hdef : resolve .SPLIT ((n1 :: N1) ++ (p0 :: P) ++ N2 ++ [n1]) =
          if isCrossing ((n1 :: N1) ++ (p0 :: P) ++ N2 ++ [n1]) then
            splitRing ((n1 :: N1) ++ (p0 :: P) ++ N2 ++ [n1])
          else [(n1 :: N1) ++ (p0 :: P) ++ N2 ++ [n1]] := rfl
      rw [hdef, hcross]
      rfl
    rw [hres, splitRing_neg_run n1 p0 N1 P N2 hN1 hP hN2 hc1 hc2]
    refine ⟨rfl, _, _, Or.inr rfl, ?_, ?_, ?_, ?_⟩
    · intro q hq
      refine mem_cut_ring ((180 : ℚ), yUp (lastD N1 n1) p0)
        ((180 : ℚ), yDn (lastD P p0) (N2.headD n1)) (p0 :: P)
        (fun w => 0 < w.1 ∧ w.1 ≤ 180) (by norm_num) (by norm_num) ?_ q hq
      intro w hw
      exact ⟨(hP w hw).1, le_of_lt (hP w hw).2⟩
    · intro q hq
      refine mem_cut_ring ((-180 : ℚ), yDn (lastD P p0) (N2.headD n1))
        ((-180 : ℚ), yUp (lastD N1 n1) p0) (N2 ++ n1 :: N1)
        (fun w => -180 ≤ w.1 ∧ w.1 < 0) (by norm_num) (by norm_num) ?_ q hq
      intro w hw
      rcases List.mem_append.mp hw with h | h
      · exact ⟨le_of_lt (hN2 w h).1, (hN2 w h).2⟩
      · exact ⟨le_of_lt (hN1 w h).1, (hN1 w h).2⟩
    · rw [normalizeRing_neg_run n1 p0 N1 P N2 hN1 hP hN2 hc1 hc2]
      simp only [signedArea]
      have h := crossSum_split_neg_run n1 p0 N1 P N2 hN1 hP hN2
      linarith
    · intro Hglue
      obtain ⟨z, Z0, hZ⟩ : ∃ z Z0, N2 ++ n1 :: N1 = z :: Z0 := by
        cases N2 with
        | nil => exact ⟨n1, N1, rfl⟩
        | cons x t => exact ⟨x, t ++ n1 :: N1, rfl⟩
      have hs1 : shiftLon 360 ((-180 : ℚ), yUp (lastD N1 n1) p0) =
          ((180 : ℚ), yUp (lastD N1 n1) p0) := by
        show ((-180 + 360 : ℚ), yUp (lastD N1 n1) p0) = _
        norm_num
      have hs2 : shiftLon 360 ((-180 : ℚ), yDn (lastD P p0) (N2.headD n1)) =
          ((180 : ℚ), yDn (lastD P p0) (N2.headD n1)) := by
        show ((-180 + 360 : ℚ), yDn (lastD P p0) (N2.headD n1)) = _
        norm_num
      have hA : (closeRing (((180 : ℚ), yUp (lastD N1 n1) p0) :: p0 ::
            (P ++ [((180 : ℚ), yDn (lastD P p0) (N2.headD n1))]))).dropLast =
          ((180 : ℚ), yUp (lastD N1 n1) p0) :: p0 ::
            (P ++ [((180 : ℚ), yDn (lastD P p0) (N2.headD n1))]) := by
        show ((((180 : ℚ), yUp (lastD N1 n1) p0) :: p0 ::
            (P ++ [((180 : ℚ), yDn (lastD P p0) (N2.headD n1))])) ++
            [((180 : ℚ), yUp (lastD N1 n1) p0)]).dropLast = _
        rw [List.dropLast_concat]
      have hB : ((closeRing (((-180 : ℚ), yDn (lastD P p0) (N2.headD n1)) ::
            (N2 ++ n1 :: N1) ++
              [((-180 : ℚ), yUp (lastD N1 n1) p0)])).map
                (shiftLon 360)).tail.dropLast =
          (N2 ++ n1 :: N1).map (shiftLon 360) ++
            [shiftLon 360 ((-180 : ℚ), yUp (lastD N1 n1) p0)] := by
        have hstep : List.map (shiftLon 360)
            (((N2 ++ n1 :: N1) ++ [((-180 : ℚ), yUp (lastD N1 n1) p0)]) ++
              [((-180 : ℚ), yDn (lastD P p0) (N2.headD n1))]) =
            ((N2 ++ n1 :: N1).map (shiftLon 360) ++
              [shiftLon 360 ((-180 : ℚ), yUp (lastD N1 n1) p0)]) ++
              [shiftLon 360 ((-180 : ℚ), yDn (lastD P p0) (N2.headD n1))] := by
          simp
        show (List.map (shiftLon 360)
            (((N2 ++ n1 :: N1) ++ [((-180 : ℚ), yUp (lastD N1 n1) p0)]) ++
              [((-180 : ℚ), yDn (lastD P p0) (N2.headD n1))])).dropLast = _
        rw [hstep, List.dropLast_concat]
      rw [hA, hB, hs1] at Hglue
      have hlist : (((180 : ℚ), yUp (lastD N1 n1) p0) :: p0 ::
            (P ++ [((180 : ℚ), yDn (lastD P p0) (N2.headD n1))])) ++
          ((N2 ++ n1 :: N1).map (shiftLon 360) ++
            [((180 : ℚ), yUp (lastD N1 n1) p0)]) =
          closeRing (((180 : ℚ), yUp (lastD N1 n1) p0) ::
            (p0 :: P) ++ ((180 : ℚ), yDn (lastD P p0) (N2.headD n1)) ::
              (shiftLon 360 z :: Z0.map (shiftLon 360))) := by
        rw [show shiftLon 360 z :: Z0.map (shiftLon 360) =
            (N2 ++ n1 :: N1).map (shiftLon 360) from by rw [hZ]; rfl]
        show _ = (((180 : ℚ), yUp (lastD N1 n1) p0) ::
            ((p0 :: P) ++ ((180 : ℚ), yDn (lastD P p0) (N2.headD n1)) ::
              (N2 ++ n1 :: N1).map (shiftLon 360))) ++
          [((180 : ℚ), yUp (lastD N1 n1) p0)]
        simp [List.append_assoc]
      rw [hlist] at Hglue
      have hPMb : ∀ q ∈ p0 :: P, q.1 < 180 := by
        intro q hq
        exact (hP q hq).2
      have hNMb : ∀ q ∈ shiftLon 360 z :: Z0.map (shiftLon 360), 180 < q.1 := by
        intro q hq
        have hq2 : q ∈ (z :: Z0).map (shiftLon 360) := hq
        rcases List.mem_map.mp hq2 with ⟨x, hx, rfl⟩
        rw [← hZ] at hx
        show (180 : ℚ) < x.1 + 360
        rcases List.mem_append.mp hx with h | h
        · linarith [(hN2 x h).1]
        · linarith [(hN1 x h).1]
      have hparts := split_parts_noSelfIntersect
        ((180 : ℚ), yUp (lastD N1 n1) p0)
        ((180 : ℚ), yDn (lastD P p0) (N2.headD n1)) p0 (shiftLon 360 z) P
        (Z0.map (shiftLon 360)) rfl rfl hPMb hNMb Hglue
      constructor
      · exact hparts.1
      · have hmapB : (closeRing (((-180 : ℚ), yDn (lastD P p0) (N2.headD n1)) ::
              (N2 ++ n1 :: N1) ++ [((-180 : ℚ), yUp (lastD N1 n1) p0)])).map
                (shiftLon 360) =
            closeRing (((180 : ℚ), yDn (lastD P p0) (N2.headD n1)) ::
              (shiftLon 360 z :: Z0.map (shiftLon 360)) ++
                [((180 : ℚ), yUp (lastD N1 n1) p0)]) := by
          show List.map (shiftLon 360)
              ((((-180 : ℚ), yDn (lastD P p0) (N2.headD n1)) ::
                ((N2 ++ n1 :: N1) ++ [((-180 : ℚ), yUp (lastD N1 n1) p0)])) ++
                [((-180 : ℚ), yDn (lastD P p0) (N2.headD n1))]) =
            (((180 : ℚ), yDn (lastD P p0) (N2.headD n1)) ::
              ((shiftLon 360 z :: Z0.map (shiftLon 360)) ++
                [((180 : ℚ), yUp (lastD N1 n1) p0)])) ++
              [((180 : ℚ), yDn (lastD P p0) (N2.headD n1))]
          rw [hZ, ← hs1, ← hs2]
          simp
        rw [← noSelfIntersect_shiftLon 360
          (closeRing (((-180 : ℚ), yDn (lastD P p0) (N2.headD n1)) ::
            (N2 ++ n1 :: N1) ++ [((-180 : ℚ), yUp (lastD N1 n1) p0)]))]
        rw [hmapB]
        exact hparts.2

/-- Witness for C3 at a concrete single-crossing pentagon presented with
a trailing positive run (vertices at longitudes 170, -170, -160, 165). -/
theorem resolve_split_single_crossing_witness :
    posRunForm [((170 : ℚ), (0 : ℚ)), (-170, 0), (-160, 5), (165, 5), (170, 0)] ∧
      ((resolve .SPLIT
          [((170 : ℚ), (0 : ℚ)), (-170, 0), (-160, 5), (165, 5), (170, 0)]).length = 2 ∧
        ∃ A B, (resolve .SPLIT
              [((170 : ℚ), (0 : ℚ)), (-170, 0), (-160, 5), (165, 5), (170, 0)] =
              [A, B] ∨
            resolve .SPLIT
              [((170 : ℚ), (0 : ℚ)), (-170, 0), (-160, 5), (165, 5), (170, 0)] =
              [B, A]) ∧
          (∀ q ∈ A, 0 < q.1 ∧ q.1 ≤ 180) ∧
          (∀ q ∈ B, -180 ≤ q.1 ∧ q.1 < 0) ∧
          signedArea A + signedArea B = signedArea (normalizeRing
            [((170 : ℚ), (0 : ℚ)), (-170, 0), (-160, 5), (165, 5), (170, 0)]) ∧
          (noSelfIntersect (A.dropLast ++
              ((B.map (shiftLon 360)).tail.dropLast)) = true →
            noSelfIntersect A = true ∧ noSelfIntersect B = true)) := by
  have hform : posRunForm
      [((170 : ℚ), (0 : ℚ)), (-170, 0), (-160, 5), (165, 5), (170, 0)] := by
    refine ⟨((170 : ℚ), (0 : ℚ)), [], ((-170 : ℚ), (0 : ℚ)),
      [((-160 : ℚ), (5 : ℚ))], [((165 : ℚ), (5 : ℚ))], rfl, ?_, ?_, ?_, ?_, ?_⟩
    · intro q hq
      simp only [List.mem_singleton, List.not_mem_nil, or_false,
        List.mem_cons] at hq
      rw [hq]
      norm_num
    · intro q hq
      simp only [List.mem_cons, List.mem_singleton, List.not_mem_nil,
        or_false] at hq
      rcases hq with h | h <;> rw [h] <;> norm_num
    · intro q hq
      simp only [List.mem_singleton, List.not_mem_nil, or_false,
        List.mem_cons] at hq
      rw [hq]
      norm_num
    · norm_num [lastD]
    · norm_num [lastD]
  exact ⟨hform, resolve_split_single_crossing _ (Or.inl hform)⟩

end Viirs
